import Mathlib

/-!
# gatest: a genetic algorithm over binary genes

Shallow embedding of `main.go`. The program evolves a population of bit
strings towards a target bit string by tournament selection, uniform
crossover and per-gene mutation.

Conventions of the embedding:

* Go `[]byte` gene arrays live in an explicit `Heap`; an individual holds
  the address of its array, so that in-place writes (`ind.genes[i] = ...`)
  and sharing of an individual between two populations are visible.
* `*individual` is `Option individual` (`none` is the nil pointer). The
  fields of an individual are never reassigned, so the struct is a value.
* The process-wide pseudo-random source is an explicit stream `Rng`.
* A Go panic (index out of range, nil dereference, `rand.Intn(0)`) is the
  result `none` of the enclosing function.
* Go `int` is 64 bits wide; `float64` values are compared exactly.
* A Go `string` is a Lean `String` (valid UTF-8 text).
-/

namespace Gatest

/-! ## Runtime model: float64, int, random source, heap of byte arrays -/

/-- A Go `float64`. A finite value is the dyadic rational `num / 2 ^ exp`
(every finite double is one; `-0.0` and `0.0` compare equal). -/
inductive Float64 where
  | finite (num : Int) (exp : Nat)
  | posInf
  | negInf
  | nan

/-- Go's `x <= y` on `float64`: exact on finite values, false with a NaN. -/
def Float64.le : Float64 → Float64 → Bool
  | .nan, _ => false
  | _, .nan => false
  | .negInf, _ => true
  | _, .posInf => true
  | .finite a e, .finite b f => decide (a * 2 ^ f ≤ b * 2 ^ e)
  | _, _ => false

/-- The literal `0.0`, also the zero value of a `float64` field. -/
def Float64.zero : Float64 := .finite 0 0

/-- The literal `1.0`. -/
def Float64.one : Float64 := .finite 1 0

/-- The literal `0.5` of `evolve`. -/
def Float64.half : Float64 := .finite 1 1

/-- The literal `0.015` of `evolve`: the double nearest to 15/1000, which is
`1080863910568919 / 2 ^ 56`. -/
def Float64.lit0015 : Float64 := .finite 1080863910568919 56

/-- Two's complement wrap-around of a Go `int` (64 bits). -/
def wrapInt64 (x : Int) : Int := (x + 2 ^ 63) % 2 ^ 64 - 2 ^ 63

/-- The shared pseudo-random source (`math/rand`, seeded once in `init`): the
stream of the raw values on which the successive calls of `rand.Intn` and
`rand.Float64` base their results. Each call consumes the head of the stream,
and every sequence of results of such calls is produced by some stream. -/
abbrev Rng := Nat → Nat

/-- The source after one draw. -/
def Rng.tail (rng : Rng) : Rng := fun i => rng (i + 1)

/-- Go `rand.Intn(n)`: a value in `[0, n)`, every one of them possible; panics
when `n <= 0`. -/
def Rng.intn (rng : Rng) (n : Nat) : Option (Nat × Rng) :=
  if n = 0 then none else some (rng 0 % n, Rng.tail rng)

/-- Go `byte(rand.Intn(2))`: a bit; `Intn(2)` cannot panic. -/
def Rng.bit (rng : Rng) : Nat × Rng := (rng 0 % 2, Rng.tail rng)

/-- Go `rand.Float64()`: a value in `[0.0, 1.0)`. The library computes
`float64(Int63()) / (1 << 63)`; here the result is `k / 2 ^ 63` for the raw
value `k` reduced below `2 ^ 63`, which covers every value the library can
return (`0.0` for `k = 0`) and stays below `1.0`. -/
def Rng.float64 (rng : Rng) : Float64 × Rng :=
  (.finite ((rng 0 % 2 ^ 63 : Nat) : Int) 63, Rng.tail rng)

/-- The heap of `[]byte` arrays; an address is an index into the list. A byte
is a `Nat` (below 256 in every array the program builds). -/
abbrev Heap := List (List Nat)

/-- The content of the array at address `p` (empty when nothing is there). -/
def Heap.read (h : Heap) (p : Nat) : List Nat := h.getD p []

/-- The write `a[i] = v` into the array at address `p`. -/
def Heap.store (h : Heap) (p i v : Nat) : Heap := h.set p ((Heap.read h p).set i v)

/-- Go `make([]byte, n)`: a fresh zeroed array; returns its address. -/
def Heap.make (h : Heap) (n : Nat) : Nat × Heap := (h.length, h ++ [List.replicate n 0])

/-! ## Data model (main.go, lines 67-74 and 149-152) -/

/-- The `individual` struct. `genes` is the address of the gene array.
`fitnessFunc` is a `func(*individual) int`; it is applied to the content of
the individual's gene array, the only data an individual carries besides the
function itself. -/
structure individual where
  genes : Nat
  fitnessFunc : List Nat → Int

/-- The `population` struct. A slot of `individuals` is a `*individual`. -/
structure population where
  individuals : List (Option individual)
  target : List Nat
  generation : Int
  elitist : Bool
  uniformRate : Float64
  mutationRate : Float64

/-! ## Operations -/

/-- Source `newPopulation` (lines 76-82): `size` nil slots; only `target` and
`elitist` are stored, the other fields keep their zero values. Sizes are
lengths, so they are natural numbers. -/
def newPopulation (size : Nat) (_uniformRate _mutationRate : Float64) (target : List Nat)
    (elitist : Bool) : population :=
  ⟨List.replicate size none, target, 0, elitist, Float64.zero, Float64.zero⟩

/-- Source `population.fitness` (lines 134-147), on the content `genes` of
`ind.genes`: 0 when the lengths differ, otherwise the loop counting the
positions where target and genes agree. The count is at most `len(target)`,
so the Go `int` never wraps. -/
def population.fitness (pop : population) (genes : List Nat) : Int :=
  if genes.length ≠ pop.target.length then 0
  else
    (List.range pop.target.length).foldl
      (fun fitness i => if pop.target.getD i 0 = genes.getD i 0 then fitness + 1 else fitness) 0

/-- Source `individual.fitness` (lines 185-187): calls the stored function on
the individual. -/
def individual.fitness (ind : individual) (h : Heap) : Int :=
  ind.fitnessFunc (Heap.read h ind.genes)

/-- Body of the loop of `newIndividual` (line 161), for the array at `p`:
`genes[i] = byte(rand.Intn(2))`. -/
def newIndividualStep (p : Nat) (s : Heap × Rng) (i : Nat) : Heap × Rng :=
  (Heap.store s.1 p i (Rng.bit s.2).1, (Rng.bit s.2).2)

/-- Source `newIndividual` (lines 154-165): a fresh array of `size` bytes,
each set to a drawn bit, in index order. -/
def newIndividual (size : Nat) (fitness : List Nat → Int) (h : Heap) (rng : Rng) :
    individual × Heap × Rng :=
  let m := Heap.make h size
  let s := (List.range size).foldl (newIndividualStep m.1) (m.2, rng)
  (⟨m.1, fitness⟩, s.1, s.2)

/-- Body of the loop of `crossover` (lines 175-179), for the arrays at the
addresses `a`, `b` of the parents and `c` of the child. -/
def crossoverStep (a b c : Nat) (uniformRate : Float64) (s : Heap × Rng) (i : Nat) :
    Heap × Rng :=
  if Float64.le (Rng.float64 s.2).1 uniformRate then
    (Heap.store s.1 c i ((Heap.read s.1 a).getD i 0), (Rng.float64 s.2).2)
  else
    (Heap.store s.1 c i ((Heap.read s.1 b).getD i 0), (Rng.float64 s.2).2)

/-- Source `crossover` (lines 167-183): nil when the gene lengths differ;
otherwise a new individual whose gene `i` is `a.genes[i]` when the drawn
float is `<= uniformRate` and `b.genes[i]` otherwise. -/
def crossover (a b : individual) (uniformRate : Float64) (h : Heap) (rng : Rng) :
    Option individual × Heap × Rng :=
  if (Heap.read h a.genes).length ≠ (Heap.read h b.genes).length then (none, h, rng)
  else
    let c := newIndividual (Heap.read h a.genes).length a.fitnessFunc h rng
    let s := (List.range (Heap.read h a.genes).length).foldl
      (crossoverStep a.genes b.genes c.1.genes uniformRate) (c.2.1, c.2.2)
    (some c.1, s.1, s.2)

/-- Body of the loop of `mutate` (lines 191-193), for the array at `p`. -/
def mutateStep (p : Nat) (mutationRate : Float64) (s : Heap × Rng) (i : Nat) : Heap × Rng :=
  if Float64.le (Rng.float64 s.2).1 mutationRate then
    (Heap.store s.1 p i (Rng.bit (Rng.float64 s.2).2).1, (Rng.bit (Rng.float64 s.2).2).2)
  else (s.1, (Rng.float64 s.2).2)

/-- Source `individual.mutate` (lines 189-195): for each position a float is
drawn; when it is `<= mutationRate` a bit is drawn and stored there. -/
def individual.mutate (ind : individual) (mutationRate : Float64) (h : Heap) (rng : Rng) :
    Heap × Rng :=
  (List.range (Heap.read h ind.genes).length).foldl (mutateStep ind.genes mutationRate) (h, rng)

/-- Body of the loop of `fittest` (lines 127-129): a later individual
replaces the current one only when its fitness is strictly greater. Calling
`fitness()` through a nil pointer panics. -/
def fittestStep (h : Heap) (fittest ind : Option individual) : Option (Option individual) :=
  match fittest, ind with
  | some f, some i =>
    if individual.fitness f h < individual.fitness i h then some (some i) else some (some f)
  | _, _ => none

/-- Source `population.fittest` (lines 124-132): starts from slot 0 (panics on
an empty slice) and scans `individuals[1:]`. -/
def population.fittest (pop : population) (h : Heap) : Option (Option individual) :=
  match pop.individuals with
  | [] => none
  | first :: rest => rest.foldlM (fittestStep h) first

/-- Body of the loop of `individualByTournament` (line 118):
`tournament.individuals[i] = pop.individuals[rand.Intn(len(pop.individuals))]`. -/
def population.tournamentStep (pop : population) (s : List (Option individual) × Rng)
    (i : Nat) : Option (List (Option individual) × Rng) :=
  (Rng.intn s.2 pop.individuals.length).map fun d =>
    (s.1.set i (pop.individuals.getD d.1 none), d.2)

/-- Source `population.individualByTournament` (lines 114-122): `size` slots,
each filled with the individual at a drawn index, then the fittest of them.
`rand.Intn` panics on an empty population. -/
def population.individualByTournament (pop : population) (size : Nat) (h : Heap) (rng : Rng) :
    Option (Option individual × Rng) :=
  let tournament := newPopulation size pop.uniformRate pop.mutationRate pop.target pop.elitist
  ((List.range size).foldlM (population.tournamentStep pop) (tournament.individuals, rng)).bind
    fun s => (population.fittest { tournament with individuals := s.1 } h).map fun f => (f, s.2)

/-- One iteration of the loop of `evolve` (lines 102-106) for slot `i`: two
tournaments of size 5, crossover at rate 0.5, mutation of the child at rate
0.015. A nil parent or a nil child panics on its first dereference. -/
def population.evolveStep (pop : population) (s : List (Option individual) × Heap × Rng)
    (i : Nat) : Option (List (Option individual) × Heap × Rng) :=
  (population.individualByTournament pop 5 s.2.1 s.2.2).bind fun ra =>
  (population.individualByTournament pop 5 s.2.1 ra.2).bind fun rb =>
  match ra.1, rb.1 with
  | some a, some b =>
    match crossover a b Float64.half s.2.1 rb.2 with
    | (some c, h1, rng1) =>
      some (s.1.set i (some c), individual.mutate c Float64.lit0015 h1 rng1)
    | (none, _, _) => none
  | _, _ => none

/-- Source `population.evolve` (lines 92-112): the new slot set holds the
current fittest in slot 0 when `elitist`, and children in the remaining
slots; `generation` is incremented. -/
def population.evolve (pop : population) (h : Heap) (rng : Rng) :
    Option (population × Heap × Rng) :=
  let evolved := newPopulation pop.individuals.length pop.uniformRate pop.mutationRate
    pop.target pop.elitist
  (if pop.elitist then
      (population.fittest pop h).map fun f => (evolved.individuals.set 0 f, 1)
    else some (evolved.individuals, 0)).bind fun (st : List (Option individual) × Nat) =>
  ((List.range' st.2 (pop.individuals.length - st.2)).foldlM (population.evolveStep pop)
    (st.1, h, rng)).map fun s =>
  ({ pop with generation := wrapInt64 (pop.generation + 1), individuals := s.1 }, s.2.1, s.2.2)

/-- Body of the loop of `newInitializedPopulation` (line 87):
`pop.individuals[i] = newIndividual(len(target), pop.fitness)`. -/
def population.initStep (pop : population) (s : List (Option individual) × Heap × Rng)
    (i : Nat) : List (Option individual) × Heap × Rng :=
  (s.1.set i (some (newIndividual pop.target.length (population.fitness pop) s.2.1 s.2.2).1),
    (newIndividual pop.target.length (population.fitness pop) s.2.1 s.2.2).2)

/-- Source `newInitializedPopulation` (lines 84-90): every slot receives a new
random individual of `len(target)` genes scoring with `pop.fitness`. -/
def newInitializedPopulation (size : Nat) (uniformRate mutationRate : Float64)
    (target : List Nat) (elitist : Bool) (h : Heap) (rng : Rng) : population × Heap × Rng :=
  let pop := newPopulation size uniformRate mutationRate target elitist
  let s := (List.range size).foldl (population.initStep pop) (pop.individuals, h, rng)
  ({ pop with individuals := s.1 }, s.2.1, s.2.2)

/-- A Go `string`, restricted to valid UTF-8 text. -/
abbrev GoString := String

/-- Body of the loop of `stringToGenes` (lines 37-43): `range` over a string
yields the byte offset `i` of each character `c`. The state is the array and
the offset of the next character. -/
def stringToGenesStep (s : List Nat × Nat) (c : Char) : List Nat × Nat :=
  (s.1.set s.2 (if c = '1' then 1 else 0), s.2 + c.utf8Size)

/-- Source `stringToGenes` (lines 35-45): an array of `len(target)` bytes (the
length in bytes), with 1 at the offset of each character `1` and 0 elsewhere. -/
def stringToGenes (target : GoString) : List Nat :=
  (target.data.foldl stringToGenesStep (List.replicate target.utf8ByteSize 0, 0)).1

/-- Body of the loop of `String` (lines 200-204): appends the byte `0` or `1`
(each one ASCII character of the final string). -/
def stringStep (genes : List Nat) (s : List Char) (i : Nat) : List Char :=
  if genes.getD i 0 = 0 then s ++ ['0'] else s ++ ['1']

/-- Source `individual.String` (lines 197-207): the rendering of the genes. -/
def individual.String (ind : individual) (h : Heap) : GoString :=
  ⟨(List.range (Heap.read h ind.genes).length).foldl (stringStep (Heap.read h ind.genes)) []⟩

/-- The condition of the loop of `main` (line 57):
`pop.fittest().fitness() < len(pop.target)`; it panics when `fittest()` does
or returns nil. -/
def loopCondition (pop : population) (h : Heap) : Option Bool :=
  match population.fittest pop h with
  | some (some e) => some (decide (individual.fitness e h < (pop.target.length : Nat)))
  | _ => none

/-! ## Specification-level functions -/

/-- The source after `k` draws. -/
def Rng.drop (rng : Rng) (k : Nat) : Rng := fun i => rng (i + k)

/-- The genes of a crossover child, position by position: the gene of `A`
when the float drawn for the position is `<= uniformRate`, else that of `B`. -/
def crossGenes (uniformRate : Float64) (A B : List Nat) (rng : Rng) : List Nat :=
  (List.range A.length).map fun i =>
    if Float64.le (Rng.float64 (Rng.drop rng i)).1 uniformRate then A.getD i 0 else B.getD i 0

/-- The genes after `mutate`, position by position, with the source left
after the draws of the positions. -/
def mutateGenes (mutationRate : Float64) : List Nat → Rng → List Nat × Rng
  | [], rng => ([], rng)
  | g :: gs, rng =>
    if Float64.le (Rng.float64 rng).1 mutationRate then
      ((Rng.bit (Rng.float64 rng).2).1
          :: (mutateGenes mutationRate gs (Rng.bit (Rng.float64 rng).2).2).1,
        (mutateGenes mutationRate gs (Rng.bit (Rng.float64 rng).2).2).2)
    else
      (g :: (mutateGenes mutationRate gs (Rng.float64 rng).2).1,
        (mutateGenes mutationRate gs (Rng.float64 rng).2).2)

/-- Every slot holds an individual whose gene array has length `L` in the
heap `h`. -/
def uniformSlots (slots : List (Option individual)) (h : Heap) (L : Nat) : Prop :=
  ∀ s ∈ slots, ∃ x : individual, s = some x ∧ (Heap.read h x.genes).length = L

/-- The result of `n` successive calls of `evolve()`. -/
def evolveN : Nat → population → Heap → Rng → Option (population × Heap × Rng)
  | 0, pop, h, rng => some (pop, h, rng)
  | n + 1, pop, h, rng =>
    (population.evolve pop h rng).bind fun r => evolveN n r.1 r.2.1 r.2.2

/-- Slot `k` holds `r`, no individual of `slots` is fitter than `r`, and every
individual in a slot before `k` is strictly less fit: `r` is the individual
at the lowest index among those of maximal fitness. -/
def firstMax (slots : List (Option individual)) (h : Heap) (k : Nat) (r : individual) : Prop :=
  slots[k]? = some (some r) ∧
  (∀ (j : Nat) (y : individual), slots[j]? = some (some y) →
    individual.fitness y h ≤ individual.fitness r h) ∧
  (∀ (j : Nat) (y : individual), j < k → slots[j]? = some (some y) →
    individual.fitness y h < individual.fitness r h)

/-- The array `g` is what the loop of `evolve` builds from the parent arrays
`A` and `B`: `crossover` at rate 0.5, then `mutate` at rate 0.015, for some
states of the random source. -/
def childGenes (A B g : List Nat) : Prop :=
  ∃ r1 r2 : Rng, g = (mutateGenes Float64.lit0015 (crossGenes Float64.half A B r1) r2).1

/-- The individual `c` of the heap `h'` is a crossover child made by `evolve`
from the population `pop` in the heap `h`: its array is new, it scores with
the function of its first parent, and its genes are `childGenes` of the genes
of two members of `pop`. -/
def isChild (pop : population) (h h' : Heap) (c : individual) : Prop :=
  ∃ a b : individual, some a ∈ pop.individuals ∧ some b ∈ pop.individuals ∧
    c.fitnessFunc = a.fitnessFunc ∧ h.length ≤ c.genes ∧ c.genes < h'.length ∧
    childGenes (Heap.read h a.genes) (Heap.read h b.genes) (Heap.read h' c.genes)

/-- Every gene of the array is 0 or 1. -/
def binaryGenes (g : List Nat) : Prop := ∀ v ∈ g, v = 0 ∨ v = 1

/-- Every slot holds an individual whose gene array, in the heap `h`, has
length `L` and holds only the values 0 and 1. -/
def wellFormedSlots (slots : List (Option individual)) (h : Heap) (L : Nat) : Prop :=
  ∀ s ∈ slots, ∃ x : individual, s = some x ∧ (Heap.read h x.genes).length = L ∧
    binaryGenes (Heap.read h x.genes)

/-- The character rendering a gene: `0` for the value 0, `1` otherwise. -/
def geneChar (v : Nat) : Char := if v = 0 then '0' else '1'

/-- The string is made only of the characters `0` and `1`. -/
def binaryString (s : GoString) : Prop := ∀ c ∈ s.data, c = '0' ∨ c = '1'

/-- The number of draws `mutate` has made when its loop reaches position `i`:
position 0 starts at draw 0, and a position uses one draw (the float) when
its test `<= mutationRate` fails and two (the float, then the bit) when it
passes. So the float of position `i` is draw `drawOffset .. i` and its bit,
if drawn, is the next draw. -/
def drawOffset (mutationRate : Float64) (rng : Rng) : Nat → Nat
  | 0 => 0
  | i + 1 =>
    if Float64.le (Rng.float64 (Rng.drop rng (drawOffset mutationRate rng i))).1 mutationRate
    then drawOffset mutationRate rng i + 2
    else drawOffset mutationRate rng i + 1

/-- The state (slots, heap, random source) of the loop of `evolve` after its
first `k` iterations, the loop filling the slots from `st` on and starting in
the state `s0`: the state in which iteration `st + k` starts; `none` if an
iteration has panicked. -/
def evolveState (pop : population) (st k : Nat) (s0 : List (Option individual) × Heap × Rng) :
    Option (List (Option individual) × Heap × Rng) :=
  (List.range' st k).foldlM (population.evolveStep pop) s0

/-- The individual `c` is the child made by the iteration of the loop of
`evolve` that starts in the state `s`, and `g` are its genes at the end of
that iteration: the parents `a` and `b` are the results of the two
tournaments of size 5 run from `s`, `c` is the result of `crossover(a, b,
0.5)` run next, a new array, and `g` is that array after `c.mutate(0.015)`. -/
def childOfRun (pop : population) (s : List (Option individual) × Heap × Rng) (c : individual)
    (g : List Nat) : Prop :=
  ∃ (a b : individual) (hc : Heap) (rc : Rng),
    some a ∈ pop.individuals ∧ some b ∈ pop.individuals ∧
    population.individualByTournament pop 5 s.2.1 s.2.2 = some (some a, Rng.drop s.2.2 5) ∧
    population.individualByTournament pop 5 s.2.1 (Rng.drop s.2.2 5)
      = some (some b, Rng.drop s.2.2 10) ∧
    crossover a b Float64.half s.2.1 (Rng.drop s.2.2 10) = (some c, hc, rc) ∧
    c.genes = s.2.1.length ∧
    g = Heap.read (individual.mutate c Float64.lit0015 hc rc).1 c.genes

/-! ## Auxiliary constructors and concrete inputs -/

/-- A population record with the given slots and target (generation 0,
elitist, zero rates). -/
def mkPopulation (individuals : List (Option individual)) (target : List Nat) : population :=
  ⟨individuals, target, 0, true, Float64.zero, Float64.zero⟩

/-- An individual at address `p` scoring with the fitness method of a
population whose target is `target`. -/
def mkIndividual (p : Nat) (target : List Nat) : individual :=
  ⟨p, population.fitness (mkPopulation [] target)⟩

/-- The random source whose raw draws are all 0. -/
def zeroRng : Rng := fun _ => 0

/-- Two individuals, at addresses 0 and 1, scoring against the target `11`. -/
def demoPop : population :=
  mkPopulation [some (mkIndividual 0 [1, 1]), some (mkIndividual 1 [1, 1])] [1, 1]

/-- A heap for `demoPop`: the genes are `10` and `11`. -/
def demoHeap : Heap := [[1, 0], [1, 1]]

/-- Two individuals scoring against the target `1`. -/
def mixedPop : population :=
  mkPopulation [some (mkIndividual 0 [1]), some (mkIndividual 1 [1])] [1]

/-- A heap for `mixedPop` in which the gene lengths differ: `1` and `10`. -/
def mixedHeap : Heap := [[1], [1, 0]]

/-- Raw draws 0, 0, 0, 0, 0 and then 1 for ever: a first tournament of
`mixedPop` draws index 0 five times, a second one index 1 five times. -/
def mixedRng : Rng := fun i => if i < 5 then 0 else 1

/-- Two individuals of equal fitness 1 against the target `11`. -/
def tiePop : population :=
  mkPopulation [some (mkIndividual 0 [1, 1]), some (mkIndividual 1 [1, 1])] [1, 1]

/-- A heap for `tiePop`: the genes are `10` and `01`. -/
def tieHeap : Heap := [[1, 0], [0, 1]]

/-- The population `mixedPop` with elitism switched off. -/
def mixedPopPlain : population := { mixedPop with elitist := false }

/-- A population of the single individual at address 0, target `11`. -/
def singlePop : population := mkPopulation [some (mkIndividual 0 [1, 1])] [1, 1]

/-- A heap for `singlePop`: the genes are `10`. -/
def singleHeap : Heap := [[1, 0]]

/-- The population `demoPop` with other configured rates (1.0 and 0.5). -/
def demoPopRates : population :=
  { demoPop with uniformRate := Float64.one, mutationRate := Float64.half }

/-- A population of one individual, at address 0, with an empty target. -/
def emptyTargetPop : population := mkPopulation [some (mkIndividual 0 [])] (stringToGenes "")

/-- A population of one individual, at address 0, with the default target. -/
def defaultPop : population :=
  mkPopulation [some (mkIndividual 0 (stringToGenes "110011"))] (stringToGenes "110011")

/-! # Verification -/

/-! ## The runtime model: heap and loops -/

theorem Heap.read_store_same (h : Heap) (p i v : Nat) :
    Heap.read (Heap.store h p i v) p = (Heap.read h p).set i v := by
  unfold Heap.store Heap.read
  by_cases hp : p < h.length
  · simp [List.getD_eq_getElem?_getD, List.getElem?_set, hp]
  · have hp2 : h.length ≤ p := not_lt.mp hp
    simp [List.getD_eq_getElem?_getD, List.getElem?_set, hp, List.getElem?_eq_none hp2]

theorem Heap.read_store_ne (h : Heap) (p q i v : Nat) (hq : q ≠ p) :
    Heap.read (Heap.store h p i v) q = Heap.read h q := by
  unfold Heap.store Heap.read
  simp [List.getD_eq_getElem?_getD, List.getElem?_set, Ne.symm hq]

theorem Heap.length_store (h : Heap) (p i v : Nat) :
    (Heap.store h p i v).length = h.length := by
  simp [Heap.store]

theorem Heap.read_append_left (h ext : Heap) (q : Nat) (hq : q < h.length) :
    Heap.read (h ++ ext) q = Heap.read h q := by
  unfold Heap.read
  simp [List.getD_eq_getElem?_getD, List.getElem?_append_left hq]

theorem Heap.read_append_length (h : Heap) (g : List Nat) (ext : Heap) :
    Heap.read (h ++ g :: ext) h.length = g := by
  unfold Heap.read
  rw [List.getD_eq_getElem?_getD, List.getElem?_append_right (le_refl _)]
  simp

theorem Heap.read_of_length_le (h : Heap) (q : Nat) (hq : h.length ≤ q) :
    Heap.read h q = [] := by
  unfold Heap.read
  simp [List.getD_eq_getElem?_getD, List.getElem?_eq_none hq]

/-- A store into the last array of the heap. -/
theorem Heap.store_append_last (h : Heap) (g : List Nat) (i v : Nat) :
    Heap.store (h ++ [g]) h.length i v = h ++ [g.set i v] := by
  unfold Heap.store
  rw [Heap.read_append_length]
  simp [List.set_append]

/-- Loop rule for `for i := 0; i < n; i++`: an invariant indexed by the number
of completed iterations. -/
theorem foldl_range_inv {σ : Type} (step : σ → Nat → σ) (P : Nat → σ → Prop) (s0 : σ)
    (n : Nat) (h0 : P 0 s0) (hs : ∀ k s, k < n → P k s → P (k + 1) (step s k)) :
    P n ((List.range n).foldl step s0) := by
  have key : ∀ m, m ≤ n → P m ((List.range m).foldl step s0) := by
    intro m
    induction m with
    | zero => intro _; simpa using h0
    | succ m ih =>
      intro hm
      rw [List.range_succ, List.foldl_append]
      exact hs m _ hm (ih (Nat.le_of_succ_le hm))
  exact key n le_rfl

/-- Loop rule for a loop `for i := a; i < a + len; i++` whose body may panic. -/
theorem foldlM_range'_inv {σ : Type} (step : σ → Nat → Option σ) (P : Nat → σ → Prop)
    (s0 : σ) (a len : Nat) (h0 : P 0 s0)
    (hs : ∀ k s, k < len → P k s → ∃ s', step s (a + k) = some s' ∧ P (k + 1) s') :
    ∃ s, (List.range' a len).foldlM step s0 = some s ∧ P len s := by
  have key : ∀ m, m ≤ len → ∃ s, (List.range' a m).foldlM step s0 = some s ∧ P m s := by
    intro m
    induction m with
    | zero => intro _; exact ⟨s0, rfl, h0⟩
    | succ m ih =>
      intro hm
      obtain ⟨s, hfold, hP⟩ := ih (Nat.le_of_succ_le hm)
      obtain ⟨s', hstep, hP'⟩ := hs m s hm hP
      refine ⟨s', ?_, hP'⟩
      rw [List.range'_1_concat, List.foldlM_append, hfold]
      simp [hstep]
  exact key len le_rfl

/-! ## Lemmas on `fitness` and `fittest` -/

/-- The counting loop: folding a conditional increment over `0..n-1` adds the
number of indices that satisfy the test. -/
theorem foldl_range_count (p : Nat → Prop) [DecidablePred p] (n : Nat) (init : Int) :
    (List.range n).foldl (fun acc i => if p i then acc + 1 else acc) init
      = init + ((List.range n).countP (fun i => decide (p i)) : Nat) := by
  induction n with
  | zero => simp
  | succ n ih =>
    rw [List.range_succ, List.foldl_append, ih, List.countP_append]
    by_cases hp : p n
    · simp [hp, List.countP_cons]; ring
    · simp [hp, List.countP_cons]

/-- Value of `fitness` when the lengths agree: the number of agreeing positions. -/
theorem fitness_eq_countP (pop : population) (genes : List Nat)
    (hlen : genes.length = pop.target.length) :
    population.fitness pop genes
      = ((List.range pop.target.length).countP
          (fun i => decide (pop.target[i]? = genes[i]?)) : Nat) := by
  unfold population.fitness
  rw [if_neg (by simpa using hlen)]
  rw [foldl_range_count (fun i => pop.target.getD i 0 = genes.getD i 0)]
  simp only [zero_add, Nat.cast_inj]
  apply List.countP_congr
  intro i hi
  have h1 : i < pop.target.length := List.mem_range.mp hi
  have h2 : i < genes.length := hlen ▸ h1
  simp [List.getD_eq_getElem?_getD, List.getElem?_eq_getElem h1, List.getElem?_eq_getElem h2]

theorem fitness_of_length_ne (pop : population) (genes : List Nat)
    (hlen : genes.length ≠ pop.target.length) : population.fitness pop genes = 0 := by
  unfold population.fitness
  rw [if_pos hlen]

/-- The scan of `fittest` over slots that all hold an individual: it returns
the current one or a scanned one, of fitness at least that of each. -/
theorem fittest_scan (h : Heap) (rest : List (Option individual)) :
    ∀ f : individual, (∀ s ∈ rest, s ≠ none) →
      ∃ r : individual, rest.foldlM (fittestStep h) (some f) = some (some r) ∧
        (r = f ∨ some r ∈ rest) ∧
        individual.fitness f h ≤ individual.fitness r h ∧
        ∀ j : individual, some j ∈ rest → individual.fitness j h ≤ individual.fitness r h := by
  induction rest with
  | nil => intro f _; exact ⟨f, rfl, Or.inl rfl, le_refl _, by simp⟩
  | cons s rest ih =>
    intro f hs
    have hsome : s ≠ none := hs s (List.mem_cons_self _ _)
    obtain ⟨i, rfl⟩ := Option.ne_none_iff_exists'.mp hsome
    have hrest : ∀ s ∈ rest, s ≠ none := fun s hm => hs s (List.mem_cons_of_mem _ hm)
    by_cases hlt : individual.fitness f h < individual.fitness i h
    · obtain ⟨r, hr, hmem, hle, hall⟩ := ih i hrest
      refine ⟨r, ?_, ?_, ?_, ?_⟩
      · simp [List.foldlM_cons, fittestStep, hlt, hr]
      · rcases hmem with rfl | hmem
        · exact Or.inr (List.mem_cons_self _ _)
        · exact Or.inr (List.mem_cons_of_mem _ hmem)
      · exact le_trans (le_of_lt hlt) hle
      · intro j hj
        rcases List.mem_cons.mp hj with hj | hj
        · cases hj; exact hle
        · exact hall j hj
    · obtain ⟨r, hr, hmem, hle, hall⟩ := ih f hrest
      refine ⟨r, ?_, ?_, hle, ?_⟩
      · simp [List.foldlM_cons, fittestStep, hlt, hr]
      · rcases hmem with rfl | hmem
        · exact Or.inl rfl
        · exact Or.inr (List.mem_cons_of_mem _ hmem)
      · intro j hj
        rcases List.mem_cons.mp hj with hj | hj
        · cases hj; exact le_trans (not_lt.mp hlt) hle
        · exact hall j hj

/-- Characterisation of `fittest` on a list of slots. -/
theorem fittest_of_slots (pop : population) (h : Heap)
    (hne : pop.individuals ≠ []) (hsome : ∀ s ∈ pop.individuals, s ≠ none) :
    ∃ r : individual, population.fittest pop h = some (some r) ∧
      some r ∈ pop.individuals ∧
      ∀ j : individual, some j ∈ pop.individuals →
        individual.fitness j h ≤ individual.fitness r h := by
  unfold population.fittest
  cases hl : pop.individuals with
  | nil => exact absurd hl hne
  | cons s rest =>
    rw [hl] at hsome
    obtain ⟨f, rfl⟩ := Option.ne_none_iff_exists'.mp (hsome s (List.mem_cons_self _ _))
    obtain ⟨r, hr, hmem, hle, hall⟩ :=
      fittest_scan h rest f (fun s hm => hsome s (List.mem_cons_of_mem _ hm))
    refine ⟨r, hr, ?_, ?_⟩
    · rcases hmem with rfl | hmem
      · exact List.mem_cons_self _ _
      · exact List.mem_cons_of_mem _ hmem
    · intro j hj
      rcases List.mem_cons.mp hj with hj | hj
      · cases hj; exact hle
      · exact hall j hj

/-! ## Lemmas on the loops of `newIndividual`, `crossover` and `mutate` -/

theorem Rng.drop_zero (rng : Rng) : Rng.drop rng 0 = rng := by
  funext i; simp [Rng.drop]

theorem Rng.tail_drop (rng : Rng) (k : Nat) : Rng.tail (Rng.drop rng k) = Rng.drop rng (k + 1) := by
  funext i; simp [Rng.drop, Rng.tail]; congr 1; omega

theorem Rng.drop_drop (rng : Rng) (j k : Nat) :
    Rng.drop (Rng.drop rng j) k = Rng.drop rng (j + k) := by
  funext i; simp [Rng.drop]; congr 1; omega

theorem Rng.drop_apply (rng : Rng) (k i : Nat) : Rng.drop rng k i = rng (i + k) := rfl

/-- Writing position `k` of an array whose first `k` cells are already final. -/
theorem set_prefix_drop {α : Type} (l1 old : List α) (k : Nat) (v : α) (hl : l1.length = k)
    (hk : k < old.length) :
    (l1 ++ old.drop k).set k v = (l1 ++ [v]) ++ old.drop (k + 1) := by
  subst hl
  rw [List.set_append, if_neg (lt_irrefl _), Nat.sub_self, List.drop_eq_getElem_cons hk,
    List.set_cons_zero, List.append_assoc]
  rfl

/-- Reading position `k` of an array whose first `k` cells are already final. -/
theorem getD_prefix_drop (l1 old : List Nat) (k d : Nat) (hl : l1.length = k)
    (hk : k < old.length) :
    (l1 ++ old.drop k).getD k d = old.getD k d := by
  subst hl
  rw [List.getD_eq_getElem?_getD, List.getD_eq_getElem?_getD,
    List.getElem?_append_right (le_refl _), Nat.sub_self, List.getElem?_drop]
  simp

/-- What `newIndividual` returns: the new array is the last of the heap and
holds the bits of the first `size` draws. -/
theorem newIndividual_eq (size : Nat) (f : List Nat → Int) (h : Heap) (rng : Rng) :
    newIndividual size f h rng
      = (⟨h.length, f⟩, h ++ [(List.range size).map (fun i => rng i % 2)],
          Rng.drop rng size) := by
  unfold newIndividual Heap.make
  have key := foldl_range_inv (newIndividualStep h.length)
    (fun k s => s = (h ++ [(List.range k).map (fun i => rng i % 2)
        ++ (List.replicate size 0).drop k], Rng.drop rng k))
    (h ++ [List.replicate size 0], rng) size (by simp [Rng.drop_zero])
    (by
      intro k s hk hs
      subst hs
      unfold newIndividualStep
      simp only [Rng.bit, Rng.tail_drop, Heap.store_append_last]
      rw [set_prefix_drop _ _ _ _ (by simp) (by simpa using hk), List.range_succ]
      simp [Rng.drop_apply])
  simp only at key
  dsimp only
  rw [key]
  simp

theorem Heap.lt_length_of_read_ne_nil (h : Heap) (q : Nat) (hq : Heap.read h q ≠ []) :
    q < h.length := by
  by_contra hcon
  exact hq (Heap.read_of_length_le h q (not_lt.mp hcon))

theorem Heap.lt_length_of_pos (h : Heap) (q : Nat) (hq : 0 < (Heap.read h q).length) :
    q < h.length :=
  Heap.lt_length_of_read_ne_nil h q (List.ne_nil_of_length_pos hq)

/-- What `crossover` returns on parents of equal gene length: the child is a
new array, the last of the heap; `2 * len` draws are consumed, the first `len`
by `newIndividual`. -/
theorem crossover_eq (a b : individual) (rate : Float64) (h : Heap) (rng : Rng)
    (hlen : (Heap.read h a.genes).length = (Heap.read h b.genes).length) :
    crossover a b rate h rng
      = (some ⟨h.length, a.fitnessFunc⟩,
          h ++ [crossGenes rate (Heap.read h a.genes) (Heap.read h b.genes)
            (Rng.drop rng (Heap.read h a.genes).length)],
          Rng.drop rng ((Heap.read h a.genes).length + (Heap.read h a.genes).length)) := by
  unfold crossover
  rw [if_neg (by simpa using hlen)]
  simp only [newIndividual_eq]
  have key := foldl_range_inv (crossoverStep a.genes b.genes h.length rate)
    (fun k s => s = (h ++ [(List.range k).map (fun i =>
          if Float64.le (Rng.float64 (Rng.drop (Rng.drop rng (Heap.read h a.genes).length) i)).1 rate
          then (Heap.read h a.genes).getD i 0 else (Heap.read h b.genes).getD i 0)
        ++ ((List.range (Heap.read h a.genes).length).map (fun i => rng i % 2)).drop k],
        Rng.drop rng ((Heap.read h a.genes).length + k)))
    (h ++ [(List.range (Heap.read h a.genes).length).map (fun i => rng i % 2)],
      Rng.drop rng (Heap.read h a.genes).length)
    (Heap.read h a.genes).length (by simp)
    (by
      intro k s hk hs
      subst hs
      have ha : a.genes < h.length := Heap.lt_length_of_pos h _ (by omega)
      have hb : b.genes < h.length := Heap.lt_length_of_pos h _ (by omega)
      unfold crossoverStep
      simp only [Heap.store_append_last, Heap.read_append_left _ _ _ ha,
        Heap.read_append_left _ _ _ hb, Rng.drop_drop]
      have hfl : (Rng.float64 (Rng.drop rng ((Heap.read h a.genes).length + k))).2
          = Rng.drop rng ((Heap.read h a.genes).length + (k + 1)) := by
        simp [Rng.float64, Rng.tail_drop, Nat.add_assoc]
      split_ifs with hle
      · rw [set_prefix_drop _ _ _ _ (by simp) (by simpa using hk), List.range_succ, hfl]
        simp [hle]
      · rw [set_prefix_drop _ _ _ _ (by simp) (by simpa using hk), List.range_succ, hfl]
        simp [hle])
  simp only at key
  rw [key]
  simp [crossGenes]

theorem mutateGenes_nil (rate : Float64) (rng : Rng) : mutateGenes rate [] rng = ([], rng) := by
  rw [mutateGenes]

theorem mutateGenes_cons (rate : Float64) (g : Nat) (gs : List Nat) (rng : Rng) :
    mutateGenes rate (g :: gs) rng
      = if Float64.le (Rng.float64 rng).1 rate then
          ((Rng.bit (Rng.float64 rng).2).1
              :: (mutateGenes rate gs (Rng.bit (Rng.float64 rng).2).2).1,
            (mutateGenes rate gs (Rng.bit (Rng.float64 rng).2).2).2)
        else
          (g :: (mutateGenes rate gs (Rng.float64 rng).2).1,
            (mutateGenes rate gs (Rng.float64 rng).2).2) := by
  rw [mutateGenes]

theorem mutateGenes_length (rate : Float64) (gs : List Nat) :
    ∀ rng : Rng, (mutateGenes rate gs rng).1.length = gs.length := by
  induction gs with
  | nil => intro rng; rfl
  | cons g gs ih =>
    intro rng
    rw [mutateGenes_cons]
    split_ifs <;> simp [ih]

theorem set_getElem_same {α : Type} (l : List α) (i : Nat) (hi : i < l.length) :
    l.set i l[i] = l := by
  apply List.ext_getElem?
  intro n
  by_cases hin : i = n
  · subst hin; simp [List.getElem?_set, hi]
  · simp [List.getElem?_set, hin]

/-- One more position at the end of the array: `mutateGenes` treats it with
the source left by the positions before it. -/
theorem mutateGenes_concat (rate : Float64) (gs : List Nat) (x : Nat) :
    ∀ rng : Rng, mutateGenes rate (gs ++ [x]) rng
      = if Float64.le (Rng.float64 (mutateGenes rate gs rng).2).1 rate then
          ((mutateGenes rate gs rng).1 ++ [(Rng.bit (Rng.float64 (mutateGenes rate gs rng).2).2).1],
            (Rng.bit (Rng.float64 (mutateGenes rate gs rng).2).2).2)
        else ((mutateGenes rate gs rng).1 ++ [x], (Rng.float64 (mutateGenes rate gs rng).2).2) := by
  induction gs with
  | nil =>
    intro rng
    rw [List.nil_append, mutateGenes_cons]
    simp [mutateGenes_nil]
  | cons g gs ih =>
    intro rng
    rw [List.cons_append, mutateGenes_cons, mutateGenes_cons]
    by_cases h1 : Float64.le (Rng.float64 rng).1 rate = true
    · rw [if_pos h1, if_pos h1, ih]
      split_ifs <;> rfl
    · rw [if_neg h1, if_neg h1, ih]
      split_ifs <;> rfl

/-- What `mutate` does: only the array of the individual changes, to
`mutateGenes` of its content. -/
theorem mutate_eq (ind : individual) (rate : Float64) (h : Heap) (rng : Rng) :
    individual.mutate ind rate h rng
      = (h.set ind.genes (mutateGenes rate (Heap.read h ind.genes) rng).1,
          (mutateGenes rate (Heap.read h ind.genes) rng).2) := by
  unfold individual.mutate
  have key := foldl_range_inv (mutateStep ind.genes rate)
    (fun k s => s = (h.set ind.genes
        ((mutateGenes rate ((Heap.read h ind.genes).take k) rng).1
          ++ (Heap.read h ind.genes).drop k),
        (mutateGenes rate ((Heap.read h ind.genes).take k) rng).2))
    (h, rng) (Heap.read h ind.genes).length
    (by
      simp only [List.take_zero, List.drop_zero, mutateGenes, List.nil_append]
      unfold Heap.read
      by_cases hp : ind.genes < h.length
      · simp [List.getD_eq_getElem?_getD, List.getElem?_eq_getElem hp, set_getElem_same]
      · rw [List.set_eq_of_length_le (not_lt.mp hp)])
    (by
      intro k s hk hs
      subst hs
      have hp : ind.genes < h.length := Heap.lt_length_of_pos h _ (by omega)
      have hread : ∀ arr : List Nat, Heap.read (h.set ind.genes arr) ind.genes = arr := by
        intro arr
        unfold Heap.read
        simp [List.getD_eq_getElem?_getD, List.getElem?_set, hp]
      have htake : (Heap.read h ind.genes).take (k + 1)
          = (Heap.read h ind.genes).take k ++ [(Heap.read h ind.genes)[k]] := by
        rw [List.take_succ, List.getElem?_eq_getElem hk]; rfl
      unfold mutateStep
      rw [htake, mutateGenes_concat]
      split_ifs with hle
      · unfold Heap.store
        rw [hread, List.set_set,
          set_prefix_drop _ _ _ _ (by simp [mutateGenes_length, le_of_lt hk]) hk]
      · rw [List.append_assoc, List.singleton_append, ← List.drop_eq_getElem_cons hk])
  simp only at key
  rw [key]
  simp

/-! ## Claims on `population.fitness` and `population.fittest` -/

/-- C1: for every target and every individual, `population.fitness` returns 0
when the gene length differs from the target length, and otherwise exactly
the number of positions `i < len(target)` with `target[i] == genes[i]`; in
every case the result lies in `[0, len(target)]`. -/
theorem fitness_spec (pop : population) (h : Heap) (ind : individual) :
    ((Heap.read h ind.genes).length ≠ pop.target.length →
        population.fitness pop (Heap.read h ind.genes) = 0) ∧
    ((Heap.read h ind.genes).length = pop.target.length →
        population.fitness pop (Heap.read h ind.genes)
          = (((List.range pop.target.length).filter
              (fun i => decide (pop.target[i]? = (Heap.read h ind.genes)[i]?))).length : Nat)) ∧
    0 ≤ population.fitness pop (Heap.read h ind.genes) ∧
    population.fitness pop (Heap.read h ind.genes) ≤ (pop.target.length : Nat) := by
  refine ⟨fitness_of_length_ne pop _, ?_, ?_⟩
  · intro hlen
    rw [fitness_eq_countP pop _ hlen, List.countP_eq_length_filter]
  · by_cases hlen : (Heap.read h ind.genes).length = pop.target.length
    · rw [fitness_eq_countP pop _ hlen]
      refine ⟨Int.natCast_nonneg _, ?_⟩
      have hle := List.countP_le_length
        (fun i => decide (pop.target[i]? = (Heap.read h ind.genes)[i]?))
        (l := List.range pop.target.length)
      rw [List.length_range] at hle
      exact_mod_cast hle
    · rw [fitness_of_length_ne pop _ hlen]
      exact ⟨le_refl _, Int.natCast_nonneg _⟩

/-- When the lengths agree, the fitness is the target length exactly when the
genes are the target. -/
theorem fitness_full_iff_of_length (pop : population) (genes : List Nat)
    (hlen : genes.length = pop.target.length) :
    population.fitness pop genes = (pop.target.length : Nat) ↔ genes = pop.target := by
  rw [fitness_eq_countP pop _ hlen, Nat.cast_inj]
  have hr : pop.target.length = (List.range pop.target.length).length := by simp
  conv_lhs => rhs; rw [hr]
  rw [List.countP_eq_length]
  constructor
  · intro hall
    symm
    apply List.ext_getElem?
    intro i
    by_cases hi : i < pop.target.length
    · have := hall i (List.mem_range.mpr hi)
      simpa using this
    · have h1 : pop.target.length ≤ i := not_lt.mp hi
      rw [List.getElem?_eq_none h1, List.getElem?_eq_none (hlen ▸ h1)]
  · intro heq i _
    simp [heq]

/-- C2 (amended): for every target and every individual, unless the target is
empty and the individual has genes, `population.fitness` returns exactly
`len(target)` if and only if the genes equal the target. -/
theorem fitness_eq_length_iff (pop : population) (h : Heap) (ind : individual)
    (hok : pop.target ≠ [] ∨ Heap.read h ind.genes = []) :
    population.fitness pop (Heap.read h ind.genes) = (pop.target.length : Nat)
      ↔ Heap.read h ind.genes = pop.target := by
  by_cases hlen : (Heap.read h ind.genes).length = pop.target.length
  · exact fitness_full_iff_of_length pop _ hlen
  · rw [fitness_of_length_ne pop _ hlen]
    have hne : Heap.read h ind.genes ≠ pop.target := fun heq => hlen (by rw [heq])
    have htar : pop.target ≠ [] := by
      rcases hok with ht | hg
      · exact ht
      · intro ht
        exact hlen (by rw [hg, ht])
    constructor
    · intro h0
      have : pop.target.length = 0 := by exact_mod_cast h0.symm
      exact absurd (List.length_eq_zero.mp this) htar
    · intro heq
      exact absurd heq hne

/-- Witness of C2 (amended): target `10`, genes `10`. -/
theorem fitness_eq_length_iff_witness :
    ((mkPopulation [] [1, 0]).target ≠ [] ∨ Heap.read [[1, 0]] (mkIndividual 0 [1, 0]).genes = []) ∧
    (population.fitness (mkPopulation [] [1, 0]) (Heap.read [[1, 0]] (mkIndividual 0 [1, 0]).genes)
        = ((mkPopulation [] [1, 0]).target.length : Nat)
      ↔ Heap.read [[1, 0]] (mkIndividual 0 [1, 0]).genes = (mkPopulation [] [1, 0]).target) :=
  ⟨Or.inl (by decide),
    fitness_eq_length_iff (mkPopulation [] [1, 0]) [[1, 0]] (mkIndividual 0 [1, 0])
      (Or.inl (by decide))⟩

/-- C2 as stated fails: with an empty target and the genes `1` the fitness is
0, which is `len(target)`, but the genes are not the target. -/
theorem fitness_eq_length_counterexample :
    population.fitness (mkPopulation [] []) (Heap.read [[1]] (mkIndividual 0 []).genes)
        = ((mkPopulation [] []).target.length : Nat) ∧
    Heap.read [[1]] (mkIndividual 0 []).genes ≠ (mkPopulation [] []).target := by
  decide

/-- C3: for every population with at least one individual (every slot holding
one), `fittest()` returns an individual that is a member of the population
and whose fitness is greater than or equal to the fitness of every individual
of the population. -/
theorem fittest_is_max (pop : population) (h : Heap)
    (hne : pop.individuals ≠ []) (hsome : ∀ s ∈ pop.individuals, s ≠ none) :
    ∃ r : individual, population.fittest pop h = some (some r) ∧
      some r ∈ pop.individuals ∧
      ∀ j : individual, some j ∈ pop.individuals →
        individual.fitness j h ≤ individual.fitness r h :=
  fittest_of_slots pop h hne hsome

/-- Witness of C3: two individuals `10` and `11` scored against target `11`. -/
theorem fittest_is_max_witness :
    (mkPopulation [some (mkIndividual 0 [1, 1]), some (mkIndividual 1 [1, 1])] [1, 1]).individuals
        ≠ [] ∧
    (∀ s ∈ (mkPopulation [some (mkIndividual 0 [1, 1]), some (mkIndividual 1 [1, 1])]
        [1, 1]).individuals, s ≠ none) ∧
    ∃ r : individual,
      population.fittest
        (mkPopulation [some (mkIndividual 0 [1, 1]), some (mkIndividual 1 [1, 1])] [1, 1])
        [[1, 0], [1, 1]] = some (some r) ∧
      some r ∈ (mkPopulation [some (mkIndividual 0 [1, 1]), some (mkIndividual 1 [1, 1])]
        [1, 1]).individuals ∧
      ∀ j : individual,
        some j ∈ (mkPopulation [some (mkIndividual 0 [1, 1]), some (mkIndividual 1 [1, 1])]
          [1, 1]).individuals →
        individual.fitness j [[1, 0], [1, 1]] ≤ individual.fitness r [[1, 0], [1, 1]] :=
  ⟨by simp [mkPopulation], by simp [mkPopulation],
    fittest_is_max _ [[1, 0], [1, 1]] (by simp [mkPopulation]) (by simp [mkPopulation])⟩

/-! ## Crossover -/

theorem Heap.read_set (h : Heap) (p q : Nat) (arr : List Nat) :
    Heap.read (h.set p arr) q = if q = p ∧ p < h.length then arr else Heap.read h q := by
  unfold Heap.read
  by_cases hq : q = p
  · subst hq
    by_cases hp : q < h.length
    · simp [List.getD_eq_getElem?_getD, List.getElem?_set, hp]
    · simp [List.getD_eq_getElem?_getD, List.getElem?_set, hp,
        List.getElem?_eq_none (not_lt.mp hp)]
  · simp [List.getD_eq_getElem?_getD, List.getElem?_set, hq, Ne.symm hq]

/-- Appending arrays to the heap does not change an array whose length is
that of all the appended ones (in particular an allocated array). -/
theorem Heap.read_append_of_length (h ext : Heap) (q L : Nat)
    (hext : ∀ g ∈ ext, g.length = L) (hq : (Heap.read h q).length = L) :
    Heap.read (h ++ ext) q = Heap.read h q := by
  by_cases hlt : q < h.length
  · exact Heap.read_append_left h ext q hlt
  · have hnil : Heap.read h q = [] := Heap.read_of_length_le h q (not_lt.mp hlt)
    rw [hnil] at hq ⊢
    by_cases hlt2 : q < (h ++ ext).length
    · have hmem : Heap.read (h ++ ext) q ∈ ext := by
        unfold Heap.read
        rw [List.getD_eq_getElem?_getD, List.getElem?_eq_getElem hlt2, Option.getD_some,
          List.getElem_append_right (not_lt.mp hlt)]
        exact List.getElem_mem _
      have := hext _ hmem
      exact List.length_eq_zero.mp (by rw [this]; exact hq.symm)
    · exact Heap.read_of_length_le _ q (not_lt.mp hlt2)

theorem float64_le_one (rng : Rng) : Float64.le (Rng.float64 rng).1 Float64.one = true := by
  unfold Rng.float64 Float64.one Float64.le
  simp only [decide_eq_true_eq]
  have : rng 0 % 2 ^ 63 < 2 ^ 63 := Nat.mod_lt _ (by norm_num)
  have h2 : ((rng 0 % 2 ^ 63 : Nat) : Int) < 2 ^ 63 := by exact_mod_cast this
  simp only [pow_zero, mul_one, one_mul]
  exact le_of_lt h2

theorem float64_le_zero_iff (rng : Rng) :
    Float64.le (Rng.float64 rng).1 Float64.zero = true ↔ rng 0 % 2 ^ 63 = 0 := by
  unfold Rng.float64 Float64.zero Float64.le
  simp only [decide_eq_true_eq, pow_zero, mul_one, zero_mul]
  constructor
  · intro hle
    have : ((rng 0 % 2 ^ 63 : Nat) : Int) = 0 := le_antisymm hle (Int.natCast_nonneg _)
    exact_mod_cast this
  · intro h0
    rw [h0]; rfl

theorem crossGenes_length (rate : Float64) (A B : List Nat) (rng : Rng) :
    (crossGenes rate A B rng).length = A.length := by
  simp [crossGenes]

theorem crossGenes_getElem? (rate : Float64) (A B : List Nat) (rng : Rng) (i : Nat)
    (hi : i < A.length) :
    (crossGenes rate A B rng)[i]?
      = some (if Float64.le (Rng.float64 (Rng.drop rng i)).1 rate then A.getD i 0
          else B.getD i 0) := by
  simp [crossGenes, List.getElem?_map, List.getElem?_range hi]

theorem getD_eq_of_lt (A : List Nat) (i : Nat) (hi : i < A.length) :
    some (A.getD i 0) = A[i]? := by
  simp [List.getD_eq_getElem?_getD, List.getElem?_eq_getElem hi]

theorem crossGenes_one (A B : List Nat) (rng : Rng) : crossGenes Float64.one A B rng = A := by
  apply List.ext_getElem?
  intro i
  by_cases hi : i < A.length
  · rw [crossGenes_getElem? _ _ _ _ _ hi, float64_le_one, if_pos rfl, getD_eq_of_lt _ _ hi]
  · rw [List.getElem?_eq_none (by rw [crossGenes_length]; exact not_lt.mp hi),
      List.getElem?_eq_none (not_lt.mp hi)]

/-- After `crossover` the arrays of the two parents are what they were. -/
theorem crossover_read_parent (h : Heap) (g : List Nat) (q : Nat)
    (hq : (Heap.read h q).length = g.length) :
    Heap.read (h ++ [g]) q = Heap.read h q :=
  Heap.read_append_of_length h [g] q g.length (by simp) hq

/-- C6: for every pair of individuals, every `uniformRate` and every sequence
of random draws, `crossover` returns nil when the gene lengths differ; when
they match it returns a child whose gene length is the parents' and whose
gene at every position is that of `a` or that of `b`; both parents' genes are
left unchanged. -/
theorem crossover_spec (a b : individual) (rate : Float64) (h : Heap) (rng : Rng) :
    ((Heap.read h a.genes).length ≠ (Heap.read h b.genes).length →
      (crossover a b rate h rng).1 = none ∧ (crossover a b rate h rng).2.1 = h) ∧
    ((Heap.read h a.genes).length = (Heap.read h b.genes).length →
      ∃ c : individual, (crossover a b rate h rng).1 = some c ∧
        (Heap.read (crossover a b rate h rng).2.1 c.genes).length
          = (Heap.read h a.genes).length ∧
        (∀ i, i < (Heap.read h a.genes).length →
          (Heap.read (crossover a b rate h rng).2.1 c.genes)[i]? = (Heap.read h a.genes)[i]? ∨
          (Heap.read (crossover a b rate h rng).2.1 c.genes)[i]? = (Heap.read h b.genes)[i]?) ∧
        Heap.read (crossover a b rate h rng).2.1 a.genes = Heap.read h a.genes ∧
        Heap.read (crossover a b rate h rng).2.1 b.genes = Heap.read h b.genes) := by
  constructor
  · intro hne
    unfold crossover
    rw [if_pos hne]
    exact ⟨rfl, rfl⟩
  · intro hlen
    rw [crossover_eq a b rate h rng hlen]
    refine ⟨⟨h.length, a.fitnessFunc⟩, rfl, ?_, ?_, ?_, ?_⟩
    · simp only [Heap.read_append_length, crossGenes_length]
    · intro i hi
      simp only [Heap.read_append_length]
      rw [crossGenes_getElem? _ _ _ _ _ hi]
      split_ifs
      · exact Or.inl (getD_eq_of_lt _ _ hi)
      · exact Or.inr (getD_eq_of_lt _ _ (hlen ▸ hi))
    · exact crossover_read_parent h _ _ (by rw [crossGenes_length])
    · exact crossover_read_parent h _ _ (by rw [crossGenes_length, hlen])

/-- C7: for every pair of individuals of equal gene length and every sequence
of random draws, `crossover(a, b, 1.0)` returns a child whose genes are
exactly the genes of `a`. -/
theorem crossover_rate_one (a b : individual) (h : Heap) (rng : Rng)
    (hlen : (Heap.read h a.genes).length = (Heap.read h b.genes).length) :
    ∃ c : individual, (crossover a b Float64.one h rng).1 = some c ∧
      Heap.read (crossover a b Float64.one h rng).2.1 c.genes = Heap.read h a.genes := by
  rw [crossover_eq a b _ h rng hlen]
  exact ⟨⟨h.length, a.fitnessFunc⟩, rfl, by
    simp only [Heap.read_append_length, crossGenes_one]⟩

/-- Witness of C7: parents `10` and `01`. -/
theorem crossover_rate_one_witness :
    (Heap.read [[1, 0], [0, 1]] (mkIndividual 0 [1, 1]).genes).length
        = (Heap.read [[1, 0], [0, 1]] (mkIndividual 1 [1, 1]).genes).length ∧
    ∃ c : individual,
      (crossover (mkIndividual 0 [1, 1]) (mkIndividual 1 [1, 1]) Float64.one
        [[1, 0], [0, 1]] zeroRng).1 = some c ∧
      Heap.read (crossover (mkIndividual 0 [1, 1]) (mkIndividual 1 [1, 1]) Float64.one
        [[1, 0], [0, 1]] zeroRng).2.1 c.genes
        = Heap.read [[1, 0], [0, 1]] (mkIndividual 0 [1, 1]).genes :=
  ⟨by decide,
    crossover_rate_one (mkIndividual 0 [1, 1]) (mkIndividual 1 [1, 1]) [[1, 0], [0, 1]] zeroRng
      (by decide)⟩

/-- C8, the code at the failing input: parents `1` and `0`, rate `0.0`, every
raw draw 0, so that `rand.Float64()` returns `0.0`. The test `0.0 <= 0.0`
holds and the child receives the gene of `a`: its genes are `1`, not the
genes `0` of `b`. -/
theorem crossover_rate_zero_takes_a :
    (crossover (mkIndividual 0 [1]) (mkIndividual 1 [1]) Float64.zero [[1], [0]] zeroRng).1.map
        (fun c => Heap.read
          (crossover (mkIndividual 0 [1]) (mkIndividual 1 [1]) Float64.zero [[1], [0]]
            zeroRng).2.1 c.genes)
      = some [1] ∧
    Heap.read [[1], [0]] (mkIndividual 1 [1]).genes = [0] := by
  decide

/-! ## Mutation -/

theorem Rng.float64_snd (rng : Rng) : (Rng.float64 rng).2 = Rng.drop rng 1 := by
  funext i; simp [Rng.float64, Rng.tail, Rng.drop]

theorem Rng.bit_float64_snd (rng : Rng) : (Rng.bit (Rng.float64 rng).2).2 = Rng.drop rng 2 := by
  funext i; simp [Rng.float64, Rng.bit, Rng.tail, Rng.drop]

theorem Rng.bit_float64_fst (rng : Rng) : (Rng.bit (Rng.float64 rng).2).1 = rng 1 % 2 := by
  simp [Rng.float64, Rng.bit, Rng.tail]

/-- Each gene after mutation is the original one, or the bit drawn right after
a float draw that passed the test `<= rate`. -/
theorem mutateGenes_getElem? (rate : Float64) (gs : List Nat) :
    ∀ (rng : Rng) (i : Nat), i < gs.length →
      (mutateGenes rate gs rng).1[i]? = gs[i]? ∨
      ∃ k, Float64.le (Rng.float64 (Rng.drop rng k)).1 rate = true ∧
        (mutateGenes rate gs rng).1[i]? = some (rng (k + 1) % 2) := by
  induction gs with
  | nil => intro rng i hi; simp at hi
  | cons g gs ih =>
    intro rng i hi
    rw [mutateGenes_cons]
    by_cases hle : Float64.le (Rng.float64 rng).1 rate = true
    · rw [if_pos hle]
      cases i with
      | zero =>
        right
        exact ⟨0, by rw [Rng.drop_zero]; exact hle, by simp [Rng.bit_float64_fst]⟩
      | succ i =>
        have hi2 : i < gs.length := by simpa using hi
        rcases ih (Rng.bit (Rng.float64 rng).2).2 i hi2 with hsame | ⟨k, hk, hbit⟩
        · left; simpa using hsame
        · right
          rw [Rng.bit_float64_snd, Rng.drop_drop] at hk
          rw [Rng.bit_float64_snd] at hbit
          refine ⟨2 + k, hk, ?_⟩
          simp only [List.getElem?_cons_succ]
          rw [Rng.bit_float64_snd, hbit, Rng.drop_apply]
          have harith : k + 1 + 2 = 2 + k + 1 := by omega
          rw [harith]
    · rw [if_neg hle]
      cases i with
      | zero => left; simp
      | succ i =>
        have hi2 : i < gs.length := by simpa using hi
        rcases ih (Rng.float64 rng).2 i hi2 with hsame | ⟨k, hk, hbit⟩
        · left; simpa using hsame
        · right
          rw [Rng.float64_snd, Rng.drop_drop] at hk
          rw [Rng.float64_snd] at hbit
          refine ⟨1 + k, hk, ?_⟩
          simp only [List.getElem?_cons_succ]
          rw [Rng.float64_snd, hbit, Rng.drop_apply]
          have harith : k + 1 + 1 = 1 + k + 1 := by omega
          rw [harith]

/-- At rate `1.0` every position is redrawn: position `i` uses draws `2 * i`
(the float) and `2 * i + 1` (the bit). -/
theorem mutateGenes_one (gs : List Nat) :
    ∀ rng : Rng, mutateGenes Float64.one gs rng
      = ((List.range gs.length).map (fun i => rng (2 * i + 1) % 2),
          Rng.drop rng (2 * gs.length)) := by
  induction gs with
  | nil => intro rng; simp [mutateGenes_nil, Rng.drop_zero]
  | cons g gs ih =>
    intro rng
    rw [mutateGenes_cons, if_pos (float64_le_one rng), ih, Rng.bit_float64_snd,
      Rng.bit_float64_fst, Rng.drop_drop]
    refine Prod.ext ?_ ?_
    · simp only [List.length_cons, List.range_succ_eq_map, List.map_cons, List.map_map]
      refine congrArg₂ _ rfl ?_
      apply List.map_congr_left
      intro i _
      simp only [Function.comp, Rng.drop_apply]
      have harith : 2 * i + 1 + 2 = 2 * (i + 1) + 1 := by omega
      rw [harith]
    · simp only [List.length_cons]
      have harith : 2 + 2 * gs.length = 2 * (gs.length + 1) := by omega
      rw [harith]

/-- At rate `0.0` a position is redrawn exactly when its float draw is `0.0`;
when no raw draw is 0 modulo `2 ^ 63` nothing changes. -/
theorem mutateGenes_zero_of_pos (gs : List Nat) :
    ∀ rng : Rng, (∀ k, rng k % 2 ^ 63 ≠ 0) →
      (mutateGenes Float64.zero gs rng).1 = gs := by
  induction gs with
  | nil => intro rng _; simp [mutateGenes_nil]
  | cons g gs ih =>
    intro rng hpos
    have hle : ¬ Float64.le (Rng.float64 rng).1 Float64.zero = true := by
      rw [float64_le_zero_iff]; exact hpos 0
    rw [mutateGenes_cons, if_neg hle]
    simp only
    rw [ih]
    intro k
    rw [Rng.float64_snd, Rng.drop_apply]
    exact hpos _

/-- The array of the individual after `mutate`. -/
theorem mutate_read_self (ind : individual) (rate : Float64) (h : Heap) (rng : Rng) :
    Heap.read (individual.mutate ind rate h rng).1 ind.genes
      = (mutateGenes rate (Heap.read h ind.genes) rng).1 := by
  rw [mutate_eq, Heap.read_set]
  by_cases hp : ind.genes < h.length
  · rw [if_pos ⟨rfl, hp⟩]
  · rw [if_neg (fun hc => hp hc.2), Heap.read_of_length_le h _ (not_lt.mp hp), mutateGenes_nil]

/-- The other arrays after `mutate`. -/
theorem mutate_read_other (ind : individual) (rate : Float64) (h : Heap) (rng : Rng) (q : Nat)
    (hq : q ≠ ind.genes) :
    Heap.read (individual.mutate ind rate h rng).1 q = Heap.read h q := by
  rw [mutate_eq, Heap.read_set, if_neg (fun hc => hq hc.1)]

/-! ## Mutation, position by position -/

theorem drawOffset_zero (rate : Float64) (rng : Rng) : drawOffset rate rng 0 = 0 := rfl

theorem drawOffset_succ (rate : Float64) (rng : Rng) (i : Nat) :
    drawOffset rate rng (i + 1)
      = if Float64.le (Rng.float64 (Rng.drop rng (drawOffset rate rng i))).1 rate
        then drawOffset rate rng i + 2 else drawOffset rate rng i + 1 := rfl

/-- The draws of the positions after the first, counted from the source left
by the first position. -/
theorem drawOffset_shift (rate : Float64) (rng : Rng) (i : Nat) :
    drawOffset rate rng (i + 1)
      = if Float64.le (Rng.float64 rng).1 rate
        then 2 + drawOffset rate (Rng.drop rng 2) i
        else 1 + drawOffset rate (Rng.drop rng 1) i := by
  induction i with
  | zero =>
    rw [drawOffset_succ, drawOffset_zero, drawOffset_zero, drawOffset_zero, Rng.drop_zero]
  | succ i ih =>
    rw [drawOffset_succ, ih]
    by_cases h0 : Float64.le (Rng.float64 rng).1 rate = true
    · rw [if_pos h0, if_pos h0, drawOffset_succ, Rng.drop_drop]
      split_ifs <;> omega
    · rw [if_neg h0, if_neg h0, drawOffset_succ, Rng.drop_drop]
      split_ifs <;> omega

/-- The gene at position `i` after mutation: the bit drawn for the position
when the float drawn for the position passes the test, the original gene
otherwise. -/
theorem mutateGenes_exact (rate : Float64) (gs : List Nat) :
    ∀ (rng : Rng) (i : Nat), i < gs.length →
      (mutateGenes rate gs rng).1[i]?
        = if Float64.le (Rng.float64 (Rng.drop rng (drawOffset rate rng i))).1 rate
          then some (Rng.bit (Rng.drop rng (drawOffset rate rng i + 1))).1
          else gs[i]? := by
  induction gs with
  | nil => intro rng i hi; simp at hi
  | cons g gs ih =>
    intro rng i hi
    cases i with
    | zero =>
      rw [mutateGenes_cons, drawOffset_zero, Rng.drop_zero]
      by_cases h0 : Float64.le (Rng.float64 rng).1 rate = true
      · rw [if_pos h0, if_pos h0]
        simp only [List.getElem?_cons_zero, Rng.bit_float64_fst]
        simp [Rng.bit, Rng.drop_apply]
      · rw [if_neg h0, if_neg h0]
        simp
    | succ i =>
      have hi2 : i < gs.length := by simpa using hi
      rw [mutateGenes_cons, drawOffset_shift]
      by_cases h0 : Float64.le (Rng.float64 rng).1 rate = true
      · rw [if_pos h0, if_pos h0]
        simp only [List.getElem?_cons_succ]
        rw [Rng.bit_float64_snd, ih _ i hi2, Rng.drop_drop, Rng.drop_drop, Nat.add_assoc]
      · rw [if_neg h0, if_neg h0]
        simp only [List.getElem?_cons_succ]
        rw [Rng.float64_snd, ih _ i hi2, Rng.drop_drop, Rng.drop_drop, Nat.add_assoc]

/-- The source left by `mutate`: the draws of all the positions are consumed. -/
theorem mutateGenes_snd (rate : Float64) (gs : List Nat) :
    ∀ rng : Rng, (mutateGenes rate gs rng).2 = Rng.drop rng (drawOffset rate rng gs.length) := by
  induction gs with
  | nil => intro rng; rw [mutateGenes_nil, List.length_nil, drawOffset_zero, Rng.drop_zero]
  | cons g gs ih =>
    intro rng
    rw [mutateGenes_cons, List.length_cons, drawOffset_shift]
    by_cases h0 : Float64.le (Rng.float64 rng).1 rate = true
    · rw [if_pos h0, if_pos h0]
      simp only
      rw [Rng.bit_float64_snd, ih, Rng.drop_drop]
    · rw [if_neg h0, if_neg h0]
      simp only
      rw [Rng.float64_snd, ih, Rng.drop_drop]

theorem drawOffset_one (rng : Rng) (i : Nat) : drawOffset Float64.one rng i = 2 * i := by
  induction i with
  | zero => rfl
  | succ i ih =>
    rw [drawOffset_succ, if_pos (float64_le_one _), ih]
    omega

/-- C10: for every individual, every `mutationRate` and every sequence of
random draws, `mutate` preserves the gene length, and the gene at each
position `i` is the original gene, when the float drawn for position `i`
fails the test `<= mutationRate`, or the bit (0 or 1) drawn for position `i`
right after that float, when it passes; the array is `mutateGenes` of its
former content and the draws of all positions are consumed; with
`mutationRate = 1.0` every position is redrawn: the gene at position `i` is
the bit of draw `2 * i + 1`. -/
theorem mutate_spec (ind : individual) (rate : Float64) (h : Heap) (rng : Rng) :
    (Heap.read (individual.mutate ind rate h rng).1 ind.genes).length
        = (Heap.read h ind.genes).length ∧
    (∀ i, i < (Heap.read h ind.genes).length →
      (Heap.read (individual.mutate ind rate h rng).1 ind.genes)[i]?
        = if Float64.le (Rng.float64 (Rng.drop rng (drawOffset rate rng i))).1 rate
          then some (Rng.bit (Rng.drop rng (drawOffset rate rng i + 1))).1
          else (Heap.read h ind.genes)[i]?) ∧
    (∀ r : Rng, (Rng.bit r).1 = 0 ∨ (Rng.bit r).1 = 1) ∧
    Heap.read (individual.mutate ind rate h rng).1 ind.genes
      = (mutateGenes rate (Heap.read h ind.genes) rng).1 ∧
    (individual.mutate ind rate h rng).2
      = Rng.drop rng (drawOffset rate rng (Heap.read h ind.genes).length) ∧
    (∀ i, i < (Heap.read h ind.genes).length →
      drawOffset Float64.one rng i = 2 * i ∧
      (Heap.read (individual.mutate ind Float64.one h rng).1 ind.genes)[i]?
        = some (Rng.bit (Rng.drop rng (2 * i + 1))).1) := by
  refine ⟨?_, ?_, ?_, mutate_read_self ind rate h rng, ?_, ?_⟩
  · rw [mutate_read_self, mutateGenes_length]
  · intro i hi
    rw [mutate_read_self, mutateGenes_exact rate _ rng i hi]
  · intro r
    exact Nat.mod_two_eq_zero_or_one _
  · rw [mutate_eq]
    exact mutateGenes_snd rate _ rng
  · intro i hi
    refine ⟨drawOffset_one rng i, ?_⟩
    rw [mutate_read_self, mutateGenes_one]
    simp [List.getElem?_map, List.getElem?_range hi, Rng.bit, Rng.drop_apply]

/-- C9, the code at the failing input: genes `1`, rate `0.0`, every raw draw
0, so that `rand.Float64()` returns `0.0` and `rand.Intn(2)` returns 0. The
test `0.0 <= 0.0` holds and the gene is overwritten: the genes become `0`. -/
theorem mutate_rate_zero_changes :
    Heap.read [[1]] (mkIndividual 0 [1]).genes = [1] ∧
    Heap.read (individual.mutate (mkIndividual 0 [1]) Float64.zero [[1]] zeroRng).1
      (mkIndividual 0 [1]).genes = [0] := by
  decide

/-! ## Tournament selection -/

theorem fittest_congr (pop pop2 : population) (h : Heap)
    (heq : pop.individuals = pop2.individuals) :
    population.fittest pop h = population.fittest pop2 h := by
  unfold population.fittest
  rw [heq]

theorem getD_mem_of_lt {α : Type} (l : List α) (i : Nat) (d : α) (hi : i < l.length) :
    l.getD i d ∈ l := by
  rw [List.getD_eq_getElem?_getD, List.getElem?_eq_getElem hi, Option.getD_some]
  exact List.getElem_mem _

/-- The loop of `individualByTournament` on a non-empty population: slot `i`
receives the individual at the index given by draw `i`. -/
theorem tournament_loop (pop : population) (size : Nat) (rng : Rng)
    (hne : pop.individuals ≠ []) :
    (List.range size).foldlM (population.tournamentStep pop) (List.replicate size none, rng)
      = some ((List.range size).map
          (fun i => pop.individuals.getD (rng i % pop.individuals.length) none),
          Rng.drop rng size) := by
  have hpos : pop.individuals.length ≠ 0 := fun h0 => hne (List.length_eq_zero.mp h0)
  obtain ⟨s, hfold, hs⟩ := foldlM_range'_inv (population.tournamentStep pop)
    (fun k s => s = ((List.range k).map
        (fun i => pop.individuals.getD (rng i % pop.individuals.length) none)
        ++ (List.replicate size (none : Option individual)).drop k, Rng.drop rng k))
    (List.replicate size none, rng) 0 size (by simp [Rng.drop_zero])
    (by
      intro k s hk hs
      subst hs
      refine ⟨_, ?_, rfl⟩
      unfold population.tournamentStep Rng.intn
      rw [if_neg hpos]
      simp only [Option.map_some', zero_add, Rng.tail_drop, Rng.drop_apply]
      rw [set_prefix_drop _ _ _ _ (by simp) (by simpa using hk), List.range_succ]
      simp)
  rw [← List.range_eq_range'] at hfold
  rw [hfold, hs]
  simp

/-- What `individualByTournament` returns on a non-empty population: the
fittest of the drawn slots, after `size` draws. -/
theorem individualByTournament_eq (pop : population) (size : Nat) (h : Heap) (rng : Rng)
    (hne : pop.individuals ≠ []) :
    population.individualByTournament pop size h rng
      = (population.fittest
          (mkPopulation ((List.range size).map
            (fun i => pop.individuals.getD (rng i % pop.individuals.length) none)) pop.target)
          h).map (fun f => (f, Rng.drop rng size)) := by
  unfold population.individualByTournament
  simp only [newPopulation]
  rw [tournament_loop pop size rng hne]
  simp only [Option.some_bind]
  congr 1

/-- A tournament of positive size over a population without nil slot returns
one of its individuals. -/
theorem individualByTournament_mem (pop : population) (size : Nat) (h : Heap) (rng : Rng)
    (hne : pop.individuals ≠ []) (hsome : ∀ s ∈ pop.individuals, s ≠ none) (hsize : 0 < size) :
    ∃ a : individual,
      population.individualByTournament pop size h rng = some (some a, Rng.drop rng size) ∧
      some a ∈ pop.individuals := by
  have hpos : 0 < pop.individuals.length := List.length_pos.mpr hne
  have hmem : ∀ s ∈ (List.range size).map
      (fun i => pop.individuals.getD (rng i % pop.individuals.length) none),
      s ∈ pop.individuals := by
    intro s hs
    obtain ⟨i, _, rfl⟩ := List.mem_map.mp hs
    exact getD_mem_of_lt _ _ _ (Nat.mod_lt _ hpos)
  obtain ⟨r, hr, hrmem, _⟩ := fittest_of_slots
    (mkPopulation ((List.range size).map
      (fun i => pop.individuals.getD (rng i % pop.individuals.length) none)) pop.target) h
    (by
      simp only [mkPopulation]
      intro hnil
      have := congrArg List.length hnil
      simp at this
      omega)
    (fun s hs => hsome s (hmem s hs))
  refine ⟨r, ?_, hmem _ hrmem⟩
  rw [individualByTournament_eq pop size h rng hne, hr]
  rfl

/-! ## The evolution step -/

theorem uniformSlots_append (slots : List (Option individual)) (h ext : Heap) (L : Nat)
    (hu : uniformSlots slots h L) (hext : ∀ g ∈ ext, g.length = L) :
    uniformSlots slots (h ++ ext) L := by
  intro s hs
  obtain ⟨x, rfl, hx⟩ := hu s hs
  exact ⟨x, rfl, by rw [Heap.read_append_of_length h ext _ L hext hx]; exact hx⟩

theorem uniformSlots_ne_none (slots : List (Option individual)) (h : Heap) (L : Nat)
    (hu : uniformSlots slots h L) : ∀ s ∈ slots, s ≠ none := by
  intro s hs hnone
  obtain ⟨x, rfl, _⟩ := hu s hs
  cases hnone

theorem uniformSlots_length (slots : List (Option individual)) (h : Heap) (L : Nat)
    (hu : uniformSlots slots h L) (x : individual) (hx : some x ∈ slots) :
    (Heap.read h x.genes).length = L := by
  obtain ⟨y, hy, hlen⟩ := hu _ hx
  cases hy
  exact hlen

/-- One iteration of the loop of `evolve` on a non-empty population whose
individuals all have gene length `L`: it does not panic, it appends one array
of length `L` to the heap (the child) and stores the child in slot `i`. The
child scores with the function of a member of the population. -/
theorem evolveStep_some (pop : population) (L : Nat) (slots : List (Option individual))
    (h : Heap) (rng : Rng) (i : Nat) (hne : pop.individuals ≠ [])
    (hu : uniformSlots pop.individuals h L) :
    ∃ (a : individual) (g : List Nat) (rng' : Rng),
      some a ∈ pop.individuals ∧ g.length = L ∧
      population.evolveStep pop (slots, h, rng) i
        = some (slots.set i (some ⟨h.length, a.fitnessFunc⟩), h ++ [g], rng') := by
  have hsome := uniformSlots_ne_none _ _ _ hu
  obtain ⟨a, ha, hamem⟩ := individualByTournament_mem pop 5 h rng hne hsome (by norm_num)
  obtain ⟨b, hb, hbmem⟩ :=
    individualByTournament_mem pop 5 h (Rng.drop rng 5) hne hsome (by norm_num)
  have hla := uniformSlots_length _ _ _ hu a hamem
  have hlb := uniformSlots_length _ _ _ hu b hbmem
  have hlen : (Heap.read h a.genes).length = (Heap.read h b.genes).length := by rw [hla, hlb]
  refine ⟨a, (mutateGenes Float64.lit0015
      (crossGenes Float64.half (Heap.read h a.genes) (Heap.read h b.genes)
        (Rng.drop (Rng.drop (Rng.drop rng 5) 5) (Heap.read h a.genes).length))
      (Rng.drop (Rng.drop (Rng.drop rng 5) 5)
        ((Heap.read h a.genes).length + (Heap.read h a.genes).length))).1,
    (mutateGenes Float64.lit0015
      (crossGenes Float64.half (Heap.read h a.genes) (Heap.read h b.genes)
        (Rng.drop (Rng.drop (Rng.drop rng 5) 5) (Heap.read h a.genes).length))
      (Rng.drop (Rng.drop (Rng.drop rng 5) 5)
        ((Heap.read h a.genes).length + (Heap.read h a.genes).length))).2, hamem, ?_, ?_⟩
  · rw [mutateGenes_length, crossGenes_length, hla]
  · unfold population.evolveStep
    simp only [ha, hb, Option.some_bind, crossover_eq a b _ h _ hlen, mutate_eq,
      Heap.read_append_length]
    congr 3
    simp

/-- The loop of `evolve`, started at slot `st` with the slots below `st`
already filled: it does not panic, it appends arrays of length `L` to the
heap, it leaves the slots below `st` as they are and fills every other slot
with an individual of gene length `L`. -/
theorem evolve_loop (pop : population) (h : Heap) (rng : Rng) (L : Nat)
    (slots0 : List (Option individual)) (st : Nat)
    (hu : uniformSlots pop.individuals h L)
    (hlen0 : slots0.length = pop.individuals.length) (hst : st ≤ pop.individuals.length)
    (hpre : ∀ j, j < st → ∃ x : individual, slots0[j]? = some (some x) ∧
      (Heap.read h x.genes).length = L ∧
      ∃ a : individual, some a ∈ pop.individuals ∧ x.fitnessFunc = a.fitnessFunc) :
    ∃ (slots : List (Option individual)) (ext : Heap) (rng' : Rng),
      (List.range' st (pop.individuals.length - st)).foldlM (population.evolveStep pop)
          (slots0, h, rng) = some (slots, h ++ ext, rng') ∧
      slots.length = pop.individuals.length ∧
      (∀ g ∈ ext, g.length = L) ∧
      (∀ j, j < pop.individuals.length → ∃ x : individual, slots[j]? = some (some x) ∧
        (Heap.read (h ++ ext) x.genes).length = L ∧
        ∃ a : individual, some a ∈ pop.individuals ∧ x.fitnessFunc = a.fitnessFunc) ∧
      (∀ j, j < st → slots[j]? = slots0[j]?) := by
  obtain ⟨s, hfold, hlen, ext, hheap, hext, hfilled, hkeep⟩ :=
    foldlM_range'_inv (population.evolveStep pop)
      (fun k s => s.1.length = pop.individuals.length ∧
        ∃ ext : Heap, s.2.1 = h ++ ext ∧ (∀ g ∈ ext, g.length = L) ∧
          (∀ j, j < st + k → ∃ x : individual, s.1[j]? = some (some x) ∧
            (Heap.read s.2.1 x.genes).length = L ∧
            ∃ a : individual, some a ∈ pop.individuals ∧ x.fitnessFunc = a.fitnessFunc) ∧
          (∀ j, j < st → s.1[j]? = slots0[j]?))
      (slots0, h, rng) st (pop.individuals.length - st)
      ⟨hlen0, [], by simp, by simp, by simpa using hpre, fun _ _ => rfl⟩
      (by
        rintro k ⟨sl, hh, r⟩ hk ⟨hlen, ext, hheap, hext, hfilled, hkeep⟩
        simp only at hlen hheap hfilled hkeep
        subst hheap
        have hne : pop.individuals ≠ [] := by
          intro hnil
          rw [hnil] at hk
          simp at hk
        obtain ⟨a, g, rng', hamem, hg, hstep⟩ := evolveStep_some pop L sl (h ++ ext) r (st + k)
          hne (uniformSlots_append _ _ _ _ hu hext)
        refine ⟨_, hstep, ?_, ext ++ [g], ?_, ?_, ?_, ?_⟩
        · simp [hlen]
        · simp
        · intro g' hg'
          rcases List.mem_append.mp hg' with hm | hm
          · exact hext g' hm
          · rw [List.mem_singleton.mp hm]; exact hg
        · intro j hj
          by_cases hjk : j = st + k
          · subst hjk
            refine ⟨⟨(h ++ ext).length, a.fitnessFunc⟩, ?_, ?_, a, hamem, rfl⟩
            · simp only
              rw [List.getElem?_set_self (by rw [hlen]; omega)]
            · simp only [Heap.read_append_length]
              exact hg
          · obtain ⟨x, hx, hxlen, hxa⟩ := hfilled j (by omega)
            refine ⟨x, ?_, ?_, hxa⟩
            · simp only
              rw [List.getElem?_set_ne (Ne.symm hjk)]
              exact hx
            · simp only
              rw [Heap.read_append_of_length (h ++ ext) [g] _ L
                (by intro g' hg'; rw [List.mem_singleton.mp hg']; exact hg) hxlen]
              exact hxlen
        · intro j hj
          simp only
          rw [List.getElem?_set_ne (by omega)]
          exact hkeep j hj)
  obtain ⟨sl, hh, r⟩ := s
  simp only at hlen hheap hfilled hkeep
  subst hheap
  refine ⟨sl, ext, r, hfold, hlen, hext, ?_, hkeep⟩
  intro j hj
  exact hfilled j (by omega)

/-- What one call of `evolve()` does on a population whose individuals all
have gene length `L` (non-empty when elitist): it does not panic; the heap is
extended by arrays of length `L`; the new slot set has the same length and
holds individuals of gene length `L` that score with functions of the former
individuals; when elitist, slot 0 holds the former fittest. -/
theorem evolve_post (pop : population) (h : Heap) (rng : Rng) (L : Nat)
    (hu : uniformSlots pop.individuals h L)
    (hok : pop.elitist = true → pop.individuals ≠ []) :
    ∃ (slots : List (Option individual)) (ext : Heap) (rng' : Rng),
      population.evolve pop h rng
        = some (⟨slots, pop.target, wrapInt64 (pop.generation + 1), pop.elitist,
            pop.uniformRate, pop.mutationRate⟩, h ++ ext, rng') ∧
      slots.length = pop.individuals.length ∧
      (∀ g ∈ ext, g.length = L) ∧
      uniformSlots slots (h ++ ext) L ∧
      (∀ x : individual, some x ∈ slots →
        ∃ a : individual, some a ∈ pop.individuals ∧ x.fitnessFunc = a.fitnessFunc) ∧
      (pop.elitist = true → ∃ e : individual, population.fittest pop h = some (some e) ∧
        some e ∈ pop.individuals ∧ slots[0]? = some (some e)) := by
  have hfin : ∀ (slots : List (Option individual)) (ext : Heap),
      slots.length = pop.individuals.length →
      (∀ j, j < pop.individuals.length → ∃ x : individual, slots[j]? = some (some x) ∧
        (Heap.read (h ++ ext) x.genes).length = L ∧
        ∃ a : individual, some a ∈ pop.individuals ∧ x.fitnessFunc = a.fitnessFunc) →
      uniformSlots slots (h ++ ext) L ∧
      (∀ x : individual, some x ∈ slots →
        ∃ a : individual, some a ∈ pop.individuals ∧ x.fitnessFunc = a.fitnessFunc) := by
    intro slots ext hlen hfilled
    constructor
    · intro s hs
      obtain ⟨j, hj⟩ := List.mem_iff_getElem?.mp hs
      have hjlt : j < slots.length := by
        by_contra hcon
        rw [List.getElem?_eq_none (not_lt.mp hcon)] at hj
        cases hj
      obtain ⟨x, hx, hxlen, _⟩ := hfilled j (hlen ▸ hjlt)
      rw [hx] at hj
      exact ⟨x, (Option.some.inj hj).symm, hxlen⟩
    · intro x hs
      obtain ⟨j, hj⟩ := List.mem_iff_getElem?.mp hs
      have hjlt : j < slots.length := by
        by_contra hcon
        rw [List.getElem?_eq_none (not_lt.mp hcon)] at hj
        cases hj
      obtain ⟨y, hy, _, hya⟩ := hfilled j (hlen ▸ hjlt)
      rw [hy] at hj
      cases hj
      exact hya
  unfold population.evolve
  simp only [newPopulation]
  by_cases hel : pop.elitist = true
  · have hne := hok hel
    have hpos : 0 < pop.individuals.length := List.length_pos.mpr hne
    obtain ⟨e, he, hemem, _⟩ := fittest_of_slots pop h hne (uniformSlots_ne_none _ _ _ hu)
    obtain ⟨slots, ext, rng', hfold, hlen, hext, hfilled, hkeep⟩ := evolve_loop pop h rng L
      ((List.replicate pop.individuals.length none).set 0 (some e)) 1 hu (by simp)
      hpos (by
        intro j hj
        have hj0 : j = 0 := by omega
        subst hj0
        refine ⟨e, ?_, uniformSlots_length _ _ _ hu e hemem, e, hemem, rfl⟩
        rw [List.getElem?_set_self (by simpa using hpos)])
    refine ⟨slots, ext, rng', ?_, hlen, hext, (hfin slots ext hlen hfilled).1,
      (hfin slots ext hlen hfilled).2, ?_⟩
    · rw [if_pos hel, he]
      simp only [Option.map_some', Option.some_bind, hfold]
    · intro _
      refine ⟨e, he, hemem, ?_⟩
      rw [hkeep 0 (by norm_num), List.getElem?_set_self (by simpa using hpos)]
  · obtain ⟨slots, ext, rng', hfold, hlen, hext, hfilled, _⟩ := evolve_loop pop h rng L
      (List.replicate pop.individuals.length none) 0 hu (by simp) (Nat.zero_le _)
      (by intro j hj; omega)
    refine ⟨slots, ext, rng', ?_, hlen, hext, (hfin slots ext hlen hfilled).1,
      (hfin slots ext hlen hfilled).2, fun hc => absurd hc hel⟩
    rw [if_neg hel]
    simp only [Option.some_bind, hfold, Option.map_some']

/-! ## Claims on `evolve` -/

theorem fitness_congr_target (pop pop2 : population) (ht : pop.target = pop2.target) :
    population.fitness pop = population.fitness pop2 := by
  funext genes
  unfold population.fitness
  rw [ht]

/-- Slots without nil whose individuals pairwise agree on the gene length are
uniform for some length. -/
theorem uniformSlots_of_pairwise (slots : List (Option individual)) (h : Heap)
    (hsome : ∀ s ∈ slots, s ≠ none)
    (hlen : ∀ x y : individual, some x ∈ slots → some y ∈ slots →
      (Heap.read h x.genes).length = (Heap.read h y.genes).length) :
    ∃ L, uniformSlots slots h L := by
  cases hs : slots with
  | nil => exact ⟨0, by intro s hmem; cases hmem⟩
  | cons s rest =>
    subst hs
    obtain ⟨x0, rfl⟩ := Option.ne_none_iff_exists'.mp (hsome s (List.mem_cons_self _ _))
    refine ⟨(Heap.read h x0.genes).length, ?_⟩
    intro s hmem
    obtain ⟨x, rfl⟩ := Option.ne_none_iff_exists'.mp (hsome s hmem)
    exact ⟨x, rfl, hlen x x0 hmem (List.mem_cons_self _ _)⟩

/-- Elitism: after one call of `evolve()` on a non-empty elitist population
whose individuals have one gene length, the new fittest scores at least what
the former fittest scored. -/
theorem evolve_fittest_le (pop : population) (h : Heap) (rng : Rng) (L : Nat)
    (hne : pop.individuals ≠ []) (hel : pop.elitist = true)
    (hu : uniformSlots pop.individuals h L) :
    ∃ (pop' : population) (h' : Heap) (rng' : Rng) (e e' : individual),
      population.evolve pop h rng = some (pop', h', rng') ∧
      population.fittest pop h = some (some e) ∧
      population.fittest pop' h' = some (some e') ∧
      individual.fitness e h ≤ individual.fitness e' h' ∧
      some e ∈ pop.individuals ∧ pop'.target = pop.target ∧
      ∃ a : individual, some a ∈ pop.individuals ∧ e'.fitnessFunc = a.fitnessFunc := by
  obtain ⟨slots, ext, rng', hev, hlen, hext, hu', hfun, helite⟩ :=
    evolve_post pop h rng L hu (fun _ => hne)
  obtain ⟨e, he, hemem, h0⟩ := helite hel
  have hne' : slots ≠ [] := by
    intro hnil
    rw [hnil] at h0
    cases h0
  obtain ⟨e', he', hemem', hmax⟩ := fittest_of_slots
    ⟨slots, pop.target, wrapInt64 (pop.generation + 1), pop.elitist, pop.uniformRate,
      pop.mutationRate⟩ (h ++ ext) hne' (uniformSlots_ne_none _ _ _ hu')
  refine ⟨_, _, _, e, e', hev, he, he', ?_, hemem, rfl, hfun e' hemem'⟩
  have hein : some e ∈ slots := List.mem_iff_getElem?.mpr ⟨0, h0⟩
  have hkeep : individual.fitness e (h ++ ext) = individual.fitness e h := by
    unfold individual.fitness
    rw [Heap.read_append_of_length h ext _ L hext (uniformSlots_length _ _ _ hu e hemem)]
  rw [← hkeep]
  exact hmax e hein

/-- C4 (amended): for every non-empty elitist population whose individuals
all have the same gene length and all score with the population's own
fitness function, and for every sequence of random draws, one call of
`evolve()` completes and the fitness of the new `fittest()` individual is not
less than the fitness of the former `fittest()` individual. -/
theorem evolve_elitism_monotone (pop : population) (h : Heap) (rng : Rng)
    (hne : pop.individuals ≠ []) (hel : pop.elitist = true)
    (hsome : ∀ s ∈ pop.individuals, s ≠ none)
    (hlen : ∀ x y : individual, some x ∈ pop.individuals → some y ∈ pop.individuals →
      (Heap.read h x.genes).length = (Heap.read h y.genes).length)
    (hfit : ∀ x : individual, some x ∈ pop.individuals →
      x.fitnessFunc = population.fitness pop) :
    ∃ (pop' : population) (h' : Heap) (rng' : Rng) (e e' : individual),
      population.evolve pop h rng = some (pop', h', rng') ∧
      population.fittest pop h = some (some e) ∧
      population.fittest pop' h' = some (some e') ∧
      individual.fitness e h ≤ individual.fitness e' h' ∧
      individual.fitness e h = population.fitness pop (Heap.read h e.genes) ∧
      individual.fitness e' h' = population.fitness pop' (Heap.read h' e'.genes) := by
  obtain ⟨L, hu⟩ := uniformSlots_of_pairwise _ h hsome hlen
  obtain ⟨pop', h', rng', e, e', hev, he, he', hle, hemem, htar, a, hamem, hfa⟩ :=
    evolve_fittest_le pop h rng L hne hel hu
  refine ⟨pop', h', rng', e, e', hev, he, he', hle, ?_, ?_⟩
  · unfold individual.fitness
    rw [hfit e hemem]
  · unfold individual.fitness
    rw [hfa, hfit a hamem, fitness_congr_target pop pop' htar.symm]

/-- Witness of C4 (amended): `demoPop` in `demoHeap`, every raw draw 0. -/
theorem evolve_elitism_monotone_witness :
    demoPop.individuals ≠ [] ∧ demoPop.elitist = true ∧
    (∀ s ∈ demoPop.individuals, s ≠ none) ∧
    (∀ x y : individual, some x ∈ demoPop.individuals → some y ∈ demoPop.individuals →
      (Heap.read demoHeap x.genes).length = (Heap.read demoHeap y.genes).length) ∧
    (∀ x : individual, some x ∈ demoPop.individuals →
      x.fitnessFunc = population.fitness demoPop) ∧
    ∃ (pop' : population) (h' : Heap) (rng' : Rng) (e e' : individual),
      population.evolve demoPop demoHeap zeroRng = some (pop', h', rng') ∧
      population.fittest demoPop demoHeap = some (some e) ∧
      population.fittest pop' h' = some (some e') ∧
      individual.fitness e demoHeap ≤ individual.fitness e' h' ∧
      individual.fitness e demoHeap = population.fitness demoPop (Heap.read demoHeap e.genes) ∧
      individual.fitness e' h' = population.fitness pop' (Heap.read h' e'.genes) :=
  have hne : demoPop.individuals ≠ [] := by simp [demoPop, mkPopulation]
  have hsome : ∀ s ∈ demoPop.individuals, s ≠ none := by simp [demoPop, mkPopulation]
  have hlen : ∀ x y : individual, some x ∈ demoPop.individuals →
      some y ∈ demoPop.individuals →
      (Heap.read demoHeap x.genes).length = (Heap.read demoHeap y.genes).length := by
    intro x y hx hy
    simp only [demoPop, mkPopulation, List.mem_cons, Option.some.injEq, List.mem_singleton,
      List.not_mem_nil, or_false] at hx hy
    rcases hx with rfl | rfl <;> rcases hy with rfl | rfl <;> rfl
  have hfit : ∀ x : individual, some x ∈ demoPop.individuals →
      x.fitnessFunc = population.fitness demoPop := by
    intro x hx
    simp only [demoPop, mkPopulation, List.mem_cons, Option.some.injEq, List.mem_singleton,
      List.not_mem_nil, or_false] at hx
    rcases hx with rfl | rfl <;> rfl
  ⟨hne, rfl, hsome, hlen, hfit,
    evolve_elitism_monotone demoPop demoHeap zeroRng hne rfl hsome hlen hfit⟩

/-- C4 as stated fails: `mixedPop` is non-empty and elitist and its two
individuals score with its fitness function, but their gene lengths differ
(`1` and `10`). With the draws of `mixedRng` the tournaments select the first
and then the second individual, `crossover` returns nil and `c.mutate`
dereferences it: `evolve()` panics and there is no new fittest individual. -/
theorem evolve_elitism_counterexample :
    mixedPop.individuals ≠ [] ∧ mixedPop.elitist = true ∧
    (∀ s ∈ mixedPop.individuals, s ≠ none) ∧
    (∀ x : individual, some x ∈ mixedPop.individuals →
      x.fitnessFunc = population.fitness mixedPop) ∧
    population.evolve mixedPop mixedHeap mixedRng = none := by
  refine ⟨by simp [mixedPop, mkPopulation], rfl, by simp [mixedPop, mkPopulation], ?_, rfl⟩
  intro x hx
  simp only [mixedPop, mkPopulation, List.mem_cons, Option.some.injEq, List.mem_singleton,
    List.not_mem_nil, or_false] at hx
  rcases hx with rfl | rfl <;> rfl

/-! ## Construction and repeated evolution -/

theorem wrapInt64_zero : wrapInt64 0 = 0 := by
  norm_num [wrapInt64]

theorem wrapInt64_add_left (x y : Int) : wrapInt64 (wrapInt64 x + y) = wrapInt64 (x + y) := by
  unfold wrapInt64
  norm_num
  omega

theorem wrapInt64_of_lt (n : Nat) (hn : n < 2 ^ 63) : wrapInt64 (n : Int) = n := by
  unfold wrapInt64
  have h1 : (n : Int) < 9223372036854775808 := by
    have : (2 : Nat) ^ 63 = 9223372036854775808 := by norm_num
    omega
  norm_num
  omega

/-- What `newInitializedPopulation` builds: `size` slots, each holding a new
individual of `len(target)` genes that scores with the fitness method of the
population; generation 0; the heap is extended. -/
theorem newInitializedPopulation_post (size : Nat) (u m : Float64) (target : List Nat)
    (elitist : Bool) (h : Heap) (rng : Rng) :
    (newInitializedPopulation size u m target elitist h rng).1.generation = 0 ∧
    (newInitializedPopulation size u m target elitist h rng).1.individuals.length = size ∧
    (newInitializedPopulation size u m target elitist h rng).1.target = target ∧
    (newInitializedPopulation size u m target elitist h rng).1.elitist = elitist ∧
    uniformSlots (newInitializedPopulation size u m target elitist h rng).1.individuals
      (newInitializedPopulation size u m target elitist h rng).2.1 target.length ∧
    (∀ x : individual,
      some x ∈ (newInitializedPopulation size u m target elitist h rng).1.individuals →
      x.fitnessFunc = population.fitness (newPopulation size u m target elitist)) := by
  have key := foldl_range_inv (population.initStep (newPopulation size u m target elitist))
    (fun k s => s.1.length = size ∧
      ∃ ext : Heap, s.2.1 = h ++ ext ∧ (∀ g ∈ ext, g.length = target.length) ∧
        (∀ j, j < size → (j < k → ∃ x : individual, s.1[j]? = some (some x) ∧
            (Heap.read s.2.1 x.genes).length = target.length ∧
            x.fitnessFunc = population.fitness (newPopulation size u m target elitist)) ∧
          (k ≤ j → s.1[j]? = some none)))
    ((newPopulation size u m target elitist).individuals, h, rng) size
    ⟨by simp [newPopulation], [], by simp, by simp, by
      intro j hj
      exact ⟨fun hlt => absurd hlt (Nat.not_lt_zero _), fun _ => by
        simp [newPopulation, List.getElem?_replicate, hj]⟩⟩
    (by
      rintro k ⟨sl, hh, r⟩ hk ⟨hlen, ext, hheap, hext, hslots⟩
      simp only at hlen hheap hslots
      subst hheap
      unfold population.initStep
      simp only [newIndividual_eq]
      have htl : (newPopulation size u m target elitist).target = target := rfl
      rw [htl]
      have hbits : ((List.range target.length).map (fun i => r i % 2)).length = target.length := by
        simp
      refine ⟨by simp [hlen], ext ++ [(List.range target.length).map (fun i => r i % 2)],
        by simp, ?_, ?_⟩
      · intro g hg
        rcases List.mem_append.mp hg with hm | hm
        · exact hext g hm
        · rw [List.mem_singleton.mp hm]; exact hbits
      · intro j hj
        constructor
        · intro hjk
          by_cases hjeq : j = k
          · subst hjeq
            refine ⟨⟨(h ++ ext).length,
              population.fitness (newPopulation size u m target elitist)⟩, ?_, ?_, rfl⟩
            · rw [List.getElem?_set_self (by rw [hlen]; exact hj)]
            · simp only [Heap.read_append_length]
              exact hbits
          · obtain ⟨x, hx, hxlen, hxf⟩ := (hslots j hj).1 (by omega)
            refine ⟨x, ?_, ?_, hxf⟩
            · rw [List.getElem?_set_ne (Ne.symm hjeq)]
              exact hx
            · rw [Heap.read_append_of_length (h ++ ext) _ _ target.length
                (by intro g' hg'; rw [List.mem_singleton.mp hg']; exact hbits) hxlen]
              exact hxlen
        · intro hkj
          rw [List.getElem?_set_ne (by omega)]
          exact (hslots j hj).2 (by omega))
  obtain ⟨hlen, ext, hheap, hext, hslots⟩ := key
  have hslot : ∀ s ∈ ((List.range size).foldl
      (population.initStep (newPopulation size u m target elitist))
      ((newPopulation size u m target elitist).individuals, h, rng)).1,
      ∃ x : individual, s = some x ∧
        (Heap.read ((List.range size).foldl
          (population.initStep (newPopulation size u m target elitist))
          ((newPopulation size u m target elitist).individuals, h, rng)).2.1 x.genes).length
          = target.length ∧
        x.fitnessFunc = population.fitness (newPopulation size u m target elitist) := by
    intro s hs
    obtain ⟨j, hj⟩ := List.mem_iff_getElem?.mp hs
    have hjlt : j < size := by
      by_contra hcon
      rw [List.getElem?_eq_none (by rw [hlen]; exact not_lt.mp hcon)] at hj
      cases hj
    obtain ⟨x, hx, hxlen, hxf⟩ := (hslots j hjlt).1 hjlt
    rw [hx] at hj
    exact ⟨x, (Option.some.inj hj).symm, hxlen, hxf⟩
  unfold newInitializedPopulation
  refine ⟨rfl, hlen, rfl, rfl, ?_, ?_⟩
  · intro s hs
    obtain ⟨x, hx, hxlen, _⟩ := hslot s hs
    exact ⟨x, hx, hxlen⟩
  · intro x hx
    obtain ⟨y, hy, _, hyf⟩ := hslot _ hx
    cases hy
    exact hyf

/-- What `n` calls of `evolve()` do to a population whose individuals have one
gene length (non-empty when elitist): no call panics, the generation is the
wrapped sum, the number of individuals, the target and the flag stay. -/
theorem evolveN_post (n : Nat) :
    ∀ (pop : population) (h : Heap) (rng : Rng) (L : Nat),
      uniformSlots pop.individuals h L → (pop.elitist = true → pop.individuals ≠ []) →
      ∃ (pop' : population) (h' : Heap) (rng' : Rng),
        evolveN n pop h rng = some (pop', h', rng') ∧
        wrapInt64 pop'.generation = wrapInt64 (pop.generation + n) ∧
        (0 < n → pop'.generation = wrapInt64 (pop.generation + n)) ∧
        pop'.individuals.length = pop.individuals.length ∧
        pop'.target = pop.target ∧ pop'.elitist = pop.elitist ∧
        uniformSlots pop'.individuals h' L := by
  induction n with
  | zero =>
    intro pop h rng L hu _
    exact ⟨pop, h, rng, rfl, by simp, fun hc => absurd hc (lt_irrefl _), rfl, rfl, rfl, hu⟩
  | succ n ih =>
    intro pop h rng L hu hok
    obtain ⟨slots, ext, rng1, hev, hlen, _, hu1, _, _⟩ := evolve_post pop h rng L hu hok
    have hok1 : pop.elitist = true → slots ≠ [] := by
      intro hel hnil
      have := hok hel
      rw [hnil] at hlen
      exact this (List.length_eq_zero.mp hlen.symm)
    obtain ⟨pop', h', rng', hN, hgen, hgenpos, hlen', htar, hel, hu'⟩ :=
      ih ⟨slots, pop.target, wrapInt64 (pop.generation + 1), pop.elitist, pop.uniformRate,
        pop.mutationRate⟩ (h ++ ext) rng1 L hu1 hok1
    simp only at hgen hgenpos hlen' htar hel hu'
    have hsum : wrapInt64 (wrapInt64 (pop.generation + 1) + (n : Int))
        = wrapInt64 (pop.generation + ((n + 1 : Nat) : Int)) := by
      rw [wrapInt64_add_left]
      congr 1
      push_cast
      ring
    refine ⟨pop', h', rng', ?_, ?_, ?_, by rw [hlen', hlen], htar, hel, hu'⟩
    · rw [evolveN, hev]
      exact hN
    · rw [hgen, hsum]
    · intro _
      rcases Nat.eq_zero_or_pos n with hn0 | hnpos
      · subst hn0
        simp only [evolveN, Option.some.injEq, Prod.mk.injEq] at hN
        obtain ⟨hp, _, _⟩ := hN
        rw [← hp]
        simp
      · rw [hgenpos hnpos, hsum]

/-- A population built by `newInitializedPopulation`, then `n` calls of
`evolve()`, provided it is non-empty when elitist. -/
theorem evolveN_init (size : Nat) (u m : Float64) (target : List Nat) (elitist : Bool)
    (h : Heap) (rng : Rng) (n : Nat) (hsize : 0 < size ∨ elitist = false) :
    ∃ (pop' : population) (h' : Heap) (rng' : Rng),
      evolveN n (newInitializedPopulation size u m target elitist h rng).1
        (newInitializedPopulation size u m target elitist h rng).2.1
        (newInitializedPopulation size u m target elitist h rng).2.2 = some (pop', h', rng') ∧
      pop'.generation = wrapInt64 n ∧
      pop'.individuals.length = size ∧ pop'.target = target ∧ pop'.elitist = elitist := by
  obtain ⟨hgen0, hlen0, htar0, hel0, hu0, _⟩ :=
    newInitializedPopulation_post size u m target elitist h rng
  have hok : (newInitializedPopulation size u m target elitist h rng).1.elitist = true →
      (newInitializedPopulation size u m target elitist h rng).1.individuals ≠ [] := by
    intro hel hnil
    rw [hel0] at hel
    rw [hnil] at hlen0
    rcases hsize with hpos | hfalse
    · simp at hlen0; omega
    · rw [hel] at hfalse; cases hfalse
  obtain ⟨pop', h', rng', hN, hgen, hgenpos, hlen, htar, hel, _⟩ :=
    evolveN_post n _ _ _ _ hu0 hok
  refine ⟨pop', h', rng', hN, ?_, by rw [hlen, hlen0], by rw [htar, htar0], by rw [hel, hel0]⟩
  rcases Nat.eq_zero_or_pos n with hn0 | hnpos
  · subst hn0
    simp only [evolveN, Option.some.injEq, Prod.mk.injEq] at hN
    rw [← hN.1, hgen0]
    exact wrapInt64_zero.symm
  · rw [hgenpos hnpos, hgen0, zero_add]

/-- C5 (amended): a population built by `newInitializedPopulation(size, ...)`
has generation 0 and exactly `size` individuals; when `size >= 1` (or the
population is not elitist), for every `n` and every sequence of random draws
the `n` calls of `evolve()` complete, the generation counter is `n` wrapped
to a 64-bit `int` (so it equals `n` for `n < 2^63`: each call adds exactly 1),
the number of individuals still equals `size`, and `target` and `elitist`
are unchanged. -/
theorem generation_and_size (size : Nat) (u m : Float64) (target : List Nat) (elitist : Bool)
    (h : Heap) (rng : Rng) (n : Nat) (hsize : 0 < size ∨ elitist = false) :
    (newInitializedPopulation size u m target elitist h rng).1.generation = 0 ∧
    (newInitializedPopulation size u m target elitist h rng).1.individuals.length = size ∧
    ∃ (pop' : population) (h' : Heap) (rng' : Rng),
      evolveN n (newInitializedPopulation size u m target elitist h rng).1
        (newInitializedPopulation size u m target elitist h rng).2.1
        (newInitializedPopulation size u m target elitist h rng).2.2 = some (pop', h', rng') ∧
      pop'.generation = wrapInt64 n ∧ (n < 2 ^ 63 → pop'.generation = n) ∧
      pop'.individuals.length = size ∧ pop'.target = target ∧ pop'.elitist = elitist := by
  obtain ⟨hgen0, hlen0, _⟩ := newInitializedPopulation_post size u m target elitist h rng
  obtain ⟨pop', h', rng', hN, hgen, hlen, htar, hel⟩ :=
    evolveN_init size u m target elitist h rng n hsize
  exact ⟨hgen0, hlen0, pop', h', rng', hN, hgen,
    fun hn => by rw [hgen, wrapInt64_of_lt n hn], hlen, htar, hel⟩

/-- Witness of C5 (amended): two individuals for the target `10`, three
generations, every raw draw 0. -/
theorem generation_and_size_witness :
    ((0 < 2) ∨ true = false) ∧
    (newInitializedPopulation 2 Float64.half Float64.lit0015 [1, 0] true [] zeroRng).1.generation
      = 0 ∧
    (newInitializedPopulation 2 Float64.half Float64.lit0015 [1, 0] true []
      zeroRng).1.individuals.length = 2 ∧
    ∃ (pop' : population) (h' : Heap) (rng' : Rng),
      evolveN 3 (newInitializedPopulation 2 Float64.half Float64.lit0015 [1, 0] true [] zeroRng).1
        (newInitializedPopulation 2 Float64.half Float64.lit0015 [1, 0] true [] zeroRng).2.1
        (newInitializedPopulation 2 Float64.half Float64.lit0015 [1, 0] true [] zeroRng).2.2
        = some (pop', h', rng') ∧
      pop'.generation = wrapInt64 (3 : Nat) ∧ ((3 : Nat) < 2 ^ 63 → pop'.generation = (3 : Nat)) ∧
      pop'.individuals.length = 2 ∧ pop'.target = [1, 0] ∧ pop'.elitist = true :=
  ⟨Or.inl (by decide),
    generation_and_size 2 Float64.half Float64.lit0015 [1, 0] true [] zeroRng 3
      (Or.inl (by decide))⟩

/-- C5 as stated fails, twice. With `size = 0` and `elitist = true` the first
call of `evolve()` panics in `fittest()` on `pop.individuals[0]`. And the
counter is a 64-bit `int`: after `2^63` calls on a population of one
individual it is `-2^63`, not `2^63`. -/
theorem generation_and_size_counterexample :
    evolveN 1 (newInitializedPopulation 0 Float64.half Float64.lit0015 [1] true [] zeroRng).1
      (newInitializedPopulation 0 Float64.half Float64.lit0015 [1] true [] zeroRng).2.1
      (newInitializedPopulation 0 Float64.half Float64.lit0015 [1] true [] zeroRng).2.2 = none ∧
    ∃ (pop' : population) (h' : Heap) (rng' : Rng),
      evolveN (2 ^ 63)
        (newInitializedPopulation 1 Float64.half Float64.lit0015 [1] true [] zeroRng).1
        (newInitializedPopulation 1 Float64.half Float64.lit0015 [1] true [] zeroRng).2.1
        (newInitializedPopulation 1 Float64.half Float64.lit0015 [1] true [] zeroRng).2.2
        = some (pop', h', rng') ∧
      pop'.generation = -(2 ^ 63) ∧ pop'.generation ≠ ((2 ^ 63 : Nat) : Int) := by
  refine ⟨rfl, ?_⟩
  obtain ⟨pop', h', rng', hN, hgen, _⟩ :=
    evolveN_init 1 Float64.half Float64.lit0015 [1] true [] zeroRng (2 ^ 63) (Or.inl (by decide))
  have hval : pop'.generation = -(2 ^ 63) := by
    rw [hgen]
    norm_num [wrapInt64]
  exact ⟨pop', h', rng', hN, hval, by rw [hval]; norm_num⟩

/-! ## Tie-breaking in `fittest` -/

/-- The scan of `fittest` keeps the first individual of maximal fitness: if the
current one is the first maximum of the slots `pre` already seen, the result
is the first maximum of `pre ++ rest`. -/
theorem fittest_scan_first (h : Heap) (rest : List (Option individual)) :
    ∀ (pre : List (Option individual)) (f : individual) (k : Nat),
      (∀ s ∈ rest, s ≠ none) → firstMax pre h k f →
      ∃ (r : individual) (k' : Nat),
        rest.foldlM (fittestStep h) (some f) = some (some r) ∧ firstMax (pre ++ rest) h k' r := by
  induction rest with
  | nil =>
    intro pre f k _ hfm
    exact ⟨f, k, rfl, by simpa using hfm⟩
  | cons s rest ih =>
    intro pre f k hs hfm
    obtain ⟨i, rfl⟩ := Option.ne_none_iff_exists'.mp (hs _ (List.mem_cons_self _ _))
    have hrest : ∀ s ∈ rest, s ≠ none := fun s hm => hs s (List.mem_cons_of_mem _ hm)
    obtain ⟨hk, hmax, hbefore⟩ := hfm
    have hklt : k < pre.length := by
      by_contra hcon
      rw [List.getElem?_eq_none (not_lt.mp hcon)] at hk
      cases hk
    have hsplit : pre ++ some i :: rest = (pre ++ [some i]) ++ rest := by simp
    by_cases hlt : individual.fitness f h < individual.fitness i h
    · obtain ⟨r, k', hr, hfm'⟩ := ih (pre ++ [some i]) i pre.length hrest (by
        refine ⟨by simp, ?_, ?_⟩
        · intro j y hj
          by_cases hjl : j < pre.length
          · rw [List.getElem?_append_left hjl] at hj
            exact le_trans (hmax j y hj) (le_of_lt hlt)
          · rw [List.getElem?_append_right (not_lt.mp hjl)] at hj
            cases hjz : j - pre.length with
            | zero => rw [hjz] at hj; simp at hj; rw [hj]
            | succ m => rw [hjz] at hj; simp at hj
        · intro j y hjl hj
          rw [List.getElem?_append_left hjl] at hj
          exact lt_of_le_of_lt (hmax j y hj) hlt)
      refine ⟨r, k', ?_, by rw [hsplit]; exact hfm'⟩
      simp [List.foldlM_cons, fittestStep, hlt, hr]
    · obtain ⟨r, k', hr, hfm'⟩ := ih (pre ++ [some i]) f k hrest (by
        refine ⟨by rw [List.getElem?_append_left hklt]; exact hk, ?_, ?_⟩
        · intro j y hj
          by_cases hjl : j < pre.length
          · rw [List.getElem?_append_left hjl] at hj
            exact hmax j y hj
          · rw [List.getElem?_append_right (not_lt.mp hjl)] at hj
            cases hjz : j - pre.length with
            | zero => rw [hjz] at hj; simp at hj; rw [← hj]; exact not_lt.mp hlt
            | succ m => rw [hjz] at hj; simp at hj
        · intro j y hjk hj
          rw [List.getElem?_append_left (lt_trans hjk hklt)] at hj
          exact hbefore j y hjk hj)
      refine ⟨r, k', ?_, by rw [hsplit]; exact hfm'⟩
      simp [List.foldlM_cons, fittestStep, hlt, hr]

/-- On slots without nil, `fittest` returns the first individual of maximal
fitness. -/
theorem fittest_firstMax (pop : population) (h : Heap)
    (hne : pop.individuals ≠ []) (hsome : ∀ s ∈ pop.individuals, s ≠ none) :
    ∃ (r : individual) (k : Nat),
      population.fittest pop h = some (some r) ∧ firstMax pop.individuals h k r := by
  unfold population.fittest
  cases hl : pop.individuals with
  | nil => exact absurd hl hne
  | cons s rest =>
    rw [hl] at hsome
    obtain ⟨f, rfl⟩ := Option.ne_none_iff_exists'.mp (hsome s (List.mem_cons_self _ _))
    obtain ⟨r, k, hr, hfm⟩ := fittest_scan_first h rest [some f] f 0
      (fun s hm => hsome s (List.mem_cons_of_mem _ hm))
      ⟨rfl, by
        intro j y hj
        cases j with
        | zero => simp at hj; rw [hj]
        | succ m => simp at hj, by
        intro j y hj0
        exact absurd hj0 (Nat.not_lt_zero _)⟩
    exact ⟨r, k, hr, by simpa using hfm⟩

/-- C17: tie-breaking in `fittest()`: for every non-empty population (every
slot holding an individual), `fittest()` returns the individual at the lowest
index among those of maximal fitness: slot `k` holds the result, no
individual is fitter, and every individual before slot `k` is strictly less
fit. -/
theorem fittest_lowest_index (pop : population) (h : Heap)
    (hne : pop.individuals ≠ []) (hsome : ∀ s ∈ pop.individuals, s ≠ none) :
    ∃ (r : individual) (k : Nat), population.fittest pop h = some (some r) ∧
      pop.individuals[k]? = some (some r) ∧
      (∀ (j : Nat) (y : individual), pop.individuals[j]? = some (some y) →
        individual.fitness y h ≤ individual.fitness r h) ∧
      (∀ (j : Nat) (y : individual), j < k → pop.individuals[j]? = some (some y) →
        individual.fitness y h < individual.fitness r h) :=
  fittest_firstMax pop h hne hsome

/-- Witness of C17: `tiePop`, where both individuals have fitness 1. -/
theorem fittest_lowest_index_witness :
    tiePop.individuals ≠ [] ∧ (∀ s ∈ tiePop.individuals, s ≠ none) ∧
    ∃ (r : individual) (k : Nat), population.fittest tiePop tieHeap = some (some r) ∧
      tiePop.individuals[k]? = some (some r) ∧
      (∀ (j : Nat) (y : individual), tiePop.individuals[j]? = some (some y) →
        individual.fitness y tieHeap ≤ individual.fitness r tieHeap) ∧
      (∀ (j : Nat) (y : individual), j < k → tiePop.individuals[j]? = some (some y) →
        individual.fitness y tieHeap < individual.fitness r tieHeap) :=
  ⟨by simp [tiePop, mkPopulation], by simp [tiePop, mkPopulation],
    fittest_lowest_index tiePop tieHeap (by simp [tiePop, mkPopulation])
      (by simp [tiePop, mkPopulation])⟩

/-! ## Claims on tournament selection -/

theorem getElem?_of_getD_eq {α : Type} (l : List α) (i : Nat) (d x : α) (hi : i < l.length)
    (hx : l.getD i d = x) : l[i]? = some x := by
  rw [List.getD_eq_getElem?_getD, List.getElem?_eq_getElem hi, Option.getD_some] at hx
  rw [List.getElem?_eq_getElem hi, hx]

/-- A tournament of positive size over a population without nil slot returns
the first individual of maximal fitness among the drawn ones; slot `i` of the
tournament is the individual at index `rng i % len`. -/
theorem individualByTournament_firstMax (pop : population) (size : Nat) (h : Heap) (rng : Rng)
    (hne : pop.individuals ≠ []) (hsome : ∀ s ∈ pop.individuals, s ≠ none) (hsize : 0 < size) :
    ∃ (a : individual) (k : Nat),
      population.individualByTournament pop size h rng = some (some a, Rng.drop rng size) ∧
      firstMax ((List.range size).map
        (fun i => pop.individuals.getD (rng i % pop.individuals.length) none)) h k a := by
  have hpos : 0 < pop.individuals.length := List.length_pos.mpr hne
  have hmem : ∀ s ∈ (List.range size).map
      (fun i => pop.individuals.getD (rng i % pop.individuals.length) none),
      s ∈ pop.individuals := by
    intro s hs
    obtain ⟨i, _, rfl⟩ := List.mem_map.mp hs
    exact getD_mem_of_lt _ _ _ (Nat.mod_lt _ hpos)
  obtain ⟨r, k, hr, hfm⟩ := fittest_firstMax
    (mkPopulation ((List.range size).map
      (fun i => pop.individuals.getD (rng i % pop.individuals.length) none)) pop.target) h
    (by
      simp only [mkPopulation]
      intro hnil
      have := congrArg List.length hnil
      simp at this
      omega)
    (fun s hs => hsome s (hmem s hs))
  refine ⟨r, k, ?_, hfm⟩
  rw [individualByTournament_eq pop size h rng hne, hr]
  rfl

/-- The slot `i` of a tournament, in terms of the population. -/
theorem drawn_getElem? (pop : population) (size : Nat) (rng : Rng) (i : Nat)
    (x : Option individual) (hne : pop.individuals ≠ [])
    (hx : ((List.range size).map
      (fun i => pop.individuals.getD (rng i % pop.individuals.length) none))[i]? = some x) :
    i < size ∧ pop.individuals[rng i % pop.individuals.length]? = some x := by
  have hpos : 0 < pop.individuals.length := List.length_pos.mpr hne
  have hi : i < size := by
    by_contra hcon
    rw [List.getElem?_eq_none (by simpa using not_lt.mp hcon)] at hx
    cases hx
  refine ⟨hi, ?_⟩
  rw [List.getElem?_map, List.getElem?_range hi] at hx
  simp only [Option.map_some', Option.some.injEq] at hx
  exact getElem?_of_getD_eq _ _ _ _ (Nat.mod_lt _ hpos) hx

/-- C12: for every non-empty population (every slot holding an individual),
every `tournamentSize >= 1` and every sequence of random draws,
`individualByTournament(tournamentSize)` returns one of the individuals drawn
by index (draw `i` selects the index `rng i % len`, with replacement), its
fitness is at least that of every drawn individual, and with
`tournamentSize = 1` it is the single drawn individual. -/
theorem tournament_spec (pop : population) (size : Nat) (h : Heap) (rng : Rng)
    (hne : pop.individuals ≠ []) (hsome : ∀ s ∈ pop.individuals, s ≠ none) (hsize : 1 ≤ size) :
    ∃ a : individual,
      population.individualByTournament pop size h rng = some (some a, Rng.drop rng size) ∧
      (∃ i, i < size ∧ pop.individuals[rng i % pop.individuals.length]? = some (some a)) ∧
      (∀ (i : Nat) (y : individual), i < size →
        pop.individuals[rng i % pop.individuals.length]? = some (some y) →
        individual.fitness y h ≤ individual.fitness a h) ∧
      (size = 1 → pop.individuals[rng 0 % pop.individuals.length]? = some (some a)) := by
  have hpos : 0 < pop.individuals.length := List.length_pos.mpr hne
  obtain ⟨a, k, ha, hk, hmax, _⟩ := individualByTournament_firstMax pop size h rng hne hsome hsize
  obtain ⟨hklt, hka⟩ := drawn_getElem? pop size rng k _ hne hk
  refine ⟨a, ha, ⟨k, hklt, hka⟩, ?_, ?_⟩
  · intro i y hi hy
    apply hmax i y
    rw [List.getElem?_map, List.getElem?_range hi]
    simp only [Option.map_some', Option.some.injEq]
    rw [List.getD_eq_getElem?_getD, hy, Option.getD_some]
  · intro h1
    have hk0 : k = 0 := by omega
    rw [← hk0]
    exact hka

/-- Witness of C12: a tournament of size 1 over `demoPop`, every raw draw 0. -/
theorem tournament_spec_witness :
    demoPop.individuals ≠ [] ∧ (∀ s ∈ demoPop.individuals, s ≠ none) ∧ 1 ≤ 1 ∧
    ∃ a : individual,
      population.individualByTournament demoPop 1 demoHeap zeroRng
        = some (some a, Rng.drop zeroRng 1) ∧
      (∃ i, i < 1 ∧ demoPop.individuals[zeroRng i % demoPop.individuals.length]?
        = some (some a)) ∧
      (∀ (i : Nat) (y : individual), i < 1 →
        demoPop.individuals[zeroRng i % demoPop.individuals.length]? = some (some y) →
        individual.fitness y demoHeap ≤ individual.fitness a demoHeap) ∧
      (1 = 1 → demoPop.individuals[zeroRng 0 % demoPop.individuals.length]? = some (some a)) :=
  ⟨by simp [demoPop, mkPopulation], by simp [demoPop, mkPopulation], by decide,
    tournament_spec demoPop 1 demoHeap zeroRng (by simp [demoPop, mkPopulation])
      (by simp [demoPop, mkPopulation]) (by decide)⟩

/-! ## The evolution step in full -/

/-- One iteration of the loop of `evolve`, with its parts: the parents are the
results of two tournaments of size 5, the child is the result of `crossover`
at rate 0.5, a new array, and `mutate` at rate 0.015 rewrites that array. -/
theorem evolveStep_full (pop : population) (L : Nat) (slots : List (Option individual))
    (h : Heap) (rng : Rng) (i : Nat) (hne : pop.individuals ≠ [])
    (hu : uniformSlots pop.individuals h L) :
    ∃ a b : individual, some a ∈ pop.individuals ∧ some b ∈ pop.individuals ∧
      population.individualByTournament pop 5 h rng = some (some a, Rng.drop rng 5) ∧
      population.individualByTournament pop 5 h (Rng.drop rng 5)
        = some (some b, Rng.drop rng 10) ∧
      (crossover a b Float64.half h (Rng.drop rng 10)).1 = some ⟨h.length, a.fitnessFunc⟩ ∧
      population.evolveStep pop (slots, h, rng) i
        = some (slots.set i (some ⟨h.length, a.fitnessFunc⟩),
            h ++ [(mutateGenes Float64.lit0015
              (crossGenes Float64.half (Heap.read h a.genes) (Heap.read h b.genes)
                (Rng.drop rng (10 + L))) (Rng.drop rng (10 + L + L))).1],
            (mutateGenes Float64.lit0015
              (crossGenes Float64.half (Heap.read h a.genes) (Heap.read h b.genes)
                (Rng.drop rng (10 + L))) (Rng.drop rng (10 + L + L))).2) := by
  have hsome := uniformSlots_ne_none _ _ _ hu
  obtain ⟨a, ha, hamem⟩ := individualByTournament_mem pop 5 h rng hne hsome (by norm_num)
  obtain ⟨b, hb, hbmem⟩ :=
    individualByTournament_mem pop 5 h (Rng.drop rng 5) hne hsome (by norm_num)
  rw [Rng.drop_drop] at hb
  have hla := uniformSlots_length _ _ _ hu a hamem
  have hlb := uniformSlots_length _ _ _ hu b hbmem
  have hlen : (Heap.read h a.genes).length = (Heap.read h b.genes).length := by rw [hla, hlb]
  refine ⟨a, b, hamem, hbmem, ha, hb, ?_, ?_⟩
  · rw [crossover_eq a b _ h _ hlen]
  · unfold population.evolveStep
    simp only [ha, hb, Option.some_bind, crossover_eq a b _ h _ hlen, mutate_eq,
      Heap.read_append_length, Rng.drop_drop, hla]
    congr 3
    · simp [Nat.add_assoc]
    · simp [Nat.add_assoc]

/-- The loop of `evolve` in full: besides what `evolve_loop` says, every slot
from `st` on holds a crossover child. -/
theorem evolve_loop_full (pop : population) (h : Heap) (rng : Rng) (L : Nat)
    (slots0 : List (Option individual)) (st : Nat)
    (hu : uniformSlots pop.individuals h L)
    (hlen0 : slots0.length = pop.individuals.length) :
    ∃ (slots : List (Option individual)) (ext : Heap) (rng' : Rng),
      (List.range' st (pop.individuals.length - st)).foldlM (population.evolveStep pop)
          (slots0, h, rng) = some (slots, h ++ ext, rng') ∧
      slots.length = pop.individuals.length ∧
      (∀ g ∈ ext, g.length = L) ∧
      (∀ j, j < st → slots[j]? = slots0[j]?) ∧
      (∀ j, st ≤ j → j < pop.individuals.length →
        ∃ c : individual, slots[j]? = some (some c) ∧ isChild pop h (h ++ ext) c) := by
  obtain ⟨s, hfold, hlen, ext, hheap, hext, hkeep, hchild⟩ :=
    foldlM_range'_inv (population.evolveStep pop)
      (fun k s => s.1.length = pop.individuals.length ∧
        ∃ ext : Heap, s.2.1 = h ++ ext ∧ (∀ g ∈ ext, g.length = L) ∧
          (∀ j, j < st → s.1[j]? = slots0[j]?) ∧
          (∀ j, st ≤ j → j < st + k →
            ∃ c : individual, s.1[j]? = some (some c) ∧ isChild pop h s.2.1 c))
      (slots0, h, rng) st (pop.individuals.length - st)
      ⟨hlen0, [], by simp, by simp, fun _ _ => rfl, by
        intro j h1 h2
        omega⟩
      (by
        rintro k ⟨sl, hh, r⟩ hk ⟨hlen, ext, hheap, hext, hkeep, hchild⟩
        simp only at hlen hheap hkeep hchild
        subst hheap
        have hne : pop.individuals ≠ [] := by
          intro hnil
          rw [hnil] at hk
          simp at hk
        have hu' := uniformSlots_append _ _ _ _ hu hext
        obtain ⟨a, b, hamem, hbmem, _, _, _, hstep⟩ :=
          evolveStep_full pop L sl (h ++ ext) r (st + k) hne hu'
        have hla := uniformSlots_length _ _ _ hu a hamem
        have hlb := uniformSlots_length _ _ _ hu b hbmem
        refine ⟨_, hstep, by simp [hlen], ext ++ [(mutateGenes Float64.lit0015
          (crossGenes Float64.half (Heap.read (h ++ ext) a.genes) (Heap.read (h ++ ext) b.genes)
            (Rng.drop r (10 + L))) (Rng.drop r (10 + L + L))).1], by simp, ?_, ?_, ?_⟩
        · intro g' hg'
          rcases List.mem_append.mp hg' with hm | hm
          · exact hext g' hm
          · rw [List.mem_singleton.mp hm, mutateGenes_length, crossGenes_length,
              Heap.read_append_of_length h ext _ L hext hla]
            exact hla
        · intro j hj
          simp only
          rw [List.getElem?_set_ne (by omega)]
          exact hkeep j hj
        · intro j hj1 hj2
          by_cases hjk : j = st + k
          · subst hjk
            refine ⟨⟨(h ++ ext).length, a.fitnessFunc⟩, ?_, a, b, hamem, hbmem, rfl, ?_, ?_, ?_⟩
            · simp only
              rw [List.getElem?_set_self (by rw [hlen]; omega)]
            · simp
            · simp
            · simp only [Heap.read_append_length]
              rw [Heap.read_append_of_length h ext _ L hext hla,
                Heap.read_append_of_length h ext _ L hext hlb]
              exact ⟨_, _, rfl⟩
          · obtain ⟨c, hc, a', b', ha', hb', hf, hge, hlt, hcg⟩ := hchild j hj1 (by omega)
            refine ⟨c, ?_, a', b', ha', hb', hf, hge, ?_, ?_⟩
            · simp only
              rw [List.getElem?_set_ne (Ne.symm hjk)]
              exact hc
            · simp only [List.length_append, List.length_singleton] at hlt ⊢
              omega
            · simp only
              rw [Heap.read_append_left _ _ _ hlt]
              exact hcg)
  obtain ⟨sl, hh, r⟩ := s
  simp only at hlen hheap hkeep hchild
  subst hheap
  refine ⟨sl, ext, r, hfold, hlen, hext, hkeep, ?_⟩
  intro j hj1 hj2
  exact hchild j hj1 (by omega)

/-- One call of `evolve()` in full, on a population whose individuals all
have gene length `L` (non-empty when elitist): it does not panic, the heap is
extended by arrays of length `L`, the rate fields are not read; when elitist
slot 0 holds the former fittest and the slots from 1 on hold crossover
children, otherwise every slot holds a crossover child. -/
theorem evolve_full (pop : population) (h : Heap) (rng : Rng) (L : Nat)
    (hu : uniformSlots pop.individuals h L)
    (hok : pop.elitist = true → pop.individuals ≠ []) :
    ∃ (slots : List (Option individual)) (ext : Heap) (rng' : Rng),
      population.evolve pop h rng
        = some (⟨slots, pop.target, wrapInt64 (pop.generation + 1), pop.elitist,
            pop.uniformRate, pop.mutationRate⟩, h ++ ext, rng') ∧
      slots.length = pop.individuals.length ∧
      (∀ g ∈ ext, g.length = L) ∧
      (pop.elitist = true → ∃ e : individual, population.fittest pop h = some (some e) ∧
        some e ∈ pop.individuals ∧ slots[0]? = some (some e) ∧
        ∀ j, 1 ≤ j → j < pop.individuals.length →
          ∃ c : individual, slots[j]? = some (some c) ∧ isChild pop h (h ++ ext) c) ∧
      (pop.elitist = false → ∀ j, j < pop.individuals.length →
        ∃ c : individual, slots[j]? = some (some c) ∧ isChild pop h (h ++ ext) c) := by
  unfold population.evolve
  simp only [newPopulation]
  by_cases hel : pop.elitist = true
  · have hne := hok hel
    have hpos : 0 < pop.individuals.length := List.length_pos.mpr hne
    obtain ⟨e, he, hemem, _⟩ := fittest_of_slots pop h hne (uniformSlots_ne_none _ _ _ hu)
    obtain ⟨slots, ext, rng', hfold, hlen, hext, hkeep, hchild⟩ := evolve_loop_full pop h rng L
      ((List.replicate pop.individuals.length none).set 0 (some e)) 1 hu (by simp)
    refine ⟨slots, ext, rng', ?_, hlen, hext, ?_, fun hc => ?_⟩
    · rw [if_pos hel, he]
      simp only [Option.map_some', Option.some_bind, hfold]
    · intro _
      refine ⟨e, he, hemem, ?_, hchild⟩
      rw [hkeep 0 (by norm_num), List.getElem?_set_self (by simpa using hpos)]
    · rw [hel] at hc
      cases hc
  · obtain ⟨slots, ext, rng', hfold, hlen, hext, _, hchild⟩ := evolve_loop_full pop h rng L
      (List.replicate pop.individuals.length none) 0 hu (by simp)
    refine ⟨slots, ext, rng', ?_, hlen, hext, fun hc => absurd hc hel, fun _ j hj => ?_⟩
    · rw [if_neg hel]
      simp only [Option.some_bind, hfold, Option.map_some']
    · exact hchild j (Nat.zero_le _) hj

/-! ## The children of a run of `evolve` -/

/-- One iteration of the loop of `evolve` from the state `(slots, h, rng)`:
the child it stores is the `childOfRun` of that state, and the heap grows by
the array of the child. -/
theorem evolveStep_run (pop : population) (L : Nat) (slots : List (Option individual))
    (h : Heap) (rng : Rng) (i : Nat) (hne : pop.individuals ≠ [])
    (hu : uniformSlots pop.individuals h L) :
    ∃ (c : individual) (g : List Nat) (rng' : Rng),
      population.evolveStep pop (slots, h, rng) i = some (slots.set i (some c), h ++ [g], rng') ∧
      g.length = L ∧ c.genes = h.length ∧
      childOfRun pop (slots, h, rng) c g := by
  have hsome := uniformSlots_ne_none _ _ _ hu
  obtain ⟨a, ha, hamem⟩ := individualByTournament_mem pop 5 h rng hne hsome (by norm_num)
  obtain ⟨b, hb, hbmem⟩ :=
    individualByTournament_mem pop 5 h (Rng.drop rng 5) hne hsome (by norm_num)
  rw [Rng.drop_drop] at hb
  have hla := uniformSlots_length _ _ _ hu a hamem
  have hlb := uniformSlots_length _ _ _ hu b hbmem
  have hlen : (Heap.read h a.genes).length = (Heap.read h b.genes).length := by rw [hla, hlb]
  have hcross := crossover_eq a b Float64.half h (Rng.drop rng 10) hlen
  have hmut := mutate_eq ⟨h.length, a.fitnessFunc⟩ Float64.lit0015
    (h ++ [crossGenes Float64.half (Heap.read h a.genes) (Heap.read h b.genes)
      (Rng.drop (Rng.drop rng 10) (Heap.read h a.genes).length)])
    (Rng.drop (Rng.drop rng 10) ((Heap.read h a.genes).length + (Heap.read h a.genes).length))
  simp only [Heap.read_append_length] at hmut
  have hset : ∀ x y : List Nat, (h ++ [x]).set h.length y = h ++ [y] := by
    intro x y
    rw [List.set_append, if_neg (lt_irrefl _), Nat.sub_self]
    rfl
  rw [hset] at hmut
  have hmlen : (mutateGenes Float64.lit0015
      (crossGenes Float64.half (Heap.read h a.genes) (Heap.read h b.genes)
        (Rng.drop (Rng.drop rng 10) (Heap.read h a.genes).length))
      (Rng.drop (Rng.drop rng 10)
        ((Heap.read h a.genes).length + (Heap.read h a.genes).length))).1.length = L := by
    rw [mutateGenes_length, crossGenes_length, hla]
  generalize crossGenes Float64.half (Heap.read h a.genes) (Heap.read h b.genes)
    (Rng.drop (Rng.drop rng 10) (Heap.read h a.genes).length) = cg at hcross hmut hmlen
  generalize mutateGenes Float64.lit0015 cg (Rng.drop (Rng.drop rng 10)
    ((Heap.read h a.genes).length + (Heap.read h a.genes).length)) = m at hmut hmlen
  refine ⟨⟨h.length, a.fitnessFunc⟩, m.1, m.2, ?_, hmlen, rfl, a, b, _, _, hamem, hbmem, ha, hb,
    hcross, rfl, ?_⟩
  · unfold population.evolveStep
    simp only [ha, hb, Option.some_bind, hcross, hmut]
  · simp only [hmut, Heap.read_append_length]

/-- The loop of `evolve` as a run: every state of the run exists, and slot `j`
of the final slot set holds the child made by the iteration that filled it,
with the genes that iteration gave it. -/
theorem evolve_loop_run (pop : population) (h : Heap) (rng : Rng) (L : Nat)
    (slots0 : List (Option individual)) (st : Nat)
    (hu : uniformSlots pop.individuals h L)
    (hlen0 : slots0.length = pop.individuals.length) :
    ∃ (slots : List (Option individual)) (ext : Heap) (rng' : Rng),
      evolveState pop st (pop.individuals.length - st) (slots0, h, rng)
        = some (slots, h ++ ext, rng') ∧
      slots.length = pop.individuals.length ∧
      (∀ g ∈ ext, g.length = L) ∧
      (∀ j, j < st → slots[j]? = slots0[j]?) ∧
      (∀ j, st ≤ j → j < pop.individuals.length →
        ∃ (s : List (Option individual) × Heap × Rng) (c : individual),
          evolveState pop st (j - st) (slots0, h, rng) = some s ∧
          childOfRun pop s c (Heap.read (h ++ ext) c.genes) ∧
          slots[j]? = some (some c)) := by
  obtain ⟨s, hfold, hrun, hlen, ext, hheap, hext, hkeep, hchild⟩ :=
    foldlM_range'_inv (population.evolveStep pop)
      (fun k s => evolveState pop st k (slots0, h, rng) = some s ∧
        s.1.length = pop.individuals.length ∧
        ∃ ext : Heap, s.2.1 = h ++ ext ∧ (∀ g ∈ ext, g.length = L) ∧
          (∀ j, j < st → s.1[j]? = slots0[j]?) ∧
          (∀ j, st ≤ j → j < st + k →
            ∃ (sj : List (Option individual) × Heap × Rng) (c : individual),
              evolveState pop st (j - st) (slots0, h, rng) = some sj ∧
              childOfRun pop sj c (Heap.read s.2.1 c.genes) ∧
              s.1[j]? = some (some c) ∧ c.genes < s.2.1.length))
      (slots0, h, rng) st (pop.individuals.length - st)
      ⟨rfl, hlen0, [], by simp, by simp, fun _ _ => rfl, by
        intro j h1 h2
        omega⟩
      (by
        rintro k ⟨sl, hh, r⟩ hk ⟨hrun, hlen, ext, hheap, hext, hkeep, hchild⟩
        simp only at hlen hheap hkeep hchild
        subst hheap
        have hne : pop.individuals ≠ [] := by
          intro hnil
          rw [hnil] at hk
          simp at hk
        have hu' := uniformSlots_append _ _ _ _ hu hext
        obtain ⟨c, g, rng', hstep, hg, hcg, hcr⟩ :=
          evolveStep_run pop L sl (h ++ ext) r (st + k) hne hu'
        refine ⟨_, hstep, ?_, by simp [hlen], ext ++ [g], by simp, ?_, ?_, ?_⟩
        · unfold evolveState at hrun ⊢
          rw [List.range'_1_concat, List.foldlM_append, hrun]
          simp [hstep]
        · intro g' hg'
          rcases List.mem_append.mp hg' with hm | hm
          · exact hext g' hm
          · rw [List.mem_singleton.mp hm]; exact hg
        · intro j hj
          simp only
          rw [List.getElem?_set_ne (by omega)]
          exact hkeep j hj
        · intro j hj1 hj2
          by_cases hjk : j = st + k
          · subst hjk
            refine ⟨(sl, h ++ ext, r), c, ?_, ?_, ?_, ?_⟩
            · rw [Nat.add_sub_cancel_left]
              exact hrun
            · simp only
              rw [hcg, Heap.read_append_length]
              exact hcr
            · simp only
              rw [List.getElem?_set_self (by rw [hlen]; omega)]
            · simp only [hcg, List.length_append, List.length_singleton]
              omega
          · obtain ⟨sj, c', hsj, hcr', hc', hlt⟩ := hchild j hj1 (by omega)
            refine ⟨sj, c', hsj, ?_, ?_, ?_⟩
            · simp only
              rw [Heap.read_append_left _ _ _ hlt]
              exact hcr'
            · simp only
              rw [List.getElem?_set_ne (Ne.symm hjk)]
              exact hc'
            · simp only [List.length_append, List.length_singleton] at hlt ⊢
              omega)
  obtain ⟨sl, hh, r⟩ := s
  simp only at hlen hheap hkeep hchild
  subst hheap
  refine ⟨sl, ext, r, hrun, hlen, hext, hkeep, ?_⟩
  intro j hj1 hj2
  obtain ⟨sj, c, hsj, hcr, hc, _⟩ := hchild j hj1 (by omega)
  exact ⟨sj, c, hsj, hcr, hc⟩

/-- One call of `evolve()` as a run, on a population whose individuals all
have gene length `L` (non-empty when elitist): the loop starts from the nil
slots (slot 0 holding the former fittest when elitist), none of its
iterations panics, and each slot it fills holds the child made by the
iteration that filled it. -/
theorem evolve_run (pop : population) (h : Heap) (rng : Rng) (L : Nat)
    (hu : uniformSlots pop.individuals h L)
    (hok : pop.elitist = true → pop.individuals ≠ []) :
    ∃ (slots : List (Option individual)) (ext : Heap) (rng' : Rng),
      population.evolve pop h rng
        = some (⟨slots, pop.target, wrapInt64 (pop.generation + 1), pop.elitist,
            pop.uniformRate, pop.mutationRate⟩, h ++ ext, rng') ∧
      slots.length = pop.individuals.length ∧
      (∀ g ∈ ext, g.length = L) ∧
      (pop.elitist = true → ∃ e : individual, population.fittest pop h = some (some e) ∧
        some e ∈ pop.individuals ∧ slots[0]? = some (some e) ∧
        evolveState pop 1 (pop.individuals.length - 1)
          ((List.replicate pop.individuals.length none).set 0 (some e), h, rng)
          = some (slots, h ++ ext, rng') ∧
        ∀ j, 1 ≤ j → j < pop.individuals.length →
          ∃ (s : List (Option individual) × Heap × Rng) (c : individual),
            evolveState pop 1 (j - 1)
              ((List.replicate pop.individuals.length none).set 0 (some e), h, rng) = some s ∧
            childOfRun pop s c (Heap.read (h ++ ext) c.genes) ∧
            slots[j]? = some (some c)) ∧
      (pop.elitist = false →
        evolveState pop 0 pop.individuals.length
          (List.replicate pop.individuals.length none, h, rng) = some (slots, h ++ ext, rng') ∧
        ∀ j, j < pop.individuals.length →
          ∃ (s : List (Option individual) × Heap × Rng) (c : individual),
            evolveState pop 0 j (List.replicate pop.individuals.length none, h, rng) = some s ∧
            childOfRun pop s c (Heap.read (h ++ ext) c.genes) ∧
            slots[j]? = some (some c)) := by
  unfold population.evolve
  simp only [newPopulation]
  by_cases hel : pop.elitist = true
  · have hne := hok hel
    have hpos : 0 < pop.individuals.length := List.length_pos.mpr hne
    obtain ⟨e, he, hemem, _⟩ := fittest_of_slots pop h hne (uniformSlots_ne_none _ _ _ hu)
    obtain ⟨slots, ext, rng', hfold, hlen, hext, hkeep, hchild⟩ := evolve_loop_run pop h rng L
      ((List.replicate pop.individuals.length none).set 0 (some e)) 1 hu (by simp)
    refine ⟨slots, ext, rng', ?_, hlen, hext, ?_, fun hc => ?_⟩
    · rw [if_pos hel, he]
      unfold evolveState at hfold
      simp only [Option.map_some', Option.some_bind, hfold]
    · intro _
      refine ⟨e, he, hemem, ?_, hfold, hchild⟩
      rw [hkeep 0 (by norm_num), List.getElem?_set_self (by simpa using hpos)]
    · rw [hel] at hc
      cases hc
  · obtain ⟨slots, ext, rng', hfold, hlen, hext, _, hchild⟩ := evolve_loop_run pop h rng L
      (List.replicate pop.individuals.length none) 0 hu (by simp)
    refine ⟨slots, ext, rng', ?_, hlen, hext, fun hc => absurd hc hel, fun _ => ⟨hfold, ?_⟩⟩
    · rw [if_neg hel]
      unfold evolveState at hfold
      simp only [Option.some_bind, hfold, Option.map_some']
    · intro j hj
      exact hchild j (Nat.zero_le _) hj

/-! ## Claims on the slots filled by `evolve` -/

/-- C11 (amended): for every population whose individuals all have the same
gene length (non-empty when elitist) and every sequence of random draws,
`evolve()` completes. When elitist, slot 0 of the new individual set is the
pre-evolve `fittest()` individual, its genes are unchanged by the step, and
each slot `j` of `1..size-1` holds the crossover child of the run: the child
returned by `crossover(a, b, 0.5)` in the iteration `j` of the loop, for the
parents `a`, `b` returned by the two tournaments of that iteration, in the
state the run has reached there, with the genes `c.mutate(0.015)` gave it.
When `elitist` is false, filling starts at slot 0 and every slot holds such a
child. -/
theorem evolve_slots (pop : population) (h : Heap) (rng : Rng)
    (hok : pop.elitist = true → pop.individuals ≠ [])
    (hsome : ∀ s ∈ pop.individuals, s ≠ none)
    (hlen : ∀ x y : individual, some x ∈ pop.individuals → some y ∈ pop.individuals →
      (Heap.read h x.genes).length = (Heap.read h y.genes).length) :
    ∃ (pop' : population) (h' : Heap) (rng' : Rng),
      population.evolve pop h rng = some (pop', h', rng') ∧
      pop'.individuals.length = pop.individuals.length ∧
      (pop.elitist = true → ∃ e : individual, population.fittest pop h = some (some e) ∧
        pop'.individuals[0]? = some (some e) ∧
        Heap.read h' e.genes = Heap.read h e.genes ∧
        evolveState pop 1 (pop.individuals.length - 1)
          ((List.replicate pop.individuals.length none).set 0 (some e), h, rng)
          = some (pop'.individuals, h', rng') ∧
        ∀ j, 1 ≤ j → j < pop.individuals.length →
          ∃ (s : List (Option individual) × Heap × Rng) (c : individual),
            evolveState pop 1 (j - 1)
              ((List.replicate pop.individuals.length none).set 0 (some e), h, rng) = some s ∧
            childOfRun pop s c (Heap.read h' c.genes) ∧
            pop'.individuals[j]? = some (some c)) ∧
      (pop.elitist = false →
        evolveState pop 0 pop.individuals.length
          (List.replicate pop.individuals.length none, h, rng)
          = some (pop'.individuals, h', rng') ∧
        ∀ j, j < pop.individuals.length →
          ∃ (s : List (Option individual) × Heap × Rng) (c : individual),
            evolveState pop 0 j (List.replicate pop.individuals.length none, h, rng) = some s ∧
            childOfRun pop s c (Heap.read h' c.genes) ∧
            pop'.individuals[j]? = some (some c)) := by
  obtain ⟨L, hu⟩ := uniformSlots_of_pairwise _ h hsome hlen
  obtain ⟨slots, ext, rng', hev, hl, hext, helite, hplain⟩ := evolve_run pop h rng L hu hok
  refine ⟨_, _, _, hev, hl, ?_, hplain⟩
  intro hel
  obtain ⟨e, he, hemem, h0, hrun, hchild⟩ := helite hel
  exact ⟨e, he, h0,
    Heap.read_append_of_length h ext _ L hext (uniformSlots_length _ _ _ hu e hemem), hrun,
    hchild⟩

/-- Witness of C11 (amended): `demoPop` in `demoHeap`, every raw draw 0. -/
theorem evolve_slots_witness :
    (demoPop.elitist = true → demoPop.individuals ≠ []) ∧
    (∀ s ∈ demoPop.individuals, s ≠ none) ∧
    (∀ x y : individual, some x ∈ demoPop.individuals → some y ∈ demoPop.individuals →
      (Heap.read demoHeap x.genes).length = (Heap.read demoHeap y.genes).length) ∧
    ∃ (pop' : population) (h' : Heap) (rng' : Rng),
      population.evolve demoPop demoHeap zeroRng = some (pop', h', rng') ∧
      pop'.individuals.length = demoPop.individuals.length ∧
      (demoPop.elitist = true → ∃ e : individual,
        population.fittest demoPop demoHeap = some (some e) ∧
        pop'.individuals[0]? = some (some e) ∧
        Heap.read h' e.genes = Heap.read demoHeap e.genes ∧
        evolveState demoPop 1 (demoPop.individuals.length - 1)
          ((List.replicate demoPop.individuals.length none).set 0 (some e), demoHeap, zeroRng)
          = some (pop'.individuals, h', rng') ∧
        ∀ j, 1 ≤ j → j < demoPop.individuals.length →
          ∃ (s : List (Option individual) × Heap × Rng) (c : individual),
            evolveState demoPop 1 (j - 1)
              ((List.replicate demoPop.individuals.length none).set 0 (some e), demoHeap,
                zeroRng) = some s ∧
            childOfRun demoPop s c (Heap.read h' c.genes) ∧
            pop'.individuals[j]? = some (some c)) ∧
      (demoPop.elitist = false →
        evolveState demoPop 0 demoPop.individuals.length
          (List.replicate demoPop.individuals.length none, demoHeap, zeroRng)
          = some (pop'.individuals, h', rng') ∧
        ∀ j, j < demoPop.individuals.length →
          ∃ (s : List (Option individual) × Heap × Rng) (c : individual),
            evolveState demoPop 0 j
              (List.replicate demoPop.individuals.length none, demoHeap, zeroRng) = some s ∧
            childOfRun demoPop s c (Heap.read h' c.genes) ∧
            pop'.individuals[j]? = some (some c)) :=
  have hok : demoPop.elitist = true → demoPop.individuals ≠ [] :=
    fun _ => by simp [demoPop, mkPopulation]
  have hsome : ∀ s ∈ demoPop.individuals, s ≠ none := by simp [demoPop, mkPopulation]
  have hlen : ∀ x y : individual, some x ∈ demoPop.individuals →
      some y ∈ demoPop.individuals →
      (Heap.read demoHeap x.genes).length = (Heap.read demoHeap y.genes).length := by
    intro x y hx hy
    simp only [demoPop, mkPopulation, List.mem_cons, Option.some.injEq, List.mem_singleton,
      List.not_mem_nil, or_false] at hx hy
    rcases hx with rfl | rfl <;> rcases hy with rfl | rfl <;> rfl
  ⟨hok, hsome, hlen, evolve_slots demoPop demoHeap zeroRng hok hsome hlen⟩

/-- C11 as stated fails: the individuals of `mixedPop` have the gene lengths 1
and 2. With the draws of `mixedRng` the two tournaments of the first
iteration select the first and then the second individual, `crossover`
returns nil and `c.mutate` dereferences it; `evolve()` panics, with elitism
(filling slot 1) and without (filling slot 0), and no new slot set exists. -/
theorem evolve_slots_counterexample :
    mixedPopPlain.individuals ≠ [] ∧ (∀ s ∈ mixedPopPlain.individuals, s ≠ none) ∧
    mixedPopPlain.elitist = false ∧ mixedPop.elitist = true ∧
    mixedPop.individuals = mixedPopPlain.individuals ∧
    population.evolve mixedPopPlain mixedHeap mixedRng = none ∧
    population.evolve mixedPop mixedHeap mixedRng = none :=
  ⟨by simp [mixedPopPlain, mixedPop, mkPopulation],
    by simp [mixedPopPlain, mixedPop, mkPopulation], rfl, rfl, rfl, rfl, rfl⟩

/-- C19: `evolve()` never faults on a correctly constructed population: for
every population with at least one individual (every slot holding one) in
which all individuals have the same gene length, and for every sequence of
random draws, `fittest()` and `individualByTournament(5)` stay in bounds and
return a member, `crossover` of two members returns an individual, and
`evolve()` completes (no panic of an index, of `rand.Intn`, or of `mutate` on
a nil child) with every new slot holding an individual. -/
theorem evolve_never_faults (pop : population) (h : Heap) (rng : Rng)
    (hne : pop.individuals ≠ []) (hsome : ∀ s ∈ pop.individuals, s ≠ none)
    (hlen : ∀ x y : individual, some x ∈ pop.individuals → some y ∈ pop.individuals →
      (Heap.read h x.genes).length = (Heap.read h y.genes).length) :
    (∃ e : individual, population.fittest pop h = some (some e) ∧ some e ∈ pop.individuals) ∧
    (∀ r : Rng, ∃ a : individual,
      population.individualByTournament pop 5 h r = some (some a, Rng.drop r 5) ∧
      some a ∈ pop.individuals) ∧
    (∀ (a b : individual) (rate : Float64) (r : Rng),
      some a ∈ pop.individuals → some b ∈ pop.individuals →
      ∃ c : individual, (crossover a b rate h r).1 = some c) ∧
    ∃ (pop' : population) (h' : Heap) (rng' : Rng),
      population.evolve pop h rng = some (pop', h', rng') ∧
      pop'.individuals.length = pop.individuals.length ∧
      ∀ s ∈ pop'.individuals, s ≠ none := by
  obtain ⟨L, hu⟩ := uniformSlots_of_pairwise _ h hsome hlen
  refine ⟨?_, ?_, ?_, ?_⟩
  · obtain ⟨e, he, hemem, _⟩ := fittest_of_slots pop h hne hsome
    exact ⟨e, he, hemem⟩
  · intro r
    exact individualByTournament_mem pop 5 h r hne hsome (by norm_num)
  · intro a b rate r ha hb
    rw [crossover_eq a b rate h r (hlen a b ha hb)]
    exact ⟨_, rfl⟩
  · obtain ⟨slots, ext, rng', hev, hl, _, hu', _, _⟩ :=
      evolve_post pop h rng L hu (fun _ => hne)
    exact ⟨_, _, _, hev, hl, uniformSlots_ne_none _ _ _ hu'⟩

/-- Witness of C19: `demoPop` in `demoHeap`, every raw draw 0. -/
theorem evolve_never_faults_witness :
    demoPop.individuals ≠ [] ∧ (∀ s ∈ demoPop.individuals, s ≠ none) ∧
    (∀ x y : individual, some x ∈ demoPop.individuals → some y ∈ demoPop.individuals →
      (Heap.read demoHeap x.genes).length = (Heap.read demoHeap y.genes).length) ∧
    (∃ e : individual, population.fittest demoPop demoHeap = some (some e) ∧
      some e ∈ demoPop.individuals) ∧
    (∀ r : Rng, ∃ a : individual,
      population.individualByTournament demoPop 5 demoHeap r = some (some a, Rng.drop r 5) ∧
      some a ∈ demoPop.individuals) ∧
    (∀ (a b : individual) (rate : Float64) (r : Rng),
      some a ∈ demoPop.individuals → some b ∈ demoPop.individuals →
      ∃ c : individual, (crossover a b rate demoHeap r).1 = some c) ∧
    ∃ (pop' : population) (h' : Heap) (rng' : Rng),
      population.evolve demoPop demoHeap zeroRng = some (pop', h', rng') ∧
      pop'.individuals.length = demoPop.individuals.length ∧
      ∀ s ∈ pop'.individuals, s ≠ none :=
  have hne : demoPop.individuals ≠ [] := by simp [demoPop, mkPopulation]
  have hsome : ∀ s ∈ demoPop.individuals, s ≠ none := by simp [demoPop, mkPopulation]
  have hlen : ∀ x y : individual, some x ∈ demoPop.individuals →
      some y ∈ demoPop.individuals →
      (Heap.read demoHeap x.genes).length = (Heap.read demoHeap y.genes).length := by
    intro x y hx hy
    simp only [demoPop, mkPopulation, List.mem_cons, Option.some.injEq, List.mem_singleton,
      List.not_mem_nil, or_false] at hx hy
    rcases hx with rfl | rfl <;> rcases hy with rfl | rfl <;> rfl
  ⟨hne, hsome, hlen, evolve_never_faults demoPop demoHeap zeroRng hne hsome hlen⟩

/-! ## Populations of one individual -/

theorem fittest_single (pop : population) (h : Heap) (x : individual)
    (hx : pop.individuals = [some x]) : population.fittest pop h = some (some x) := by
  unfold population.fittest
  rw [hx]
  rfl

/-- One call of `evolve()` on an elitist population of one individual: the
loop does not run, nothing is drawn and nothing is allocated. -/
theorem evolve_single (pop : population) (h : Heap) (rng : Rng) (x : individual)
    (hx : pop.individuals = [some x]) (hel : pop.elitist = true) :
    population.evolve pop h rng
      = some (⟨[some x], pop.target, wrapInt64 (pop.generation + 1), pop.elitist,
          pop.uniformRate, pop.mutationRate⟩, h, rng) := by
  unfold population.evolve
  simp only [newPopulation]
  rw [if_pos hel, fittest_single pop h x hx, hx]
  rfl

/-- Any number of calls of `evolve()` on an elitist population of one
individual. -/
theorem evolveN_single (n : Nat) :
    ∀ (pop : population) (h : Heap) (rng : Rng) (x : individual),
      pop.individuals = [some x] → pop.elitist = true →
      ∃ g : Int, evolveN n pop h rng
          = some (⟨[some x], pop.target, g, pop.elitist, pop.uniformRate, pop.mutationRate⟩,
              h, rng) ∧
        wrapInt64 g = wrapInt64 (pop.generation + n) := by
  induction n with
  | zero =>
    intro pop h rng x hx _
    refine ⟨pop.generation, ?_, by simp⟩
    rw [evolveN, ← hx]
  | succ n ih =>
    intro pop h rng x hx hel
    obtain ⟨g, hN, hg⟩ := ih ⟨[some x], pop.target, wrapInt64 (pop.generation + 1), pop.elitist,
      pop.uniformRate, pop.mutationRate⟩ h rng x rfl hel
    refine ⟨g, ?_, ?_⟩
    · rw [evolveN, evolve_single pop h rng x hx hel]
      exact hN
    · rw [hg]
      simp only
      rw [wrapInt64_add_left]
      congr 1
      push_cast
      ring

/-- C20: for an elitist population of exactly one individual and every
sequence of random draws, `evolve()` leaves the individual set unchanged: the
sole individual is carried over, no child is produced (nothing is drawn,
nothing is allocated or written); only `generation` changes, incremented as a
Go `int`; so after any number of calls `fittest()` is the same individual
with the same fitness. -/
theorem evolve_single_elitist (pop : population) (h : Heap) (rng : Rng) (x : individual)
    (hx : pop.individuals = [some x]) (hel : pop.elitist = true) :
    population.evolve pop h rng
      = some (⟨pop.individuals, pop.target, wrapInt64 (pop.generation + 1), pop.elitist,
          pop.uniformRate, pop.mutationRate⟩, h, rng) ∧
    (-(2 ^ 63) ≤ pop.generation → pop.generation < 2 ^ 63 - 1 →
      wrapInt64 (pop.generation + 1) = pop.generation + 1) ∧
    ∀ n : Nat, ∃ pop' : population, evolveN n pop h rng = some (pop', h, rng) ∧
      pop'.individuals = pop.individuals ∧ pop'.target = pop.target ∧
      pop'.elitist = pop.elitist ∧ pop'.uniformRate = pop.uniformRate ∧
      pop'.mutationRate = pop.mutationRate ∧
      wrapInt64 pop'.generation = wrapInt64 (pop.generation + n) ∧
      population.fittest pop h = some (some x) ∧
      population.fittest pop' h = some (some x) := by
  refine ⟨?_, ?_, ?_⟩
  · rw [evolve_single pop h rng x hx hel, hx]
  · intro h1 h2
    unfold wrapInt64
    norm_num at h1 h2 ⊢
    omega
  · intro n
    obtain ⟨g, hN, hg⟩ := evolveN_single n pop h rng x hx hel
    exact ⟨_, hN, hx.symm, rfl, rfl, rfl, rfl, hg, fittest_single pop h x hx,
      fittest_single _ h x rfl⟩

/-- Witness of C20: `singlePop` in `singleHeap`, every raw draw 0. -/
theorem evolve_single_elitist_witness :
    singlePop.individuals = [some (mkIndividual 0 [1, 1])] ∧ singlePop.elitist = true ∧
    population.evolve singlePop singleHeap zeroRng
      = some (⟨singlePop.individuals, singlePop.target, wrapInt64 (singlePop.generation + 1),
          singlePop.elitist, singlePop.uniformRate, singlePop.mutationRate⟩,
          singleHeap, zeroRng) ∧
    (-(2 ^ 63) ≤ singlePop.generation → singlePop.generation < 2 ^ 63 - 1 →
      wrapInt64 (singlePop.generation + 1) = singlePop.generation + 1) ∧
    ∀ n : Nat, ∃ pop' : population, evolveN n singlePop singleHeap zeroRng
        = some (pop', singleHeap, zeroRng) ∧
      pop'.individuals = singlePop.individuals ∧ pop'.target = singlePop.target ∧
      pop'.elitist = singlePop.elitist ∧ pop'.uniformRate = singlePop.uniformRate ∧
      pop'.mutationRate = singlePop.mutationRate ∧
      wrapInt64 pop'.generation = wrapInt64 (singlePop.generation + n) ∧
      population.fittest singlePop singleHeap = some (some (mkIndividual 0 [1, 1])) ∧
      population.fittest pop' singleHeap = some (some (mkIndividual 0 [1, 1])) :=
  ⟨rfl, rfl, evolve_single_elitist singlePop singleHeap zeroRng (mkIndividual 0 [1, 1]) rfl rfl⟩

theorem crossGenes_self (rate : Float64) (A : List Nat) (rng : Rng) :
    crossGenes rate A A rng = A := by
  apply List.ext_getElem?
  intro i
  by_cases hi : i < A.length
  · rw [crossGenes_getElem? _ _ _ _ _ hi, ← getD_eq_of_lt _ _ hi]
    split_ifs <;> rfl
  · rw [List.getElem?_eq_none (by rw [crossGenes_length]; exact not_lt.mp hi),
      List.getElem?_eq_none (not_lt.mp hi)]

/-- C18: with population size 1 crossover crosses the individual with itself:
for a population holding exactly one individual, `individualByTournament(k)`
returns that individual for every `k >= 1` and every random draw; the child
of `crossover` of the individual with itself has, before mutation, the genes
of the individual, for every `uniformRate`; and an iteration of the loop of
`evolve()` takes the individual as both parents, so that the child stored is
a new array holding the genes of the individual mutated at rate 0.015. -/
theorem single_individual_crossover (pop : population) (h : Heap) (x : individual)
    (hx : pop.individuals = [some x]) :
    (∀ (k : Nat) (rng : Rng), 1 ≤ k →
      population.individualByTournament pop k h rng = some (some x, Rng.drop rng k)) ∧
    (∀ (rate : Float64) (rng : Rng), ∃ c : individual,
      (crossover x x rate h rng).1 = some c ∧
      Heap.read (crossover x x rate h rng).2.1 c.genes = Heap.read h x.genes) ∧
    (∀ (slots : List (Option individual)) (rng : Rng) (i : Nat), ∃ r : Rng,
      population.evolveStep pop (slots, h, rng) i
        = some (slots.set i (some ⟨h.length, x.fitnessFunc⟩),
            h ++ [(mutateGenes Float64.lit0015 (Heap.read h x.genes) r).1],
            (mutateGenes Float64.lit0015 (Heap.read h x.genes) r).2)) := by
  have hne : pop.individuals ≠ [] := by rw [hx]; simp
  have hsome : ∀ s ∈ pop.individuals, s ≠ none := by rw [hx]; simp
  have hu : uniformSlots pop.individuals h (Heap.read h x.genes).length := by
    intro s hs
    rw [hx] at hs
    exact ⟨x, List.mem_singleton.mp hs, rfl⟩
  have hself : ∀ a : individual, some a ∈ pop.individuals → a = x := by
    intro a ha
    rw [hx] at ha
    exact Option.some.inj (List.mem_singleton.mp ha)
  refine ⟨?_, ?_, ?_⟩
  · intro k rng hk
    obtain ⟨a, ha, hamem⟩ := individualByTournament_mem pop k h rng hne hsome hk
    rw [ha, hself a hamem]
  · intro rate rng
    rw [crossover_eq x x rate h rng rfl]
    exact ⟨_, rfl, by simp only [Heap.read_append_length, crossGenes_self]⟩
  · intro slots rng i
    obtain ⟨a, b, hamem, hbmem, _, _, _, hstep⟩ :=
      evolveStep_full pop _ slots h rng i hne hu
    rw [hself a hamem, hself b hbmem, crossGenes_self] at hstep
    exact ⟨_, hstep⟩

/-- Witness of C18: `singlePop` in `singleHeap`. -/
theorem single_individual_crossover_witness :
    singlePop.individuals = [some (mkIndividual 0 [1, 1])] ∧
    (∀ (k : Nat) (rng : Rng), 1 ≤ k →
      population.individualByTournament singlePop k singleHeap rng
        = some (some (mkIndividual 0 [1, 1]), Rng.drop rng k)) ∧
    (∀ (rate : Float64) (rng : Rng), ∃ c : individual,
      (crossover (mkIndividual 0 [1, 1]) (mkIndividual 0 [1, 1]) rate singleHeap rng).1
        = some c ∧
      Heap.read (crossover (mkIndividual 0 [1, 1]) (mkIndividual 0 [1, 1]) rate singleHeap
        rng).2.1 c.genes = Heap.read singleHeap (mkIndividual 0 [1, 1]).genes) ∧
    (∀ (slots : List (Option individual)) (rng : Rng) (i : Nat), ∃ r : Rng,
      population.evolveStep singlePop (slots, singleHeap, rng) i
        = some (slots.set i (some ⟨singleHeap.length, (mkIndividual 0 [1, 1]).fitnessFunc⟩),
            singleHeap ++ [(mutateGenes Float64.lit0015
              (Heap.read singleHeap (mkIndividual 0 [1, 1]).genes) r).1],
            (mutateGenes Float64.lit0015
              (Heap.read singleHeap (mkIndividual 0 [1, 1]).genes) r).2)) :=
  ⟨rfl, single_individual_crossover singlePop singleHeap (mkIndividual 0 [1, 1]) rfl⟩

/-! ## Independence of the configured rates -/

/-- A tournament does not read the rate fields, the target, the generation or
the flag of the population. -/
theorem individualByTournament_congr (pop1 pop2 : population) (size : Nat) (h : Heap)
    (rng : Rng) (hi : pop1.individuals = pop2.individuals) :
    population.individualByTournament pop1 size h rng
      = population.individualByTournament pop2 size h rng := by
  have hstep : population.tournamentStep pop1 = population.tournamentStep pop2 := by
    funext s i
    unfold population.tournamentStep
    rw [hi]
  unfold population.individualByTournament
  simp only [newPopulation, hstep]
  congr 1

/-- An iteration of the loop of `evolve` reads only the individuals. -/
theorem evolveStep_congr (pop1 pop2 : population)
    (hi : pop1.individuals = pop2.individuals) :
    population.evolveStep pop1 = population.evolveStep pop2 := by
  funext s i
  unfold population.evolveStep
  simp only [individualByTournament_congr pop1 pop2 5 _ _ hi]

/-- Two populations that agree on everything but the rate fields evolve alike:
both calls panic, or both return the same individuals, generation, target,
flag, heap and random source. -/
theorem evolve_congr (pop1 pop2 : population) (h : Heap) (rng : Rng)
    (hi : pop1.individuals = pop2.individuals) (ht : pop1.target = pop2.target)
    (hg : pop1.generation = pop2.generation) (he : pop1.elitist = pop2.elitist) :
    (population.evolve pop1 h rng).map
        (fun r => (r.1.individuals, r.1.generation, r.1.target, r.1.elitist, r.2.1, r.2.2))
      = (population.evolve pop2 h rng).map
        (fun r => (r.1.individuals, r.1.generation, r.1.target, r.1.elitist, r.2.1, r.2.2)) := by
  unfold population.evolve
  simp only [newPopulation, evolveStep_congr pop1 pop2 hi, fittest_congr pop1 pop2 h hi, hi, ht,
    hg, he, Option.map_bind, Option.map_map]
  congr 1
  funext a
  simp only [Function.comp, Option.map_map]
  rfl

/-- C13: the result of `evolve()` is independent of the configured rates: two
populations that agree on individuals, target, generation and elitist,
whatever their `uniformRate` and `mutationRate`, evolve alike under the same
sequence of random draws (both calls panic, or they yield the same new
individuals, generation, heap and remaining draws); the constructors discard
the rates passed to them; and an iteration of the loop uses two tournaments
of size 5, crossover at rate 0.5 and mutation at rate 0.015. -/
theorem evolve_rate_independent (pop1 pop2 : population) (h : Heap) (rng : Rng)
    (hi : pop1.individuals = pop2.individuals) (ht : pop1.target = pop2.target)
    (hg : pop1.generation = pop2.generation) (he : pop1.elitist = pop2.elitist) :
    (population.evolve pop1 h rng).map
        (fun r => (r.1.individuals, r.1.generation, r.1.target, r.1.elitist, r.2.1, r.2.2))
      = (population.evolve pop2 h rng).map
        (fun r => (r.1.individuals, r.1.generation, r.1.target, r.1.elitist, r.2.1, r.2.2)) ∧
    (∀ (size : Nat) (u1 m1 u2 m2 : Float64) (target : List Nat) (elitist : Bool) (h0 : Heap)
      (r : Rng),
      newPopulation size u1 m1 target elitist = newPopulation size u2 m2 target elitist ∧
      newInitializedPopulation size u1 m1 target elitist h0 r
        = newInitializedPopulation size u2 m2 target elitist h0 r) ∧
    (∀ (L : Nat) (slots : List (Option individual)) (i : Nat),
      pop1.individuals ≠ [] → uniformSlots pop1.individuals h L →
      ∃ a b : individual,
        population.individualByTournament pop1 5 h rng = some (some a, Rng.drop rng 5) ∧
        population.individualByTournament pop1 5 h (Rng.drop rng 5)
          = some (some b, Rng.drop rng 10) ∧
        (crossover a b Float64.half h (Rng.drop rng 10)).1
          = some ⟨h.length, a.fitnessFunc⟩ ∧
        population.evolveStep pop1 (slots, h, rng) i
          = some (slots.set i (some ⟨h.length, a.fitnessFunc⟩),
              h ++ [(mutateGenes Float64.lit0015
                (crossGenes Float64.half (Heap.read h a.genes) (Heap.read h b.genes)
                  (Rng.drop rng (10 + L))) (Rng.drop rng (10 + L + L))).1],
              (mutateGenes Float64.lit0015
                (crossGenes Float64.half (Heap.read h a.genes) (Heap.read h b.genes)
                  (Rng.drop rng (10 + L))) (Rng.drop rng (10 + L + L))).2)) := by
  refine ⟨evolve_congr pop1 pop2 h rng hi ht hg he, ?_, ?_⟩
  · intro size u1 m1 u2 m2 target elitist h0 r
    exact ⟨rfl, rfl⟩
  · intro L slots i hne hu
    obtain ⟨a, b, _, _, ha, hb, hc, hstep⟩ := evolveStep_full pop1 L slots h rng i hne hu
    exact ⟨a, b, ha, hb, hc, hstep⟩

/-- Witness of C13: `demoPop` (rates 0.0, 0.0) and `demoPopRates` (rates 1.0,
0.5) in `demoHeap`, every raw draw 0. -/
theorem evolve_rate_independent_witness :
    demoPop.individuals = demoPopRates.individuals ∧ demoPop.target = demoPopRates.target ∧
    demoPop.generation = demoPopRates.generation ∧ demoPop.elitist = demoPopRates.elitist ∧
    ((population.evolve demoPop demoHeap zeroRng).map
        (fun r => (r.1.individuals, r.1.generation, r.1.target, r.1.elitist, r.2.1, r.2.2))
      = (population.evolve demoPopRates demoHeap zeroRng).map
        (fun r => (r.1.individuals, r.1.generation, r.1.target, r.1.elitist, r.2.1, r.2.2)) ∧
    (∀ (size : Nat) (u1 m1 u2 m2 : Float64) (target : List Nat) (elitist : Bool) (h0 : Heap)
      (r : Rng),
      newPopulation size u1 m1 target elitist = newPopulation size u2 m2 target elitist ∧
      newInitializedPopulation size u1 m1 target elitist h0 r
        = newInitializedPopulation size u2 m2 target elitist h0 r) ∧
    (∀ (L : Nat) (slots : List (Option individual)) (i : Nat),
      demoPop.individuals ≠ [] → uniformSlots demoPop.individuals demoHeap L →
      ∃ a b : individual,
        population.individualByTournament demoPop 5 demoHeap zeroRng
          = some (some a, Rng.drop zeroRng 5) ∧
        population.individualByTournament demoPop 5 demoHeap (Rng.drop zeroRng 5)
          = some (some b, Rng.drop zeroRng 10) ∧
        (crossover a b Float64.half demoHeap (Rng.drop zeroRng 10)).1
          = some ⟨demoHeap.length, a.fitnessFunc⟩ ∧
        population.evolveStep demoPop (slots, demoHeap, zeroRng) i
          = some (slots.set i (some ⟨demoHeap.length, a.fitnessFunc⟩),
              demoHeap ++ [(mutateGenes Float64.lit0015
                (crossGenes Float64.half (Heap.read demoHeap a.genes)
                  (Heap.read demoHeap b.genes) (Rng.drop zeroRng (10 + L)))
                (Rng.drop zeroRng (10 + L + L))).1],
              (mutateGenes Float64.lit0015
                (crossGenes Float64.half (Heap.read demoHeap a.genes)
                  (Heap.read demoHeap b.genes) (Rng.drop zeroRng (10 + L)))
                (Rng.drop zeroRng (10 + L + L))).2))) :=
  ⟨rfl, rfl, rfl, rfl,
    evolve_rate_independent demoPop demoPopRates demoHeap zeroRng rfl rfl rfl rfl⟩

/-! ## Well-formedness of the individuals -/

theorem mod_two_binary (n : Nat) : n % 2 = 0 ∨ n % 2 = 1 := Nat.mod_two_eq_zero_or_one n

theorem binaryGenes_getD (g : List Nat) (i : Nat) (hg : binaryGenes g) :
    g.getD i 0 = 0 ∨ g.getD i 0 = 1 := by
  by_cases hi : i < g.length
  · exact hg _ (getD_mem_of_lt g i 0 hi)
  · left
    rw [List.getD_eq_getElem?_getD, List.getElem?_eq_none (not_lt.mp hi)]
    rfl

theorem crossGenes_binary (rate : Float64) (A B : List Nat) (rng : Rng)
    (hA : binaryGenes A) (hB : binaryGenes B) : binaryGenes (crossGenes rate A B rng) := by
  intro v hv
  unfold crossGenes at hv
  obtain ⟨i, _, rfl⟩ := List.mem_map.mp hv
  split_ifs
  · exact binaryGenes_getD A i hA
  · exact binaryGenes_getD B i hB

theorem mutateGenes_binary (rate : Float64) (gs : List Nat) :
    ∀ rng : Rng, binaryGenes gs → binaryGenes (mutateGenes rate gs rng).1 := by
  induction gs with
  | nil => intro rng _; rw [mutateGenes_nil]; intro v hv; cases hv
  | cons g gs ih =>
    intro rng hb
    have hg : g = 0 ∨ g = 1 := hb g (List.mem_cons_self _ _)
    have hgs : binaryGenes gs := fun v hv => hb v (List.mem_cons_of_mem _ hv)
    rw [mutateGenes_cons]
    split_ifs
    · intro v hv
      rcases List.mem_cons.mp hv with rfl | hv
      · exact mod_two_binary _
      · exact ih _ hgs v hv
    · intro v hv
      rcases List.mem_cons.mp hv with rfl | hv
      · exact hg
      · exact ih _ hgs v hv

theorem childGenes_binary (A B g : List Nat) (hA : binaryGenes A) (hB : binaryGenes B)
    (hg : childGenes A B g) : binaryGenes g := by
  obtain ⟨r1, r2, rfl⟩ := hg
  exact mutateGenes_binary _ _ _ (crossGenes_binary _ A B r1 hA hB)

theorem childGenes_length (A B g : List Nat) (hg : childGenes A B g) : g.length = A.length := by
  obtain ⟨r1, r2, rfl⟩ := hg
  rw [mutateGenes_length, crossGenes_length]

theorem wellFormedSlots_uniform (slots : List (Option individual)) (h : Heap) (L : Nat)
    (hw : wellFormedSlots slots h L) : uniformSlots slots h L := by
  intro s hs
  obtain ⟨x, hx, hl, _⟩ := hw s hs
  exact ⟨x, hx, hl⟩

theorem wellFormedSlots_binary (slots : List (Option individual)) (h : Heap) (L : Nat)
    (hw : wellFormedSlots slots h L) (x : individual) (hx : some x ∈ slots) :
    binaryGenes (Heap.read h x.genes) := by
  obtain ⟨y, hy, _, hb⟩ := hw _ hx
  cases hy
  exact hb

/-- What `newIndividual` returns is well formed: `size` genes, each 0 or 1. -/
theorem newIndividual_wellFormed (size : Nat) (f : List Nat → Int) (h : Heap) (rng : Rng) :
    (Heap.read (newIndividual size f h rng).2.1 (newIndividual size f h rng).1.genes).length
      = size ∧
    binaryGenes
      (Heap.read (newIndividual size f h rng).2.1 (newIndividual size f h rng).1.genes) := by
  rw [newIndividual_eq]
  simp only [Heap.read_append_length]
  refine ⟨by simp, ?_⟩
  intro v hv
  obtain ⟨i, _, rfl⟩ := List.mem_map.mp hv
  exact mod_two_binary _

/-- An elitist call of `evolve()` on an empty population panics. -/
theorem evolve_empty_elitist (pop : population) (h : Heap) (rng : Rng)
    (hnil : pop.individuals = []) (hel : pop.elitist = true) :
    population.evolve pop h rng = none := by
  have hf : population.fittest pop h = none := by
    unfold population.fittest
    rw [hnil]
  unfold population.evolve
  simp only [newPopulation]
  rw [if_pos hel, hf]
  rfl

/-- One call of `evolve()` keeps the slots well formed. -/
theorem evolve_wellFormed (pop : population) (h : Heap) (rng : Rng) (L : Nat)
    (hw : wellFormedSlots pop.individuals h L) (r : population × Heap × Rng)
    (hev : population.evolve pop h rng = some r) :
    wellFormedSlots r.1.individuals r.2.1 L := by
  have hu := wellFormedSlots_uniform _ _ _ hw
  by_cases hok : pop.elitist = true → pop.individuals ≠ []
  · obtain ⟨slots, ext, rng', hev', hlen, hext, helite, hplain⟩ := evolve_full pop h rng L hu hok
    rw [hev'] at hev
    cases hev
    simp only
    have hchild : ∀ c : individual, isChild pop h (h ++ ext) c →
        (Heap.read (h ++ ext) c.genes).length = L ∧ binaryGenes (Heap.read (h ++ ext) c.genes) := by
      rintro c ⟨a, b, ha, hb, _, _, _, hcg⟩
      exact ⟨by rw [childGenes_length _ _ _ hcg]; exact uniformSlots_length _ _ _ hu a ha,
        childGenes_binary _ _ _ (wellFormedSlots_binary _ _ _ hw a ha)
          (wellFormedSlots_binary _ _ _ hw b hb) hcg⟩
    intro s hs
    obtain ⟨j, hj⟩ := List.mem_iff_getElem?.mp hs
    have hjlt : j < pop.individuals.length := by
      by_contra hcon
      rw [List.getElem?_eq_none (by rw [hlen]; exact not_lt.mp hcon)] at hj
      cases hj
    by_cases hel : pop.elitist = true
    · obtain ⟨e, _, hemem, h0, hch⟩ := helite hel
      by_cases hj0 : j = 0
      · subst hj0
        rw [h0] at hj
        have hread := Heap.read_append_of_length h ext _ L hext
          (uniformSlots_length _ _ _ hu e hemem)
        refine ⟨e, (Option.some.inj hj).symm, ?_, ?_⟩
        · rw [hread]; exact uniformSlots_length _ _ _ hu e hemem
        · rw [hread]; exact wellFormedSlots_binary _ _ _ hw e hemem
      · obtain ⟨c, hc, hic⟩ := hch j (by omega) hjlt
        rw [hc] at hj
        exact ⟨c, (Option.some.inj hj).symm, (hchild c hic).1, (hchild c hic).2⟩
    · have hel' : pop.elitist = false := by simpa using hel
      obtain ⟨c, hc, hic⟩ := hplain hel' j hjlt
      rw [hc] at hj
      exact ⟨c, (Option.some.inj hj).symm, (hchild c hic).1, (hchild c hic).2⟩
  · push_neg at hok
    rw [evolve_empty_elitist pop h rng hok.2 hok.1] at hev
    cases hev

/-- Any number of calls of `evolve()` keeps the slots well formed. -/
theorem evolveN_wellFormed (n : Nat) :
    ∀ (pop : population) (h : Heap) (rng : Rng) (L : Nat),
      wellFormedSlots pop.individuals h L → ∀ r : population × Heap × Rng,
      evolveN n pop h rng = some r → wellFormedSlots r.1.individuals r.2.1 L := by
  induction n with
  | zero =>
    intro pop h rng L hw r hr
    simp only [evolveN, Option.some.injEq] at hr
    rw [← hr]
    exact hw
  | succ n ih =>
    intro pop h rng L hw r hr
    rw [evolveN] at hr
    cases hev : population.evolve pop h rng with
    | none => rw [hev] at hr; cases hr
    | some r1 =>
      rw [hev] at hr
      exact ih r1.1 r1.2.1 r1.2.2 L (evolve_wellFormed pop h rng L hw r1 hev) r hr

/-- The slots built by `newInitializedPopulation` are well formed for the
length of the target. -/
theorem newInitializedPopulation_wellFormed (size : Nat) (u m : Float64) (target : List Nat)
    (elitist : Bool) (h : Heap) (rng : Rng) :
    wellFormedSlots (newInitializedPopulation size u m target elitist h rng).1.individuals
      (newInitializedPopulation size u m target elitist h rng).2.1 target.length := by
  have key := foldl_range_inv (population.initStep (newPopulation size u m target elitist))
    (fun k s => s.1.length = size ∧
      ∃ ext : Heap, s.2.1 = h ++ ext ∧ (∀ g ∈ ext, g.length = target.length) ∧
        (∀ j, j < k → ∃ x : individual, s.1[j]? = some (some x) ∧
            (Heap.read s.2.1 x.genes).length = target.length ∧
            binaryGenes (Heap.read s.2.1 x.genes)))
    ((newPopulation size u m target elitist).individuals, h, rng) size
    ⟨by simp [newPopulation], [], by simp, by simp, by
      intro j hj
      exact absurd hj (Nat.not_lt_zero _)⟩
    (by
      rintro k ⟨sl, hh, r⟩ hk ⟨hlen, ext, hheap, hext, hslots⟩
      simp only at hlen hheap hslots
      subst hheap
      unfold population.initStep
      simp only [newIndividual_eq]
      have htl : (newPopulation size u m target elitist).target = target := rfl
      rw [htl]
      have hbits : ((List.range target.length).map (fun i => r i % 2)).length = target.length := by
        simp
      have hbin : binaryGenes ((List.range target.length).map (fun i => r i % 2)) := by
        intro v hv
        obtain ⟨i, _, rfl⟩ := List.mem_map.mp hv
        exact mod_two_binary _
      refine ⟨by simp [hlen], ext ++ [(List.range target.length).map (fun i => r i % 2)],
        by simp, ?_, ?_⟩
      · intro g hg
        rcases List.mem_append.mp hg with hm | hm
        · exact hext g hm
        · rw [List.mem_singleton.mp hm]; exact hbits
      · intro j hjk
        by_cases hjeq : j = k
        · subst hjeq
          refine ⟨⟨(h ++ ext).length,
            population.fitness (newPopulation size u m target elitist)⟩, ?_, ?_, ?_⟩
          · rw [List.getElem?_set_self (by rw [hlen]; exact hk)]
          · simp only [Heap.read_append_length]
            exact hbits
          · simp only [Heap.read_append_length]
            exact hbin
        · obtain ⟨x, hx, hxlen, hxb⟩ := hslots j (by omega)
          have hread := Heap.read_append_of_length (h ++ ext)
            [(List.range target.length).map (fun i => r i % 2)] x.genes target.length
            (by intro g' hg'; rw [List.mem_singleton.mp hg']; exact hbits) hxlen
          refine ⟨x, ?_, ?_, ?_⟩
          · rw [List.getElem?_set_ne (Ne.symm hjeq)]
            exact hx
          · rw [hread]; exact hxlen
          · rw [hread]; exact hxb)
  obtain ⟨hlen, ext, hheap, hext, hslots⟩ := key
  unfold newInitializedPopulation
  intro s hs
  obtain ⟨j, hj⟩ := List.mem_iff_getElem?.mp hs
  have hjlt : j < size := by
    by_contra hcon
    simp only at hj
    rw [List.getElem?_eq_none (by rw [hlen]; exact not_lt.mp hcon)] at hj
    cases hj
  obtain ⟨x, hx, hxlen, hxb⟩ := hslots j hjlt
  simp only at hj
  rw [hx] at hj
  exact ⟨x, (Option.some.inj hj).symm, hxlen, hxb⟩

/-- C14: well-formedness invariant: `newIndividual(N, f)` returns an
individual with `len(genes) == N` and every gene in {0,1}; every individual of
a population built by `newInitializedPopulation` has `len(genes) ==
len(target)` and binary genes; and this holds again for every individual of
the population after any number of `evolve()` calls, for every sequence of
random draws (the calls complete whenever the population is non-empty or not
elitist). -/
theorem individuals_wellFormed :
    (∀ (N : Nat) (f : List Nat → Int) (h : Heap) (rng : Rng),
      (Heap.read (newIndividual N f h rng).2.1 (newIndividual N f h rng).1.genes).length = N ∧
      binaryGenes (Heap.read (newIndividual N f h rng).2.1 (newIndividual N f h rng).1.genes)) ∧
    (∀ (size : Nat) (u m : Float64) (target : List Nat) (elitist : Bool) (h : Heap) (rng : Rng),
      wellFormedSlots (newInitializedPopulation size u m target elitist h rng).1.individuals
        (newInitializedPopulation size u m target elitist h rng).2.1 target.length) ∧
    (∀ (size : Nat) (u m : Float64) (target : List Nat) (elitist : Bool) (h : Heap) (rng : Rng)
      (n : Nat) (r : population × Heap × Rng),
      evolveN n (newInitializedPopulation size u m target elitist h rng).1
        (newInitializedPopulation size u m target elitist h rng).2.1
        (newInitializedPopulation size u m target elitist h rng).2.2 = some r →
      wellFormedSlots r.1.individuals r.2.1 target.length) ∧
    (∀ (size : Nat) (u m : Float64) (target : List Nat) (elitist : Bool) (h : Heap) (rng : Rng)
      (n : Nat), 0 < size ∨ elitist = false →
      ∃ r : population × Heap × Rng,
        evolveN n (newInitializedPopulation size u m target elitist h rng).1
          (newInitializedPopulation size u m target elitist h rng).2.1
          (newInitializedPopulation size u m target elitist h rng).2.2 = some r) := by
  refine ⟨newIndividual_wellFormed, newInitializedPopulation_wellFormed, ?_, ?_⟩
  · intro size u m target elitist h rng n r hr
    exact evolveN_wellFormed n _ _ _ _
      (newInitializedPopulation_wellFormed size u m target elitist h rng) r hr
  · intro size u m target elitist h rng n hsize
    obtain ⟨pop', h', rng', hN, _⟩ := evolveN_init size u m target elitist h rng n hsize
    exact ⟨_, hN⟩

/-! ## Rendering, parsing of the target, and the exit of the driver loop -/

/-- What `String` returns: one character per gene, in gene order. -/
theorem String_eq (ind : individual) (h : Heap) :
    individual.String ind h = ⟨(Heap.read h ind.genes).map geneChar⟩ := by
  unfold individual.String
  have key := foldl_range_inv (stringStep (Heap.read h ind.genes))
    (fun k s => s = ((Heap.read h ind.genes).take k).map geneChar) []
    (Heap.read h ind.genes).length (by simp)
    (by
      intro k s hk hs
      subst hs
      have htake : (Heap.read h ind.genes).take (k + 1)
          = (Heap.read h ind.genes).take k ++ [(Heap.read h ind.genes)[k]] := by
        rw [List.take_succ, List.getElem?_eq_getElem hk]; rfl
      have hget : (Heap.read h ind.genes).getD k 0 = (Heap.read h ind.genes)[k] := by
        rw [List.getD_eq_getElem?_getD, List.getElem?_eq_getElem hk, Option.getD_some]
      unfold stringStep
      rw [htake, hget, List.map_append, List.map_singleton]
      unfold geneChar
      split_ifs <;> rfl)
  simp only at key
  rw [key, List.take_length]

theorem utf8ByteSize_go_binary (cs : List Char) (hb : ∀ c ∈ cs, c = '0' ∨ c = '1') :
    String.utf8ByteSize.go cs = cs.length := by
  induction cs with
  | nil => rfl
  | cons c cs ih =>
    have hc : c.utf8Size = 1 := by
      rcases hb c (List.mem_cons_self _ _) with rfl | rfl <;> decide
    rw [String.utf8ByteSize.go, ih (fun d hd => hb d (List.mem_cons_of_mem _ hd)), hc,
      List.length_cons]

/-- The loop of `stringToGenes` on characters `0` and `1`: every character
takes one byte, so cell `i` receives the value of character `i`. -/
theorem stringToGenes_loop (cs : List Char) :
    ∀ pre : List Nat, (∀ c ∈ cs, c = '0' ∨ c = '1') →
      cs.foldl stringToGenesStep (pre ++ List.replicate cs.length 0, pre.length)
        = (pre ++ cs.map (fun c => if c = '1' then 1 else 0), pre.length + cs.length) := by
  induction cs with
  | nil => intro pre _; simp
  | cons c cs ih =>
    intro pre hb
    have hc : c.utf8Size = 1 := by
      rcases hb c (List.mem_cons_self _ _) with rfl | rfl <;> decide
    have hstep : stringToGenesStep (pre ++ List.replicate (c :: cs).length 0, pre.length) c
        = ((pre ++ [if c = '1' then 1 else 0]) ++ List.replicate cs.length 0,
            (pre ++ [if c = '1' then 1 else 0]).length) := by
      unfold stringToGenesStep
      simp only [hc, List.length_cons, List.replicate_succ, List.length_append,
        List.length_singleton]
      rw [List.set_append, if_neg (lt_irrefl _), Nat.sub_self, List.set_cons_zero,
        List.append_assoc]
      rfl
    rw [List.foldl_cons, hstep, ih _ (fun d hd => hb d (List.mem_cons_of_mem _ hd))]
    simp [Nat.add_assoc, Nat.add_comm 1]

/-- What `stringToGenes` returns on a string of `0` and `1`. -/
theorem stringToGenes_binary (s : GoString) (hb : binaryString s) :
    stringToGenes s = s.data.map (fun c => if c = '1' then 1 else 0) := by
  unfold stringToGenes
  have hsize : s.utf8ByteSize = s.data.length := utf8ByteSize_go_binary s.data hb
  rw [hsize]
  have := stringToGenes_loop s.data [] hb
  simp only [List.nil_append, List.length_nil, zero_add] at this
  rw [this]

/-- Rendering after parsing gives the string back. -/
theorem String_stringToGenes (s : GoString) (hb : binaryString s) (ind : individual) (h : Heap)
    (hg : Heap.read h ind.genes = stringToGenes s) : individual.String ind h = s := by
  rw [String_eq, hg, stringToGenes_binary s hb, List.map_map]
  have hid : s.data.map (geneChar ∘ fun c => if c = '1' then 1 else 0) = s.data := by
    conv_rhs => rw [← List.map_id s.data]
    apply List.map_congr_left
    intro c hc
    rcases hb c hc with rfl | rfl <;> rfl
  rw [hid]

/-- C15: for every individual, `String` returns a string with exactly
`len(genes)` characters, each `0` or `1`, in gene order: character `i` is `0`
when `genes[i] == 0` and `1` otherwise; consequently, for every string `s`
made only of `0` and `1`, `String` of an individual whose genes are
`stringToGenes(s)` equals `s`. -/
theorem String_spec (ind : individual) (h : Heap) :
    (individual.String ind h).length = (Heap.read h ind.genes).length ∧
    (∀ c ∈ (individual.String ind h).data, c = '0' ∨ c = '1') ∧
    (∀ i, i < (Heap.read h ind.genes).length →
      (individual.String ind h).data[i]?
        = (Heap.read h ind.genes)[i]?.map (fun v => if v = 0 then '0' else '1')) ∧
    (∀ s : GoString, (∀ c ∈ s.data, c = '0' ∨ c = '1') →
      Heap.read h ind.genes = stringToGenes s → individual.String ind h = s) := by
  refine ⟨?_, ?_, ?_, ?_⟩
  · rw [String_eq]
    simp [String.length]
  · rw [String_eq]
    intro c hc
    obtain ⟨v, _, rfl⟩ := List.mem_map.mp hc
    unfold geneChar
    split_ifs
    · exact Or.inl rfl
    · exact Or.inr rfl
  · intro i _
    rw [String_eq]
    simp only [List.getElem?_map]
    rfl
  · intro s hb hg
    exact String_stringToGenes s hb ind h hg

theorem fitness_le_length (pop : population) (genes : List Nat) :
    population.fitness pop genes ≤ (pop.target.length : Nat) := by
  by_cases hlen : genes.length = pop.target.length
  · rw [fitness_eq_countP pop _ hlen]
    have hle := List.countP_le_length
      (fun i => decide (pop.target[i]? = genes[i]?)) (l := List.range pop.target.length)
    rw [List.length_range] at hle
    exact_mod_cast hle
  · rw [fitness_of_length_ne pop _ hlen]
    exact Int.natCast_nonneg _

/-- A non-empty target is reached only by genes equal to it. -/
theorem genes_eq_target_of_fitness (pop : population) (genes : List Nat)
    (hne : pop.target ≠ []) (hfit : population.fitness pop genes = (pop.target.length : Nat)) :
    genes = pop.target := by
  by_cases hlen : genes.length = pop.target.length
  · exact (fitness_full_iff_of_length pop genes hlen).mp hfit
  · rw [fitness_of_length_ne pop _ hlen] at hfit
    have : pop.target.length = 0 := by exact_mod_cast hfit.symm
    exact absurd (List.length_eq_zero.mp this) hne

/-- C16 (amended): driver exit condition: for every non-empty population
whose individuals score with the population's fitness and whose target is
`stringToGenes(t)` for a string `t` of `0` and `1`, except when `t` is empty
and the fittest individual has at least one gene, whenever the loop condition
`fittest().fitness() < len(target)` is false, `fittest().fitness()` equals
`len(target)`, the genes of the fittest individual equal the target, and its
rendering equals `t`. -/
theorem driver_exit (pop : population) (h : Heap) (t : GoString)
    (hne : pop.individuals ≠ []) (hsome : ∀ s ∈ pop.individuals, s ≠ none)
    (hfit : ∀ x : individual, some x ∈ pop.individuals →
      x.fitnessFunc = population.fitness pop)
    (ht : pop.target = stringToGenes t) (hb : ∀ c ∈ t.data, c = '0' ∨ c = '1')
    (hgen : ∀ e : individual, population.fittest pop h = some (some e) →
      t.data ≠ [] ∨ Heap.read h e.genes = [])
    (hcond : loopCondition pop h = some false) :
    ∃ e : individual, population.fittest pop h = some (some e) ∧
      individual.fitness e h = (pop.target.length : Nat) ∧
      Heap.read h e.genes = pop.target ∧ individual.String e h = t := by
  obtain ⟨e, he, hemem, _⟩ := fittest_of_slots pop h hne hsome
  have hfe : individual.fitness e h = population.fitness pop (Heap.read h e.genes) := by
    unfold individual.fitness
    rw [hfit e hemem]
  have hnlt : ¬ individual.fitness e h < (pop.target.length : Nat) := by
    unfold loopCondition at hcond
    rw [he] at hcond
    simpa using hcond
  have heq : individual.fitness e h = (pop.target.length : Nat) :=
    le_antisymm (by rw [hfe]; exact fitness_le_length pop _) (not_lt.mp hnlt)
  have hgenes : Heap.read h e.genes = pop.target := by
    by_cases hdata : t.data = []
    · rcases hgen e he with hd | hg
      · exact absurd hdata hd
      · rw [hg, ht, stringToGenes_binary t hb, hdata]
        rfl
    · have htne : pop.target ≠ [] := by
        rw [ht, stringToGenes_binary t hb]
        intro hnil
        exact hdata (List.map_eq_nil_iff.mp hnil)
      exact genes_eq_target_of_fitness pop _ htne (by rw [← hfe]; exact heq)
  exact ⟨e, he, heq, hgenes, String_stringToGenes t hb e h (by rw [hgenes, ht])⟩

/-- Witness of C16 (amended), on both sides of the exception: the default
target `110011` with an individual whose genes are `110011`, and the empty
string with an individual that has no genes. -/
theorem driver_exit_witness :
    (defaultPop.individuals ≠ [] ∧ (∀ s ∈ defaultPop.individuals, s ≠ none) ∧
      (∀ x : individual, some x ∈ defaultPop.individuals →
        x.fitnessFunc = population.fitness defaultPop) ∧
      defaultPop.target = stringToGenes "110011" ∧
      (∀ c ∈ ("110011" : GoString).data, c = '0' ∨ c = '1') ∧
      (∀ e : individual, population.fittest defaultPop [[1, 1, 0, 0, 1, 1]] = some (some e) →
        ("110011" : GoString).data ≠ [] ∨ Heap.read [[1, 1, 0, 0, 1, 1]] e.genes = []) ∧
      loopCondition defaultPop [[1, 1, 0, 0, 1, 1]] = some false ∧
      ∃ e : individual, population.fittest defaultPop [[1, 1, 0, 0, 1, 1]] = some (some e) ∧
        individual.fitness e [[1, 1, 0, 0, 1, 1]] = (defaultPop.target.length : Nat) ∧
        Heap.read [[1, 1, 0, 0, 1, 1]] e.genes = defaultPop.target ∧
        individual.String e [[1, 1, 0, 0, 1, 1]] = "110011") ∧
    (emptyTargetPop.individuals ≠ [] ∧ (∀ s ∈ emptyTargetPop.individuals, s ≠ none) ∧
      (∀ x : individual, some x ∈ emptyTargetPop.individuals →
        x.fitnessFunc = population.fitness emptyTargetPop) ∧
      emptyTargetPop.target = stringToGenes "" ∧
      (∀ c ∈ ("" : GoString).data, c = '0' ∨ c = '1') ∧
      (∀ e : individual, population.fittest emptyTargetPop [[]] = some (some e) →
        ("" : GoString).data ≠ [] ∨ Heap.read [[]] e.genes = []) ∧
      loopCondition emptyTargetPop [[]] = some false ∧
      ∃ e : individual, population.fittest emptyTargetPop [[]] = some (some e) ∧
        individual.fitness e [[]] = (emptyTargetPop.target.length : Nat) ∧
        Heap.read [[]] e.genes = emptyTargetPop.target ∧
        individual.String e [[]] = "") :=
  have hne : defaultPop.individuals ≠ [] := by simp [defaultPop, mkPopulation]
  have hsome : ∀ s ∈ defaultPop.individuals, s ≠ none := by simp [defaultPop, mkPopulation]
  have hfit : ∀ x : individual, some x ∈ defaultPop.individuals →
      x.fitnessFunc = population.fitness defaultPop := by
    intro x hx
    simp only [defaultPop, mkPopulation, List.mem_singleton, Option.some.injEq] at hx
    rw [hx]
    rfl
  have hb : ∀ c ∈ ("110011" : GoString).data, c = '0' ∨ c = '1' := by decide
  have hgen : ∀ e : individual,
      population.fittest defaultPop [[1, 1, 0, 0, 1, 1]] = some (some e) →
      ("110011" : GoString).data ≠ [] ∨ Heap.read [[1, 1, 0, 0, 1, 1]] e.genes = [] :=
    fun _ _ => Or.inl (by decide)
  have hcond : loopCondition defaultPop [[1, 1, 0, 0, 1, 1]] = some false := by decide
  have hne0 : emptyTargetPop.individuals ≠ [] := by simp [emptyTargetPop, mkPopulation]
  have hsome0 : ∀ s ∈ emptyTargetPop.individuals, s ≠ none := by
    simp [emptyTargetPop, mkPopulation]
  have hfit0 : ∀ x : individual, some x ∈ emptyTargetPop.individuals →
      x.fitnessFunc = population.fitness emptyTargetPop := by
    intro x hx
    simp only [emptyTargetPop, mkPopulation, List.mem_singleton, Option.some.injEq] at hx
    rw [hx]
    rfl
  have hb0 : ∀ c ∈ ("" : GoString).data, c = '0' ∨ c = '1' := by decide
  have hgen0 : ∀ e : individual, population.fittest emptyTargetPop [[]] = some (some e) →
      ("" : GoString).data ≠ [] ∨ Heap.read [[]] e.genes = [] := by
    intro e he
    have h0 : population.fittest emptyTargetPop [[]] = some (some (mkIndividual 0 [])) := rfl
    rw [h0] at he
    simp only [Option.some.injEq] at he
    rw [← he]
    exact Or.inr rfl
  have hcond0 : loopCondition emptyTargetPop [[]] = some false := by decide
  ⟨⟨hne, hsome, hfit, rfl, hb, hgen, hcond,
      driver_exit defaultPop [[1, 1, 0, 0, 1, 1]] "110011" hne hsome hfit rfl hb hgen hcond⟩,
    ⟨hne0, hsome0, hfit0, rfl, hb0, hgen0, hcond0,
      driver_exit emptyTargetPop [[]] "" hne0 hsome0 hfit0 rfl hb0 hgen0 hcond0⟩⟩

/-- C16 as stated fails for the empty string `t`: the target is empty, the
single individual has the genes `1` and scores 0 with the fitness of the
population, the loop condition `0 < 0` is false, but the genes are not the
target and the rendering is `1`, not the empty string. -/
theorem driver_exit_counterexample :
    emptyTargetPop.individuals ≠ [] ∧ (∀ s ∈ emptyTargetPop.individuals, s ≠ none) ∧
    (∀ x : individual, some x ∈ emptyTargetPop.individuals →
      x.fitnessFunc = population.fitness emptyTargetPop) ∧
    emptyTargetPop.target = stringToGenes "" ∧
    (∀ c ∈ ("" : GoString).data, c = '0' ∨ c = '1') ∧
    loopCondition emptyTargetPop [[1]] = some false ∧
    population.fittest emptyTargetPop [[1]] = some (some (mkIndividual 0 [])) ∧
    Heap.read [[1]] (mkIndividual 0 []).genes ≠ emptyTargetPop.target ∧
    individual.String (mkIndividual 0 []) [[1]] ≠ "" := by
  refine ⟨by simp [emptyTargetPop, mkPopulation], by simp [emptyTargetPop, mkPopulation], ?_,
    rfl, by decide, by decide, rfl, by decide, by decide⟩
  intro x hx
  simp only [emptyTargetPop, mkPopulation, List.mem_singleton, Option.some.injEq] at hx
  rw [hx]
  rfl

end Gatest
